import Mathlib

/-!
Shallow embedding of `src/packages/fast-io/fs/src/fast-hfs.js` (class
`FastHfsImpl`) over the host handle-tree capability interface described in
the spec (§6).  Paths are modelled as segment lists (the spec's
LogicalPath: `Path.from`/`push`/`pop`/`toString` become list construction,
append and `dropLast`; the round trip through the canonical string is the
identity on valid segments).  The backing store is a finite tree of named
entries; a handle is the path at which it was resolved, re-looked-up at
each primitive call, which matches the adapter's no-cache fresh-resolution
discipline (spec §3).  Host faults (permission denial, I/O errors) are
modelled by injection lists in the store: a primitive touching a path that
carries an injected fault raises a host error with that fault's name
string, mirroring DOMException `name` checks in the source
(`ex.name === "NotAllowedError"`).  Timestamps are naturals; the wall
clock is an explicit `now` argument to the operations that consult it.
-/

namespace FastHfs

abbrev Seg := String
abbrev Pth := List Seg

/-- A node of the backing store: a file with byte content and a
last-modified timestamp, or a directory with a list of named children. -/
inductive Entry : Type where
  | file (content : List Nat) (mtime : Nat)
  | dir (children : List (Seg × Entry))
deriving Repr

/-- Handle kinds, the `kind` field of host handles. -/
inductive EKind : Type where
  | file
  | directory
deriving Repr, DecidableEq

/-- Errors surfaced by the adapter: its own error classes
(`NotFoundError`, `DirectoryError`, `NotEmptyError` from `@humanfs/core`,
carrying the operation name), host-level faults carried by their
DOMException name string, and fuel exhaustion of the embedding (the JS has
no such outcome; it marks runs the finite fuel did not complete). -/
inductive Err : Type where
  | notFound (op : String)
  | directory (op : String)
  | notEmpty (op : String)
  | host (name : String)
  | outOfFuel
deriving Repr, DecidableEq

/-- The backing store: the root directory's children plus fault-injection
tables for the host primitives and the native-directory-move capability
probe (`if (directoryHandle.move)` in `moveAll`). -/
structure Store : Type where
  root : List (Seg × Entry)
  faults : List (Pth × String)
  moveFaults : List (Pth × String)
  removeFaults : List (Pth × String)
  dirMove : Bool
deriving Repr

/-- Store with no injected host faults (the claims about functional
behaviour are settled on fault-free stores; the fault tables exist for the
error-propagation claims). -/
def Clean (st : Store) : Prop :=
  st.faults = [] ∧ st.moveFaults = [] ∧ st.removeFaults = []

/-- Association lookup in a children list (host child resolution by name). -/
def findC : List (Seg × Entry) → Seg → Option Entry
  | [], _ => none
  | (n, e) :: rest, m => if n = m then some e else findC rest m

/-- Replace the first binding of `n` (or append a new one): the effect of
creating or overwriting a child in a host directory. -/
def upd : List (Seg × Entry) → Seg → Entry → List (Seg × Entry)
  | [], n, e => [(n, e)]
  | (m, x) :: rest, n, e =>
      if m = n then (n, e) :: rest else (m, x) :: upd rest n e

/-- Drop the first binding of `n`: the effect of `removeEntry`. -/
def del : List (Seg × Entry) → Seg → List (Seg × Entry)
  | [], _ => []
  | (m, x) :: rest, n => if m = n then rest else (m, x) :: del rest n

/-- Entry at a path below a children list; the empty path denotes the
directory holding the list itself.  Non-final segments must be
directories, exactly as the host tree is walked. -/
def findE : List (Seg × Entry) → Pth → Option Entry
  | cs, [] => some (.dir cs)
  | cs, n :: rest =>
      match findC cs n with
      | some (.dir ds) => if rest = [] then some (.dir ds) else findE ds rest
      | some e => if rest = [] then some e else none
      | none => none

/-- Write an entry at a (nonempty) path, assuming the proper prefixes
resolve to directories; otherwise the tree is unchanged. -/
def setAt : List (Seg × Entry) → Pth → Entry → List (Seg × Entry)
  | cs, [], _ => cs
  | cs, [n], e => upd cs n e
  | cs, n :: rest, e =>
      match findC cs n with
      | some (.dir ds) => upd cs n (.dir (setAt ds rest e))
      | _ => cs

/-- Remove the entry at a (nonempty) path, if present. -/
def removeAt : List (Seg × Entry) → Pth → List (Seg × Entry)
  | cs, [] => cs
  | cs, [n] => del cs n
  | cs, n :: rest =>
      match findC cs n with
      | some (.dir ds) => upd cs n (.dir (removeAt ds rest))
      | _ => cs

/-- Kind of an entry. -/
def kindOf : Entry → EKind
  | .file _ _ => .file
  | .dir _ => .directory

/-- Fault-injection lookup. -/
def fLook : List (Pth × String) → Pth → Option String
  | [], _ => none
  | (p, s) :: rest, q => if p = q then some s else fLook rest q

/-- Kind of the entry a resolved handle currently points at (`handle.kind`
in the source; the root handle is a directory). -/
def kindAt (st : Store) (h : Pth) : Option EKind :=
  (findE st.root h).map kindOf

/-! ## Host handle-tree primitives (spec §6, consumed capability interface)

A handle is the path it was resolved at; each primitive re-reads the store
at that path, which is exactly the adapter's fresh-resolution model.  Host
failures are `Err.host` with the DOMException name the web API uses:
`TypeMismatchError` when a name exists as the other kind,
`NotFoundError` when a child is absent and `create` is unset, and
`TypeError` when a handle of the wrong shape (or `undefined`) is used.
Injected faults fire before the structural checks of an otherwise valid
access. -/

/-- `handle.getDirectoryHandle(name, { create })`. -/
def hGetDir (st : Store) (h : Pth) (name : Seg) (create : Bool) :
    Store × Except Err Pth :=
  match fLook st.faults (h ++ [name]) with
  | some s => (st, .error (.host s))
  | none =>
    match findE st.root h with
    | some (.dir cs) =>
      match findC cs name with
      | some (.dir _) => (st, .ok (h ++ [name]))
      | some (.file _ _) => (st, .error (.host "TypeMismatchError"))
      | none =>
          if create then
            ({ st with root := setAt st.root (h ++ [name]) (.dir []) },
              .ok (h ++ [name]))
          else (st, .error (.host "NotFoundError"))
    | _ => (st, .error (.host "TypeError"))

/-- `handle.getFileHandle(name, { create })`; a freshly created file is
empty with timestamp 0 (it is always written right after creation by the
operations that use this). -/
def hGetFile (st : Store) (h : Pth) (name : Seg) (create : Bool) :
    Store × Except Err Pth :=
  match fLook st.faults (h ++ [name]) with
  | some s => (st, .error (.host s))
  | none =>
    match findE st.root h with
    | some (.dir cs) =>
      match findC cs name with
      | some (.file _ _) => (st, .ok (h ++ [name]))
      | some (.dir _) => (st, .error (.host "TypeMismatchError"))
      | none =>
          if create then
            ({ st with root := setAt st.root (h ++ [name]) (.file [] 0) },
              .ok (h ++ [name]))
          else (st, .error (.host "NotFoundError"))
    | _ => (st, .error (.host "TypeError"))

/-- `handle.values()`: snapshot of the immediate children, with kinds. -/
def hValues (st : Store) (h : Pth) : Except Err (List (Seg × EKind)) :=
  match fLook st.faults h with
  | some s => .error (.host s)
  | none =>
    match findE st.root h with
    | some (.dir cs) => .ok (cs.map fun c => (c.1, kindOf c.2))
    | _ => .error (.host "TypeError")

/-- `fileHandle.getFile()` plus full content read: bytes and timestamp. -/
def hGetFileContent (st : Store) (h : Pth) : Except Err (List Nat × Nat) :=
  match fLook st.faults h with
  | some s => .error (.host s)
  | none =>
    match findE st.root h with
    | some (.file c m) => .ok (c, m)
    | _ => .error (.host "TypeError")

/-- `handle.createWritable()` / `write` / `close` collapsed into one
primitive: replace the file's content in full and stamp it `now`
(truncate-then-write; the sink is opened and closed inside). -/
def hWriteFile (st : Store) (h : Pth) (content : List Nat) (now : Nat) :
    Store × Except Err Unit :=
  match fLook st.faults h with
  | some s => (st, .error (.host s))
  | none =>
    match findE st.root h with
    | some (.file _ _) =>
        ({ st with root := setAt st.root h (.file content now) }, .ok ())
    | _ => (st, .error (.host "TypeError"))

/-- `parentHandle.removeEntry(name)` (non-recursive): `name` is the
target handle's `.name`, which is absent for the root handle. -/
def hRemoveEntry (st : Store) (parent : Pth) (name : Option Seg) :
    Store × Except Err Unit :=
  match name with
  | none => (st, .error (.host "TypeError"))
  | some n =>
    match fLook st.removeFaults (parent ++ [n]) with
    | some s => (st, .error (.host s))
    | none =>
      match findE st.root parent with
      | some (.dir cs) =>
        match findC cs n with
        | some (.dir (_ :: _)) =>
            (st, .error (.host "InvalidModificationError"))
        | some _ =>
            ({ st with root := removeAt st.root (parent ++ [n]) }, .ok ())
        | none => (st, .error (.host "NotFoundError"))
      | _ => (st, .error (.host "TypeError"))

/-- `fileHandle.move(newParent, newName)`: native single-file move, which
preserves the file's content and timestamp.  Argument validation (an
`undefined` parent or name is a `TypeError`) precedes the injected fault,
which precedes the structural checks. -/
def hMoveFile (st : Store) (h : Pth) (dp : Option Pth) (n : Option Seg) :
    Store × Except Err Unit :=
  match dp, n with
  | some dp, some n =>
    match fLook st.moveFaults h with
    | some s => (st, .error (.host s))
    | none =>
      match findE st.root h with
      | some (.file c m) =>
        match findE st.root dp with
        | some (.dir _) =>
            ({ st with root := setAt (removeAt st.root h) (dp ++ [n]) (.file c m) },
              .ok ())
        | _ => (st, .error (.host "TypeError"))
      | _ => (st, .error (.host "TypeError"))
  | _, _ => (st, .error (.host "TypeError"))

/-- `directoryHandle.move(newParent, newName)`: native whole-subtree move,
available only when the store's capability probe (`dirMove`) answers yes. -/
def hMoveDir (st : Store) (h : Pth) (dp : Option Pth) (n : Option Seg) :
    Store × Except Err Unit :=
  match dp, n with
  | some dp, some n =>
    match fLook st.moveFaults h with
    | some s => (st, .error (.host s))
    | none =>
      match findE st.root h with
      | some (.dir cs) =>
        match findE st.root dp with
        | some (.dir _) =>
            ({ st with root := setAt (removeAt st.root h) (dp ++ [n]) (.dir cs) },
              .ok ())
        | _ => (st, .error (.host "TypeError"))
      | _ => (st, .error (.host "TypeError"))
  | _, _ => (st, .error (.host "TypeError"))

/-! ## Path resolution (`getDetails`, fast-hfs.js lines 45-107)

Every host access inside the resolver sits in a `try { ... } catch {
return undefined }` — failures of any kind, not-found and injected host
faults alike, become an absent result while keeping the store mutations
made so far.  The result type still carries `Except` so that "the
resolver never surfaces an error" is a statement about the definition,
not about its type. -/

/-- Final-segment step of the resolver: with no `kind`, directory
resolution is attempted first, falling back to file resolution. -/
def gdFinal (create : Bool) (kind : Option EKind) (st : Store) (h : Pth)
    (name : Seg) : Store × Except Err (Option Pth) :=
  match kind with
  | none =>
    match hGetDir st h name create with
    | (st', .ok h') => (st', .ok (some h'))
    | (st', .error _) =>
      match hGetFile st' h name create with
      | (st'', .ok h') => (st'', .ok (some h'))
      | (st'', .error _) => (st'', .ok none)
  | some .directory =>
    match hGetDir st h name create with
    | (st', .ok h') => (st', .ok (some h'))
    | (st', .error _) => (st', .ok none)
  | some .file =>
    match hGetFile st h name create with
    | (st', .ok h') => (st', .ok (some h'))
    | (st', .error _) => (st', .ok none)

/-- The resolver's walk: every non-final segment must resolve as a
directory (with the `create` flag); a failure ends the walk with an
absent result. -/
def gdWalk (create : Bool) (kind : Option EKind) :
    Store → Pth → List Seg → Store × Except Err (Option Pth)
  | st, _, [] => (st, .ok none)
  | st, h, name :: rest =>
    match rest with
    | [] => gdFinal create kind st h name
    | _ :: _ =>
      match hGetDir st h name create with
      | (st', .ok h') => gdWalk create kind st' h' rest
      | (st', .error _) => (st', .ok none)

/-- `getDetails(workspaceId, opaqueId, { returnParent, create, kind })`.
The canonical root literal (`"root"`, i.e. the one-segment path whose
segment is `root`) returns the workspace root handle before any walking;
with `returnParent` the last segment is dropped first, so a top-level
target yields an absent parent (callers default it to the root). -/
def getDetails (st : Store) (p : Pth) (returnParent create : Bool)
    (kind : Option EKind) : Store × Except Err (Option Pth) :=
  if p = ["root"] then (st, .ok (some []))
  else gdWalk create kind st [] (if returnParent then p.dropLast else p)

/-! ## Single-entry operations (`FastHfsImpl`) -/

/-- Helper `readFile(root, filePath, dataType)`: resolve, return the file
content (with its timestamp), or absent when missing or not a file. -/
def readFile (st : Store) (p : Pth) :
    Store × Except Err (Option (List Nat × Nat)) :=
  match getDetails st p false false none with
  | (st', .error e) => (st', .error e)
  | (st', .ok none) => (st', .ok none)
  | (st', .ok (some h)) =>
    match kindAt st' h with
    | some .file =>
      match hGetFileContent st' h with
      | .ok cm => (st', .ok (some cm))
      | .error e => (st', .error e)
    | _ => (st', .ok none)

/-- `bytes(filePath)`. -/
def bytes (st : Store) (p : Pth) : Store × Except Err (Option (List Nat)) :=
  match readFile st p with
  | (st', .ok (some (c, _))) => (st', .ok (some c))
  | (st', .ok none) => (st', .ok none)
  | (st', .error e) => (st', .error e)

/-- `write(filePath, contents)`: resolve the target; when absent, resolve
or create the parent directory chain (`returnParent`, `create`,
`kind: "directory"`), defaulting to the workspace root when even that is
absent, then create the file child named `path.name`; finally write the
contents in full. -/
def write (st : Store) (p : Pth) (contents : List Nat) (now : Nat) :
    Store × Except Err Unit :=
  match getDetails st p false false none with
  | (st₁, .error e) => (st₁, .error e)
  | (st₁, .ok (some h)) => hWriteFile st₁ h contents now
  | (st₁, .ok none) =>
    match p.getLast? with
    | none => (st₁, .error (.host "TypeError"))
    | some name =>
      match getDetails st₁ p true true (some .directory) with
      | (st₂, .error e) => (st₂, .error e)
      | (st₂, .ok parentOpt) =>
        match hGetFile st₂ (parentOpt.getD []) name true with
        | (st₃, .error e) => (st₃, .error e)
        | (st₃, .ok fh) => hWriteFile st₃ fh contents now

/-- `append(filePath, contents)`: absent target delegates to `write`; a
directory target is a `DirectoryError`; otherwise read the existing bytes
and delegate to `write` with existing-first concatenation. -/
def append (st : Store) (p : Pth) (contents : List Nat) (now : Nat) :
    Store × Except Err Unit :=
  match getDetails st p false false none with
  | (st₁, .error e) => (st₁, .error e)
  | (st₁, .ok none) => write st₁ p contents now
  | (st₁, .ok (some h)) =>
    match kindAt st₁ h with
    | some .file =>
      match hGetFileContent st₁ h with
      | .error e => (st₁, .error e)
      | .ok (existing, _) => write st₁ p (existing ++ contents) now
    | _ => (st₁, .error (.directory "append"))

/-- `isFile(filePath)`. -/
def isFile (st : Store) (p : Pth) : Store × Except Err Bool :=
  match getDetails st p false false none with
  | (st', .error e) => (st', .error e)
  | (st', .ok none) => (st', .ok false)
  | (st', .ok (some h)) =>
    match kindAt st' h with
    | some .file => (st', .ok true)
    | _ => (st', .ok false)

/-- `isDirectory(dirPath)`. -/
def isDirectory (st : Store) (p : Pth) : Store × Except Err Bool :=
  match getDetails st p false false none with
  | (st', .error e) => (st', .error e)
  | (st', .ok none) => (st', .ok false)
  | (st', .ok (some h)) =>
    match kindAt st' h with
    | some .directory => (st', .ok true)
    | _ => (st', .ok false)

/-- The loop of `createDirectory`: walk every segment from the root,
creating each as a directory; host failures propagate (no catch). -/
def cdGo : Store → Pth → List Seg → Store × Except Err Unit
  | st, _, [] => (st, .ok ())
  | st, h, name :: rest =>
    match hGetDir st h name true with
    | (st', .ok h') => cdGo st' h' rest
    | (st', .error e) => (st', .error e)

/-- `createDirectory(dirPath)`. -/
def createDirectory (st : Store) (p : Pth) : Store × Except Err Unit :=
  cdGo st [] p

/-- `delete(opaqueId)`: resolve target and parent (parent defaulting to
the root), `NotFoundError` when absent, `NotEmptyError` when the target
is a directory with at least one entry, otherwise remove the target from
the parent by name.  The `removeEntry` call is not awaited in the source,
so its outcome — success or host fault — is dropped. -/
def delete (st : Store) (p : Pth) : Store × Except Err Unit :=
  match getDetails st p false false none with
  | (st₁, .error e) => (st₁, .error e)
  | (st₁, .ok hOpt) =>
    match getDetails st₁ p true false none with
    | (st₂, .error e) => (st₂, .error e)
    | (st₂, .ok parentOpt) =>
      match hOpt with
      | none => (st₂, .error (.notFound "delete"))
      | some h =>
        match kindAt st₂ h with
        | some .directory =>
          match hValues st₂ h with
          | .error e => (st₂, .error e)
          | .ok (_ :: _) => (st₂, .error (.notEmpty "delete"))
          | .ok [] =>
            ((hRemoveEntry st₂ (parentOpt.getD []) h.getLast?).1, .ok ())
        | _ =>
          ((hRemoveEntry st₂ (parentOpt.getD []) h.getLast?).1, .ok ())

/-- `list(dirPath)` collected into a list of `(name, kind)` records; an
unresolved path yields the empty sequence, and the generator's host
faults surface to the consumer. -/
def list (st : Store) (p : Pth) :
    Store × Except Err (List (Seg × EKind)) :=
  match getDetails st p false false none with
  | (st', .error e) => (st', .error e)
  | (st', .ok none) => (st', .ok [])
  | (st', .ok (some h)) =>
    match hValues st' h with
    | .ok es => (st', .ok es)
    | .error e => (st', .error e)

/-- The `for await` accumulation inside `lastModified`: fold the entries
in order, recursing through `rec` on the extended path and keeping the
strictly larger date; a rejection aborts the loop. -/
def lmLoop (rec : Store → Pth → Nat → Store × Except Err (Option Nat))
    (p : Pth) (now : Nat) :
    List (Seg × EKind) → Store → Nat → Store × Except Err Nat
  | [], st, best => (st, .ok best)
  | en :: rest, st, best =>
    match rec st (p ++ [en.1]) now with
    | (st', .ok (some d)) =>
        lmLoop rec p now rest st' (if best < d then d else best)
    | (st', .ok none) => lmLoop rec p now rest st' best
    | (st', .error e) => (st', .error e)

/-- `lastModified(opaqueId)`: absent targets give `undefined`; files give
their stored timestamp; directories recursively take the maximum over the
entries of `list`, starting from the epoch `Date(0)`, and an untouched
maximum is replaced by the wall clock `new Date()` (here the explicit
`now`).  The `fuel` bounds the recursion depth of the embedding. -/
def lastModified : Nat → Store → Pth → Nat → Store × Except Err (Option Nat)
  | 0, st, _, _ => (st, .error .outOfFuel)
  | Nat.succ fuel, st, p, now =>
    match getDetails st p false false none with
    | (st₁, .error e) => (st₁, .error e)
    | (st₁, .ok none) => (st₁, .ok none)
    | (st₁, .ok (some h)) =>
      match kindAt st₁ h with
      | some .file =>
        match hGetFileContent st₁ h with
        | .ok (_, m) => (st₁, .ok (some m))
        | .error e => (st₁, .error e)
      | _ =>
        match list st₁ p with
        | (st₂, .error e) => (st₂, .error e)
        | (st₂, .ok es) =>
          match lmLoop (lastModified fuel) p now es st₂ 0 with
          | (st₃, .error e) => (st₃, .error e)
          | (st₃, .ok m) => (st₃, .ok (some (if m = 0 then now else m)))

/-! ## Recursive tree operations -/

/-- `copy(source, destination)` (single file): `NotFoundError` for an
absent source, `DirectoryError` for a directory source or an existing
directory destination; then resolve/create the destination as a file and
stream the source content into it.  An unresolvable destination leaves
`toHandle` undefined and the subsequent `createWritable` access is a host
`TypeError`. -/
def copy (st : Store) (source destination : Pth) (now : Nat) :
    Store × Except Err Unit :=
  match getDetails st source false false none with
  | (st₁, .error e) => (st₁, .error e)
  | (st₁, .ok none) => (st₁, .error (.notFound "copy"))
  | (st₁, .ok (some fromH)) =>
    match kindAt st₁ fromH with
    | some .file =>
      match isDirectory st₁ destination with
      | (st₂, .error e) => (st₂, .error e)
      | (st₂, .ok true) => (st₂, .error (.directory "copy"))
      | (st₂, .ok false) =>
        match getDetails st₂ destination false true (some .file) with
        | (st₃, .error e) => (st₃, .error e)
        | (st₃, .ok none) => (st₃, .error (.host "TypeError"))
        | (st₃, .ok (some toH)) =>
          match hGetFileContent st₃ fromH with
          | .error e => (st₃, .error e)
          | .ok (c, _) => hWriteFile st₃ toH c now
    | _ => (st₁, .error (.directory "copy"))

/-- The child loop of `copyAll`: walk the snapshot of entries in order,
pushing the child name onto both cursors, recursing through `rec` on
directories and delegating to `copy` on files; the first rejection aborts
the whole loop. -/
def copyAllLoop (rec : Store → Pth → Pth → Nat → Store × Except Err Unit)
    (source destination : Pth) (now : Nat) :
    List (Seg × EKind) → Store → Store × Except Err Unit
  | [], st => (st, .ok ())
  | en :: rest, st =>
    match (match en.2 with
           | .directory =>
               rec st (source ++ [en.1]) (destination ++ [en.1]) now
           | .file =>
               copy st (source ++ [en.1]) (destination ++ [en.1]) now) with
    | (st', .ok ()) => copyAllLoop rec source destination now rest st'
    | (st', .error e) => (st', .error e)

/-- `copyAll(source, destination)`: files delegate to `copy`; a source
that is not a directory either is a `NotFoundError`; otherwise create the
destination directory and walk the children of `list(source)` in order,
recursing on directories and copying files, with the two path cursors
advanced in lock step (`push` before, `pop` after — list append here).
The `fuel` bounds the recursion depth of the embedding. -/
def copyAll : Nat → Store → Pth → Pth → Nat → Store × Except Err Unit
  | 0, st, _, _, _ => (st, .error .outOfFuel)
  | Nat.succ fuel, st, source, destination, now =>
    match isFile st source with
    | (st₁, .error e) => (st₁, .error e)
    | (st₁, .ok true) => copy st₁ source destination now
    | (st₁, .ok false) =>
      match isDirectory st₁ source with
      | (st₂, .error e) => (st₂, .error e)
      | (st₂, .ok false) => (st₂, .error (.notFound "copyAll"))
      | (st₂, .ok true) =>
        match createDirectory st₂ destination with
        | (st₃, .error e) => (st₃, .error e)
        | (st₃, .ok ()) =>
          match list st₃ source with
          | (st₄, .error e) => (st₄, .error e)
          | (st₄, .ok entries) =>
            copyAllLoop (copyAll fuel) source destination now entries st₄

/-- `move(source, destination)` (single file): `NotFoundError` for an
absent source, `DirectoryError` for a directory; split the destination
into parent and final name, resolve/create the parent as a directory, and
invoke the native file move.  Its rejection is routed through
`handleChromeError`: a `NotAllowedError` fault is replaced by
copy-then-delete-source; every other fault is rethrown. -/
def move (st : Store) (source destination : Pth) (now : Nat) :
    Store × Except Err Unit :=
  match getDetails st source false false none with
  | (st₁, .error e) => (st₁, .error e)
  | (st₁, .ok none) => (st₁, .error (.notFound "move"))
  | (st₁, .ok (some h)) =>
    match kindAt st₁ h with
    | some .file =>
      match getDetails st₁ destination.dropLast false true (some .directory) with
      | (st₂, .error e) => (st₂, .error e)
      | (st₂, .ok destParent) =>
        match hMoveFile st₂ h destParent destination.getLast? with
        | (st₃, .ok ()) => (st₃, .ok ())
        | (st₃, .error e) =>
          if e = .host "NotAllowedError" then
            match copy st₃ source destination now with
            | (st₄, .error e') => (st₄, .error e')
            | (st₄, .ok ()) => delete st₄ source
          else (st₃, .error e)
    | _ => (st₁, .error (.directory "move"))

/-- The child loop of `moveAll`'s fallback: as `copyAllLoop` but
delegating to `move` on files. -/
def moveAllLoop (rec : Store → Pth → Pth → Nat → Store × Except Err Unit)
    (source destination : Pth) (now : Nat) :
    List (Seg × EKind) → Store → Store × Except Err Unit
  | [], st => (st, .ok ())
  | en :: rest, st =>
    match (match en.2 with
           | .directory =>
               rec st (source ++ [en.1]) (destination ++ [en.1]) now
           | .file =>
               move st (source ++ [en.1]) (destination ++ [en.1]) now) with
    | (st', .ok ()) => moveAllLoop rec source destination now rest st'
    | (st', .error e) => (st', .error e)

/-- `moveAll(source, destination)`: `NotFoundError` for an absent source;
files delegate to `move`; when the directory handle exposes the native
move capability it is used after resolving/creating the destination
parent; otherwise create the destination directory, walk the children of
`list(source)` (recursing on directories, moving files) and finally
remove the emptied source directory via `delete`. -/
def moveAll : Nat → Store → Pth → Pth → Nat → Store × Except Err Unit
  | 0, st, _, _, _ => (st, .error .outOfFuel)
  | Nat.succ fuel, st, source, destination, now =>
    match getDetails st source false false none with
    | (st₁, .error e) => (st₁, .error e)
    | (st₁, .ok none) => (st₁, .error (.notFound "moveAll"))
    | (st₁, .ok (some h)) =>
      match kindAt st₁ h with
      | some .file => move st₁ source destination now
      | _ =>
        if st₁.dirMove then
          match getDetails st₁ destination.dropLast false true (some .directory) with
          | (st₂, .error e) => (st₂, .error e)
          | (st₂, .ok destParent) =>
              hMoveDir st₂ h destParent destination.getLast?
        else
          match createDirectory st₁ destination with
          | (st₂, .error e) => (st₂, .error e)
          | (st₂, .ok ()) =>
            match list st₂ source with
            | (st₃, .error e) => (st₃, .error e)
            | (st₃, .ok entries) =>
              match moveAllLoop (moveAll fuel) source destination now
                  entries st₃ with
              | (st₄, .error e) => (st₄, .error e)
              | (st₄, .ok ()) => delete st₄ source

/-! ## Auxiliary notions used by the statements and proofs -/

/-- Does an entry satisfy an optional kind constraint? -/
def matchK : Option EKind → Entry → Bool
  | none, _ => true
  | some k, e => kindOf e = k

/-! Host directories never hold two children with the same name; stores
reachable through the capability interface are well-formed in the
`wfL` sense. -/
mutual
def wfL : List (Seg × Entry) → Bool
  | [] => true
  | (n, e) :: rest => !(findC rest n).isSome && wfE e && wfL rest
def wfE : Entry → Bool
  | .file _ _ => true
  | .dir cs => wfL cs
end

/-! `sizeE`/`sizeL`: number of nodes in a subtree / children list. -/
mutual
def sizeE : Entry → Nat
  | .file _ _ => 1
  | .dir cs => 1 + sizeL cs
def sizeL : List (Seg × Entry) → Nat
  | [] => 0
  | (_, e) :: rest => sizeE e + sizeL rest
end

/-! `depthE`/`depthL`: height of a subtree / children list. -/
mutual
def depthE : Entry → Nat
  | .file _ _ => 0
  | .dir cs => 1 + depthL cs
def depthL : List (Seg × Entry) → Nat
  | [] => 0
  | (_, e) :: rest => max (depthE e) (depthL rest)
end

/-! `lmE`/`lmC`: the value `lastModified` computes on a resolved entry: a
file's stored timestamp; for a directory the maximum over its entries of
the same computation, with a zero maximum replaced by the wall clock. -/
mutual
def lmE (now : Nat) : Entry → Nat
  | .file _ m => m
  | .dir cs => if lmC now cs = 0 then now else lmC now cs
def lmC (now : Nat) : List (Seg × Entry) → Nat
  | [] => 0
  | (_, e) :: rest => max (lmE now e) (lmC now rest)
end

/-! `cloneE`/`cloneL`: the tree `copyAll` is meant to produce at the
destination — same shape and file contents as the source subtree, with
every file restamped by the wall clock of the copy. -/
mutual
def cloneE (now : Nat) : Entry → Entry
  | .file c _ => .file c now
  | .dir cs => .dir (cloneL now cs)
def cloneL (now : Nat) : List (Seg × Entry) → List (Seg × Entry)
  | [] => []
  | (n, e) :: rest => (n, cloneE now e) :: cloneL now rest
end

/-- `mkdirs t p`: get-or-create a directory chain along `p`, the net
store effect of resolving with `create` and kind `directory` (and of
`createDirectory`); `none` when some segment already exists as a file. -/
def mkdirs (t : List (Seg × Entry)) : Pth → Option (List (Seg × Entry))
  | [] => some t
  | n :: rest =>
    match findC t n with
    | some (.dir ds) => (mkdirs ds rest).map fun ds' => upd t n (.dir ds')
    | some (.file _ _) => none
    | none => (mkdirs [] rest).map fun ds' => upd t n (.dir ds')

/-- Two paths are incomparable when neither is a prefix of the other:
their subtrees are disjoint. -/
def Incomp (p q : Pth) : Prop := ¬ p <+: q ∧ ¬ q <+: p

/-- Replace the children of the directory at `h` (the whole root when `h`
is empty). -/
def setSub (t : List (Seg × Entry)) : Pth → List (Seg × Entry) →
    List (Seg × Entry)
  | [], cs' => cs'
  | n :: h', cs' => setAt t (n :: h') (.dir cs')

/-! ## The resolver never surfaces an error -/

lemma gdFinal_never_errs (c : Bool) (k : Option EKind) (st : Store) (h : Pth)
    (n : Seg) : ∃ st' r, gdFinal c k st h n = (st', .ok r) := by
  cases k with
  | none =>
    rcases h1 : hGetDir st h n c with ⟨s1, r1⟩
    cases r1 with
    | ok v => exact ⟨s1, some v, by simp [gdFinal, h1]⟩
    | error e =>
      rcases h2 : hGetFile s1 h n c with ⟨s2, r2⟩
      cases r2 with
      | ok v => exact ⟨s2, some v, by simp [gdFinal, h1, h2]⟩
      | error e2 => exact ⟨s2, none, by simp [gdFinal, h1, h2]⟩
  | some kk =>
    cases kk with
    | file =>
      rcases h1 : hGetFile st h n c with ⟨s1, r1⟩
      cases r1 with
      | ok v => exact ⟨s1, some v, by simp [gdFinal, h1]⟩
      | error e => exact ⟨s1, none, by simp [gdFinal, h1]⟩
    | directory =>
      rcases h1 : hGetDir st h n c with ⟨s1, r1⟩
      cases r1 with
      | ok v => exact ⟨s1, some v, by simp [gdFinal, h1]⟩
      | error e => exact ⟨s1, none, by simp [gdFinal, h1]⟩

lemma gdWalk_single (c : Bool) (k : Option EKind) (st : Store) (h : Pth)
    (n : Seg) : gdWalk c k st h [n] = gdFinal c k st h n := rfl

lemma gdWalk_cons_ne (c : Bool) (k : Option EKind) (st : Store) (h : Pth)
    (n : Seg) {q' : List Seg} (hq' : q' ≠ []) :
    gdWalk c k st h (n :: q') =
      (match hGetDir st h n c with
       | (st', .ok h') => gdWalk c k st' h' q'
       | (st', .error _) => (st', .ok none)) := by
  cases q' with
  | nil => exact absurd rfl hq'
  | cons m r' => rfl

lemma gdWalk_never_errs (c : Bool) (k : Option EKind) :
    ∀ (q : List Seg) (st : Store) (h : Pth),
      ∃ st' r, gdWalk c k st h q = (st', .ok r) := by
  intro q
  induction q with
  | nil => exact fun st h => ⟨st, none, rfl⟩
  | cons n rest ih =>
    intro st h
    cases rest with
    | nil =>
      rw [gdWalk_single]
      exact gdFinal_never_errs c k st h n
    | cons m rest' =>
      rcases h1 : hGetDir st h n c with ⟨s1, r1⟩
      cases r1 with
      | ok v =>
        obtain ⟨st', r, hr⟩ := ih s1 v
        exact ⟨st', r, by
          rw [gdWalk_cons_ne c k st h n (List.cons_ne_nil m rest'), h1]
          exact hr⟩
      | error e => exact ⟨s1, none, by
          rw [gdWalk_cons_ne c k st h n (List.cons_ne_nil m rest'), h1]⟩

lemma getDetails_never_errs (st : Store) (p : Pth) (rp c : Bool)
    (k : Option EKind) : ∃ st' r, getDetails st p rp c k = (st', .ok r) := by
  unfold getDetails
  by_cases hp : p = ["root"]
  · exact ⟨st, some [], by simp [hp]⟩
  · simpa [hp] using
      gdWalk_never_errs c k (if rp then p.dropLast else p) st []

/-! ## Resolution without `create` leaves the store unchanged -/

lemma hGetDir_nocreate_store (st : Store) (h : Pth) (n : Seg) :
    (hGetDir st h n false).1 = st := by
  unfold hGetDir
  repeat' split
  all_goals simp_all

lemma hGetFile_nocreate_store (st : Store) (h : Pth) (n : Seg) :
    (hGetFile st h n false).1 = st := by
  unfold hGetFile
  repeat' split
  all_goals simp_all

lemma gdFinal_nocreate_store (k : Option EKind) (st : Store) (h : Pth)
    (n : Seg) : (gdFinal false k st h n).1 = st := by
  cases k with
  | none =>
    rcases h1 : hGetDir st h n false with ⟨s1, r1⟩
    have hs1 : s1 = st := by rw [← hGetDir_nocreate_store st h n, h1]
    cases r1 with
    | ok v => simp [gdFinal, h1, hs1]
    | error e =>
      rcases h2 : hGetFile s1 h n false with ⟨s2, r2⟩
      have hs2 : s2 = st := by
        rw [← hs1, ← hGetFile_nocreate_store s1 h n, h2]
      cases r2 <;> simp [gdFinal, h1, h2, hs2]
  | some kk =>
    cases kk with
    | file =>
      rcases h1 : hGetFile st h n false with ⟨s1, r1⟩
      have hs1 : s1 = st := by rw [← hGetFile_nocreate_store st h n, h1]
      cases r1 <;> simp [gdFinal, h1, hs1]
    | directory =>
      rcases h1 : hGetDir st h n false with ⟨s1, r1⟩
      have hs1 : s1 = st := by rw [← hGetDir_nocreate_store st h n, h1]
      cases r1 <;> simp [gdFinal, h1, hs1]

lemma gdWalk_nocreate_store (k : Option EKind) :
    ∀ (q : List Seg) (st : Store) (h : Pth),
      (gdWalk false k st h q).1 = st := by
  intro q
  induction q with
  | nil => intro st h; rfl
  | cons n rest ih =>
    intro st h
    cases rest with
    | nil =>
      rw [gdWalk_single]
      exact gdFinal_nocreate_store k st h n
    | cons m rest' =>
      rcases h1 : hGetDir st h n false with ⟨s1, r1⟩
      have hs1 : s1 = st := by rw [← hGetDir_nocreate_store st h n, h1]
      cases r1 with
      | ok v =>
        rw [gdWalk_cons_ne false k st h n (List.cons_ne_nil m rest'), h1]
        rw [hs1] at h1 ⊢
        exact ih st v
      | error e =>
        rw [gdWalk_cons_ne false k st h n (List.cons_ne_nil m rest'), h1, hs1]

lemma getDetails_nocreate_store (st : Store) (p : Pth) (rp : Bool)
    (k : Option EKind) : (getDetails st p rp false k).1 = st := by
  unfold getDetails
  by_cases hp : p = ["root"]
  · simp [hp]
  · simpa [hp] using
      gdWalk_nocreate_store k (if rp then p.dropLast else p) st []

/-! ## Path incomparability -/

lemma incomp_symm {p q : Pth} (h : Incomp p q) : Incomp q p := ⟨h.2, h.1⟩

lemma incomp_ext_not_pfx {s : Pth} :
    ∀ {d : Pth}, Incomp s d → ∀ r r', ¬ (s ++ r) <+: (d ++ r') := by
  induction s with
  | nil => exact fun h => absurd (List.nil_prefix) h.1
  | cons a s' ih =>
    intro d h r r'
    cases d with
    | nil => exact absurd (List.nil_prefix) h.2
    | cons b d' =>
      by_cases hab : a = b
      · subst hab
        have h' : Incomp s' d' := by
          constructor
          · exact fun hp => h.1 (by simpa [List.cons_prefix_cons] using hp)
          · exact fun hp => h.2 (by simpa [List.cons_prefix_cons] using hp)
        intro hc
        exact ih h' r r' (by simpa [List.cons_prefix_cons] using hc)
      · intro hc
        rw [List.cons_append, List.cons_append, List.cons_prefix_cons] at hc
        exact hab hc.1

lemma incomp_ext {s d : Pth} (h : Incomp s d) (r r' : Pth) :
    Incomp (s ++ r) (d ++ r') :=
  ⟨incomp_ext_not_pfx h r r', incomp_ext_not_pfx (incomp_symm h) r' r⟩

lemma incomp_of_incomp_right {q d : Pth} (h : Incomp q d) (c : Seg) :
    Incomp q (d ++ [c]) := by
  constructor
  · intro hc
    rcases List.prefix_concat_iff.mp hc with hq | hq
    · exact h.2 (hq ▸ List.prefix_append d [c])
    · exact h.1 hq
  · exact fun hc => h.2 ((List.prefix_append d [c]).trans hc)

/-! ## Children-list algebra -/

lemma findC_upd (t : List (Seg × Entry)) (n : Seg) (e : Entry) (m : Seg) :
    findC (upd t n e) m = if n = m then some e else findC t m := by
  induction t with
  | nil => simp [upd, findC]
  | cons hd rest ih =>
    rcases hd with ⟨a, x⟩
    by_cases han : a = n
    · subst han
      by_cases ham : a = m <;> simp [upd, findC, ham]
    · by_cases ham : a = m
      · subst ham
        simp [upd, findC, han, Ne.symm han]
      · simp [upd, findC, han, ham, ih]

lemma upd_self {t : List (Seg × Entry)} {n : Seg} {e : Entry}
    (h : findC t n = some e) : upd t n e = t := by
  induction t with
  | nil => simp [findC] at h
  | cons hd rest ih =>
    rcases hd with ⟨a, x⟩
    by_cases han : a = n
    · subst han
      simp [findC] at h
      simp [upd, h]
    · simp [findC, han] at h
      simp [upd, han, ih h]

lemma findC_del_ne (t : List (Seg × Entry)) {n m : Seg} (h : n ≠ m) :
    findC (del t n) m = findC t m := by
  induction t with
  | nil => simp [del]
  | cons hd rest ih =>
    rcases hd with ⟨a, x⟩
    by_cases han : a = n
    · subst han
      simp [del, findC, h]
    · simp only [del, if_neg han, findC]
      by_cases ham : a = m <;> simp [ham, ih]

lemma wfL_cons {n : Seg} {e : Entry} {rest : List (Seg × Entry)} :
    wfL ((n, e) :: rest) =
      (!(findC rest n).isSome && wfE e && wfL rest) := by
  simp [wfL]

lemma findC_del_self {t : List (Seg × Entry)} (hw : wfL t) (n : Seg) :
    findC (del t n) n = none := by
  induction t with
  | nil => simp [del, findC]
  | cons hd rest ih =>
    rcases hd with ⟨a, x⟩
    rw [wfL_cons] at hw
    simp only [Bool.and_eq_true, Bool.not_eq_true'] at hw
    by_cases han : a = n
    · subst han
      have h0 : findC rest a = none := by
        cases hfc : findC rest a <;> simp_all
      simp [del, h0]
    · simp [del, findC, han, ih hw.2]

lemma wf_member {t : List (Seg × Entry)} (hw : wfL t) {n : Seg} {e : Entry}
    (h : findC t n = some e) : wfE e := by
  induction t with
  | nil => simp [findC] at h
  | cons hd rest ih =>
    rcases hd with ⟨a, x⟩
    rw [wfL_cons] at hw
    simp only [Bool.and_eq_true, Bool.not_eq_true'] at hw
    by_cases han : a = n
    · subst han
      simp [findC] at h
      exact h ▸ hw.1.2
    · simp [findC, han] at h
      exact ih hw.2 h

lemma wf_upd {t : List (Seg × Entry)} (hw : wfL t) {e : Entry}
    (he : wfE e) (n : Seg) : wfL (upd t n e) := by
  induction t with
  | nil => simp [upd, wfL, findC, he]
  | cons hd rest ih =>
    rcases hd with ⟨a, x⟩
    rw [wfL_cons] at hw
    simp only [Bool.and_eq_true, Bool.not_eq_true'] at hw
    by_cases han : a = n
    · subst han
      rw [upd, if_pos rfl, wfL_cons]
      simp [hw.1.1, hw.2, he]
    · rw [upd, if_neg han, wfL_cons]
      have hfc : findC (upd rest n e) a = findC rest a := by
        rw [findC_upd, if_neg (Ne.symm han)]
      simp [hfc, hw.1.1, hw.1.2, ih hw.2]

lemma wf_del {t : List (Seg × Entry)} (hw : wfL t) (n : Seg) :
    wfL (del t n) := by
  induction t with
  | nil => simpa [del] using hw
  | cons hd rest ih =>
    rcases hd with ⟨a, x⟩
    rw [wfL_cons] at hw
    simp only [Bool.and_eq_true, Bool.not_eq_true'] at hw
    by_cases han : a = n
    · subst han
      rw [del, if_pos rfl]
      exact hw.2
    · rw [del, if_neg han, wfL_cons]
      have hfc : findC (del rest n) a = findC rest a := by
        by_cases hna : n = a
        · exact absurd hna.symm han
        · exact findC_del_ne rest hna
      simp [hfc, hw.1.1, hw.1.2, ih hw.2]

/-! ## Path lookup algebra -/

lemma findE_single (cs : List (Seg × Entry)) (n : Seg) :
    findE cs [n] = findC cs n := by
  rw [findE]
  cases findC cs n with
  | none => rfl
  | some e => cases e <;> simp

lemma findE_cons_ne_nil (cs : List (Seg × Entry)) (n : Seg) {l : List Seg}
    (hl : l ≠ []) :
    findE cs (n :: l) =
      (match findC cs n with
       | some (.dir ds) => findE ds l
       | _ => none) := by
  rw [findE]
  cases findC cs n with
  | none => rfl
  | some e => cases e <;> simp [hl]

lemma findE_cons_dir {t ds : List (Seg × Entry)} {n : Seg}
    (hfc : findC t n = some (.dir ds)) {rest : List Seg} (hrest : rest ≠ []) :
    findE t (n :: rest) = findE ds rest := by
  rw [findE_cons_ne_nil t n hrest, hfc]

lemma findE_cons_none {t : List (Seg × Entry)} {n : Seg}
    (hfc : findC t n = none) (rest : List Seg) :
    findE t (n :: rest) = none := by
  cases rest with
  | nil => rw [findE_single, hfc]
  | cons m r' => rw [findE_cons_ne_nil t n (List.cons_ne_nil m r'), hfc]

lemma findE_cons_file {t : List (Seg × Entry)} {n : Seg} {c : List Nat}
    {m : Nat} (hfc : findC t n = some (.file c m)) {rest : List Seg}
    (hrest : rest ≠ []) : findE t (n :: rest) = none := by
  rw [findE_cons_ne_nil t n hrest, hfc]

lemma findE_append_dir :
    ∀ {p : Pth} {t cs : List (Seg × Entry)},
      findE t p = some (.dir cs) → ∀ q, findE t (p ++ q) = findE cs q := by
  intro p
  induction p with
  | nil =>
    intro t cs h q
    rw [findE] at h
    simp only [Option.some.injEq, Entry.dir.injEq] at h
    subst h
    rfl
  | cons n p' ih =>
    intro t cs h q
    by_cases hp' : p' = []
    · subst hp'
      rw [findE_single] at h
      cases q with
      | nil => simp [findE_single, h, findE]
      | cons m q' =>
        rw [List.cons_append, List.nil_append,
          findE_cons_ne_nil t n (List.cons_ne_nil m q'), h]
    · rw [findE_cons_ne_nil t n hp'] at h
      cases hfc : findC t n with
      | none => rw [hfc] at h; simp at h
      | some e =>
        cases e with
        | file c mm => rw [hfc] at h; simp at h
        | dir ds =>
          rw [hfc] at h
          rw [List.cons_append,
            findE_cons_ne_nil t n (by simp [hp'] : p' ++ q ≠ []), hfc]
          exact ih h q

lemma findE_append_none :
    ∀ {p : Pth} {t : List (Seg × Entry)},
      findE t p = none → ∀ q, findE t (p ++ q) = none := by
  intro p
  induction p with
  | nil => intro t h q; rw [findE] at h; simp at h
  | cons n p' ih =>
    intro t h q
    by_cases hp' : p' = []
    · subst hp'
      rw [findE_single] at h
      cases q with
      | nil => simp [findE_single, h]
      | cons m q' =>
        rw [List.cons_append, List.nil_append,
          findE_cons_ne_nil t n (List.cons_ne_nil m q'), h]
    · rw [findE_cons_ne_nil t n hp'] at h
      rw [List.cons_append,
        findE_cons_ne_nil t n (by simp [hp'] : p' ++ q ≠ [])]
      cases hfc : findC t n with
      | none => simp
      | some e =>
        cases e with
        | file c mm => simp
        | dir ds =>
          rw [hfc] at h
          exact ih h q

lemma findE_append_file :
    ∀ {p : Pth} {t : List (Seg × Entry)} {c : List Nat} {m : Nat},
      findE t p = some (.file c m) → ∀ {q : Pth}, q ≠ [] →
        findE t (p ++ q) = none := by
  intro p
  induction p with
  | nil => intro t c m h q hq; rw [findE] at h; simp at h
  | cons n p' ih =>
    intro t c m h q hq
    by_cases hp' : p' = []
    · subst hp'
      rw [findE_single] at h
      cases q with
      | nil => exact absurd rfl hq
      | cons mm q' =>
        rw [List.cons_append, List.nil_append,
          findE_cons_ne_nil t n (List.cons_ne_nil mm q'), h]
    · rw [findE_cons_ne_nil t n hp'] at h
      rw [List.cons_append,
        findE_cons_ne_nil t n (by simp [hp'] : p' ++ q ≠ [])]
      cases hfc : findC t n with
      | none => simp
      | some e =>
        cases e with
        | file c2 m2 => simp
        | dir ds =>
          rw [hfc] at h
          exact ih h hq

/-! ## Updates: hit, frame and well-formedness -/

lemma setAt_cons_ne_nil (t : List (Seg × Entry)) (n : Seg) {rest : List Seg}
    (h : rest ≠ []) (e : Entry) :
    setAt t (n :: rest) e =
      (match findC t n with
       | some (.dir ds) => upd t n (.dir (setAt ds rest e))
       | _ => t) := by
  cases rest with
  | nil => exact absurd rfl h
  | cons m r' =>
    show (match findC t n with
      | some (.dir ds) => upd t n (.dir (setAt ds (m :: r') e))
      | _ => t) = _
    cases findC t n with
    | none => rfl
    | some e' => cases e' <;> rfl

lemma removeAt_cons_ne_nil (t : List (Seg × Entry)) (n : Seg)
    {rest : List Seg} (h : rest ≠ []) :
    removeAt t (n :: rest) =
      (match findC t n with
       | some (.dir ds) => upd t n (.dir (removeAt ds rest))
       | _ => t) := by
  cases rest with
  | nil => exact absurd rfl h
  | cons m r' =>
    show (match findC t n with
      | some (.dir ds) => upd t n (.dir (removeAt ds (m :: r')))
      | _ => t) = _
    cases findC t n with
    | none => rfl
    | some e' => cases e' <;> rfl

lemma setAt_cons_dir {t ds : List (Seg × Entry)} {n : Seg}
    (hfc : findC t n = some (.dir ds)) {rest : List Seg} (hrest : rest ≠ [])
    (e : Entry) : setAt t (n :: rest) e = upd t n (.dir (setAt ds rest e)) := by
  rw [setAt_cons_ne_nil t n hrest, hfc]

lemma setAt_cons_none {t : List (Seg × Entry)} {n : Seg}
    (hfc : findC t n = none) {rest : List Seg} (hrest : rest ≠ [])
    (e : Entry) : setAt t (n :: rest) e = t := by
  rw [setAt_cons_ne_nil t n hrest, hfc]

lemma setAt_cons_file {t : List (Seg × Entry)} {n : Seg} {c : List Nat}
    {m : Nat} (hfc : findC t n = some (.file c m)) {rest : List Seg}
    (hrest : rest ≠ []) (e : Entry) : setAt t (n :: rest) e = t := by
  rw [setAt_cons_ne_nil t n hrest, hfc]

lemma removeAt_cons_dir {t ds : List (Seg × Entry)} {n : Seg}
    (hfc : findC t n = some (.dir ds)) {rest : List Seg} (hrest : rest ≠ []) :
    removeAt t (n :: rest) = upd t n (.dir (removeAt ds rest)) := by
  rw [removeAt_cons_ne_nil t n hrest, hfc]

lemma findE_setAt_self :
    ∀ {p : Pth} {t ds : List (Seg × Entry)} {e : Entry}, p ≠ [] →
      findE t p.dropLast = some (.dir ds) → findE (setAt t p e) p = some e := by
  intro p
  induction p with
  | nil => intro t ds e hne _; exact absurd rfl hne
  | cons n p' ih =>
    intro t ds e _ hp
    by_cases hp' : p' = []
    · subst hp'
      rw [setAt, findE_single, findC_upd, if_pos rfl]
    · have hd : p' ≠ [] := hp'
      have hdl : (n :: p').dropLast = n :: p'.dropLast := by
        cases p' with
        | nil => exact absurd rfl hp'
        | cons a b => rfl
      rw [hdl] at hp
      cases hfc : findC t n with
      | none =>
        exfalso
        by_cases hp'' : p'.dropLast = []
        · rw [hp'', findE_single, hfc] at hp; simp at hp
        · rw [findE_cons_ne_nil t n hp'', hfc] at hp; simp at hp
      | some e' =>
        cases e' with
        | file c m =>
          exfalso
          by_cases hp'' : p'.dropLast = []
          · rw [hp'', findE_single, hfc] at hp; simp at hp
          · rw [findE_cons_ne_nil t n hp'', hfc] at hp; simp at hp
        | dir ds₀ =>
          have hrec : findE ds₀ p'.dropLast = some (.dir ds) := by
            by_cases hp'' : p'.dropLast = []
            · rw [hp'', findE_single, hfc] at hp
              simp only [Option.some.injEq, Entry.dir.injEq] at hp
              rw [hp'', findE, hp]
            · rw [findE_cons_ne_nil t n hp'', hfc] at hp
              exact hp
          rw [setAt_cons_ne_nil t n hd, hfc,
            findE_cons_ne_nil _ n hd, findC_upd, if_pos rfl]
          exact ih hd hrec

lemma findE_setAt_frame :
    ∀ {p : Pth} {t : List (Seg × Entry)} {e : Entry} {q : Pth}, Incomp p q →
      findE (setAt t p e) q = findE t q := by
  intro p
  induction p with
  | nil => intro t e q _; rfl
  | cons n p' ih =>
    intro t e q hpq
    cases q with
    | nil => exact absurd (List.nil_prefix) hpq.2
    | cons m q' =>
      by_cases hnm : n = m
      · subst hnm
        have hq' : q' ≠ [] := by
          intro h
          subst h
          exact hpq.2 (by simp [List.cons_prefix_cons])
        have hp' : p' ≠ [] := by
          intro h
          subst h
          exact hpq.1 (by simp [List.cons_prefix_cons])
        have hpq' : Incomp p' q' := by
          constructor
          · exact fun hc => hpq.1 (by simp [List.cons_prefix_cons, hc])
          · exact fun hc => hpq.2 (by simp [List.cons_prefix_cons, hc])
        rw [setAt_cons_ne_nil t n hp']
        cases hfc : findC t n with
        | none => rfl
        | some e' =>
          cases e' with
          | file c mm => rfl
          | dir ds =>
            rw [findE_cons_ne_nil _ n hq', findE_cons_ne_nil t n hq',
              findC_upd, if_pos rfl, hfc]
            exact ih hpq'
      · have key : ∀ t' : List (Seg × Entry), findC t' m = findC t m →
            findE t' (m :: q') = findE t (m :: q') := by
          intro t' hfc
          by_cases hq' : q' = []
          · subst hq'; rw [findE_single, findE_single, hfc]
          · rw [findE_cons_ne_nil t' m hq', findE_cons_ne_nil t m hq', hfc]
        by_cases hp' : p' = []
        · subst hp'
          rw [setAt]
          exact key _ (by rw [findC_upd, if_neg hnm])
        · rw [setAt_cons_ne_nil t n hp']
          cases hfc : findC t n with
          | none => rfl
          | some e' =>
            cases e' with
            | file c mm => rfl
            | dir ds => exact key _ (by rw [findC_upd, if_neg hnm])

lemma findE_removeAt_frame :
    ∀ {p : Pth} {t : List (Seg × Entry)} {q : Pth}, Incomp p q →
      findE (removeAt t p) q = findE t q := by
  intro p
  induction p with
  | nil => intro t q _; rfl
  | cons n p' ih =>
    intro t q hpq
    cases q with
    | nil => exact absurd (List.nil_prefix) hpq.2
    | cons m q' =>
      by_cases hnm : n = m
      · subst hnm
        have hq' : q' ≠ [] := by
          intro h
          subst h
          exact hpq.2 (by simp [List.cons_prefix_cons])
        have hp' : p' ≠ [] := by
          intro h
          subst h
          exact hpq.1 (by simp [List.cons_prefix_cons])
        have hpq' : Incomp p' q' := by
          constructor
          · exact fun hc => hpq.1 (by simp [List.cons_prefix_cons, hc])
          · exact fun hc => hpq.2 (by simp [List.cons_prefix_cons, hc])
        rw [removeAt_cons_ne_nil t n hp']
        cases hfc : findC t n with
        | none => rfl
        | some e' =>
          cases e' with
          | file c mm => rfl
          | dir ds =>
            rw [findE_cons_ne_nil _ n hq', findE_cons_ne_nil t n hq',
              findC_upd, if_pos rfl, hfc]
            exact ih hpq'
      · have key : ∀ t' : List (Seg × Entry), findC t' m = findC t m →
            findE t' (m :: q') = findE t (m :: q') := by
          intro t' hfc
          by_cases hq' : q' = []
          · subst hq'; rw [findE_single, findE_single, hfc]
          · rw [findE_cons_ne_nil t' m hq', findE_cons_ne_nil t m hq', hfc]
        by_cases hp' : p' = []
        · subst hp'
          rw [removeAt]
          exact key _ (findC_del_ne t hnm)
        · rw [removeAt_cons_ne_nil t n hp']
          cases hfc : findC t n with
          | none => rfl
          | some e' =>
            cases e' with
            | file c mm => rfl
            | dir ds => exact key _ (by rw [findC_upd, if_neg hnm])

lemma findE_removeAt_self :
    ∀ {p : Pth} {t : List (Seg × Entry)}, wfL t → p ≠ [] →
      findE (removeAt t p) p = none := by
  intro p
  induction p with
  | nil => intro t _ hne; exact absurd rfl hne
  | cons n p' ih =>
    intro t hw _
    by_cases hp' : p' = []
    · subst hp'
      rw [removeAt, findE_single]
      exact findC_del_self hw n
    · rw [removeAt_cons_ne_nil t n hp']
      cases hfc : findC t n with
      | none => rw [findE_cons_ne_nil t n hp', hfc]
      | some e' =>
        cases e' with
        | file c m => rw [findE_cons_ne_nil t n hp', hfc]
        | dir ds =>
          rw [findE_cons_ne_nil _ n hp', findC_upd, if_pos rfl]
          have hwds : wfL ds := wf_member hw hfc
          exact ih hwds hp'

lemma wf_setAt :
    ∀ {p : Pth} {t : List (Seg × Entry)} {e : Entry}, wfL t → wfE e →
      wfL (setAt t p e) := by
  intro p
  induction p with
  | nil => intro t e hw _; exact hw
  | cons n p' ih =>
    intro t e hw he
    by_cases hp' : p' = []
    · subst hp'
      rw [setAt]
      exact wf_upd hw he n
    · rw [setAt_cons_ne_nil t n hp']
      cases hfc : findC t n with
      | none => exact hw
      | some e' =>
        cases e' with
        | file c m => exact hw
        | dir ds =>
          have hwds : wfL ds := wf_member hw hfc
          exact wf_upd hw (by simpa [wfE] using ih hwds he) n

lemma wf_removeAt :
    ∀ {p : Pth} {t : List (Seg × Entry)}, wfL t → wfL (removeAt t p) := by
  intro p
  induction p with
  | nil => intro t hw; exact hw
  | cons n p' ih =>
    intro t hw
    by_cases hp' : p' = []
    · subst hp'
      rw [removeAt]
      exact wf_del hw n
    · rw [removeAt_cons_ne_nil t n hp']
      cases hfc : findC t n with
      | none => exact hw
      | some e' =>
        cases e' with
        | file c m => exact hw
        | dir ds =>
          have hwds : wfL ds := wf_member hw hfc
          exact wf_upd hw (by simpa [wfE] using ih hwds) n

/-! ## Identity and decomposition of updates -/

lemma upd_upd (t : List (Seg × Entry)) (n : Seg) (e₁ e₂ : Entry) :
    upd (upd t n e₁) n e₂ = upd t n e₂ := by
  induction t with
  | nil => simp [upd]
  | cons hd rest ih =>
    rcases hd with ⟨a, x⟩
    by_cases han : a = n <;> simp [upd, han, ih]

lemma setAt_of_findE :
    ∀ {p : Pth} {t : List (Seg × Entry)} {e : Entry},
      findE t p = some e → setAt t p e = t := by
  intro p
  induction p with
  | nil => intro t e _; rfl
  | cons n p' ih =>
    intro t e h
    by_cases hp' : p' = []
    · subst hp'
      rw [findE_single] at h
      rw [setAt]
      exact upd_self h
    · cases hfc : findC t n with
      | none => exact absurd h (by rw [findE_cons_none hfc]; simp)
      | some e' =>
        cases e' with
        | file c m => exact absurd h (by rw [findE_cons_file hfc hp']; simp)
        | dir ds =>
          rw [findE_cons_dir hfc hp'] at h
          rw [setAt_cons_dir hfc hp', ih h]
          exact upd_self hfc

lemma setAt_setAt :
    ∀ {p : Pth} (t : List (Seg × Entry)) (e₁ e₂ : Entry),
      setAt (setAt t p e₁) p e₂ = setAt t p e₂ := by
  intro p
  induction p with
  | nil => intro t e₁ e₂; rfl
  | cons n p' ih =>
    intro t e₁ e₂
    by_cases hp' : p' = []
    · subst hp'
      rw [setAt, setAt, setAt, upd_upd]
    · cases hfc : findC t n with
      | none => rw [setAt_cons_none hfc hp']
      | some e' =>
        cases e' with
        | file c m => rw [setAt_cons_file hfc hp']
        | dir ds =>
          rw [setAt_cons_dir hfc hp',
            setAt_cons_dir (t := upd t n (.dir (setAt ds p' e₁)))
              (by rw [findC_upd, if_pos rfl]) hp', upd_upd, ih,
            setAt_cons_dir hfc hp']

lemma setSub_self {t : List (Seg × Entry)} :
    ∀ {h : Pth} {cs : List (Seg × Entry)},
      findE t h = some (.dir cs) → setSub t h cs = t := by
  intro h cs hf
  cases h with
  | nil =>
    rw [findE] at hf
    simp only [Option.some.injEq, Entry.dir.injEq] at hf
    rw [setSub, hf]
  | cons n h' => exact setAt_of_findE hf

lemma setSub_ne_nil {t cs' : List (Seg × Entry)} {h : Pth} (hne : h ≠ []) :
    setSub t h cs' = setAt t h (.dir cs') := by
  cases h with
  | nil => exact absurd rfl hne
  | cons n h' => rfl

lemma findE_nil_of_ne {q : Pth} (hq : q ≠ []) :
    findE ([] : List (Seg × Entry)) q = none := by
  cases q with
  | nil => exact absurd rfl hq
  | cons m q' => exact findE_cons_none (by rw [findC]) q'

lemma findE_congr_head {t t' : List (Seg × Entry)} {m : Seg}
    (hfc : findC t' m = findC t m) (q' : List Seg) :
    findE t' (m :: q') = findE t (m :: q') := by
  by_cases hq' : q' = []
  · subst hq'; rw [findE_single, findE_single, hfc]
  · rw [findE_cons_ne_nil t' m hq', findE_cons_ne_nil t m hq', hfc]

lemma mkdirs_cons_dir {t ds : List (Seg × Entry)} {n : Seg}
    (hfc : findC t n = some (.dir ds)) (rest : List Seg) :
    mkdirs t (n :: rest) =
      (mkdirs ds rest).map fun ds' => upd t n (.dir ds') := by
  rw [mkdirs, hfc]

lemma mkdirs_cons_none {t : List (Seg × Entry)} {n : Seg}
    (hfc : findC t n = none) (rest : List Seg) :
    mkdirs t (n :: rest) =
      (mkdirs [] rest).map fun ds' => upd t n (.dir ds') := by
  rw [mkdirs, hfc]

lemma mkdirs_cons_file {t : List (Seg × Entry)} {n : Seg} {c : List Nat}
    {m : Nat} (hfc : findC t n = some (.file c m)) (rest : List Seg) :
    mkdirs t (n :: rest) = none := by
  rw [mkdirs, hfc]

lemma mkdirs_id :
    ∀ {p : Pth} {t ds : List (Seg × Entry)},
      findE t p = some (.dir ds) → mkdirs t p = some t := by
  intro p
  induction p with
  | nil => intro t ds _; rfl
  | cons n p' ih =>
    intro t ds h
    by_cases hp' : p' = []
    · subst hp'
      rw [findE_single] at h
      rw [mkdirs_cons_dir h, mkdirs]
      simp [upd_self h]
    · cases hfc : findC t n with
      | none => exact absurd h (by rw [findE_cons_none hfc]; simp)
      | some e' =>
        cases e' with
        | file c m => exact absurd h (by rw [findE_cons_file hfc hp']; simp)
        | dir ds₀ =>
          rw [findE_cons_dir hfc hp'] at h
          rw [mkdirs_cons_dir hfc, ih h]
          simp [upd_self hfc]

lemma mkdirs_frame :
    ∀ {p : Pth} {t t' : List (Seg × Entry)}, mkdirs t p = some t' →
      ∀ {q : Pth}, ¬ q <+: p → findE t' q = findE t q := by
  intro p
  induction p with
  | nil =>
    intro t t' hmk q _
    rw [mkdirs] at hmk
    simp only [Option.some.injEq] at hmk
    rw [hmk]
  | cons n p' ih =>
    intro t t' hmk q hq
    cases q with
    | nil => exact absurd List.nil_prefix hq
    | cons m q' =>
      by_cases hnm : n = m
      · subst hnm
        have hq' : ¬ q' <+: p' := fun hc => hq (by
          rw [List.cons_prefix_cons]; exact ⟨rfl, hc⟩)
        have hq'ne : q' ≠ [] := by
          intro hc
          subst hc
          exact hq' (List.nil_prefix)
        cases hfc : findC t n with
        | none =>
          rw [mkdirs_cons_none hfc] at hmk
          rcases Option.map_eq_some'.mp hmk with ⟨ds', hds', ht'⟩
          subst ht'
          rw [findE_cons_dir (by rw [findC_upd, if_pos rfl]) hq'ne,
            findE_cons_none hfc q', ih hds' hq']
          exact findE_nil_of_ne hq'ne
        | some e' =>
          cases e' with
          | file c mm => rw [mkdirs_cons_file hfc] at hmk; exact absurd hmk (by simp)
          | dir ds =>
            rw [mkdirs_cons_dir hfc] at hmk
            rcases Option.map_eq_some'.mp hmk with ⟨ds', hds', ht'⟩
            subst ht'
            rw [findE_cons_dir (by rw [findC_upd, if_pos rfl]) hq'ne,
              findE_cons_dir hfc hq'ne]
            exact ih hds' hq'
      · cases hfc : findC t n with
        | none =>
          rw [mkdirs_cons_none hfc] at hmk
          rcases Option.map_eq_some'.mp hmk with ⟨ds', _, ht'⟩
          subst ht'
          exact findE_congr_head (by rw [findC_upd, if_neg hnm]) q'
        | some e' =>
          cases e' with
          | file c mm => rw [mkdirs_cons_file hfc] at hmk; exact absurd hmk (by simp)
          | dir ds =>
            rw [mkdirs_cons_dir hfc] at hmk
            rcases Option.map_eq_some'.mp hmk with ⟨ds', _, ht'⟩
            subst ht'
            exact findE_congr_head (by rw [findC_upd, if_neg hnm]) q'

lemma mkdirs_found :
    ∀ {p : Pth} {t t' : List (Seg × Entry)}, mkdirs t p = some t' →
      ∃ ds, findE t' p = some (.dir ds) := by
  intro p
  induction p with
  | nil =>
    intro t t' hmk
    exact ⟨t', by rw [findE]⟩
  | cons n p' ih =>
    intro t t' hmk
    have step : ∀ (base : List (Seg × Entry)) (ds' : List (Seg × Entry)),
        mkdirs base p' = some ds' → t' = upd t n (.dir ds') →
        ∃ ds, findE t' (n :: p') = some (.dir ds) := by
      intro base ds' hds' ht'
      subst ht'
      by_cases hp' : p' = []
      · subst hp'
        rw [mkdirs] at hds'
        simp only [Option.some.injEq] at hds'
        exact ⟨ds', by rw [findE_single, findC_upd, if_pos rfl]⟩
      · obtain ⟨dd, hdd⟩ := ih hds'
        exact ⟨dd, by
          rw [findE_cons_dir (by rw [findC_upd, if_pos rfl]) hp']
          exact hdd⟩
    cases hfc : findC t n with
    | none =>
      rw [mkdirs_cons_none hfc] at hmk
      rcases Option.map_eq_some'.mp hmk with ⟨ds', hds', ht'⟩
      exact step [] ds' hds' ht'.symm
    | some e' =>
      cases e' with
      | file c mm => rw [mkdirs_cons_file hfc] at hmk; exact absurd hmk (by simp)
      | dir ds =>
        rw [mkdirs_cons_dir hfc] at hmk
        rcases Option.map_eq_some'.mp hmk with ⟨ds', hds', ht'⟩
        exact step ds ds' hds' ht'.symm

lemma wf_mkdirs :
    ∀ {p : Pth} {t t' : List (Seg × Entry)}, wfL t → mkdirs t p = some t' →
      wfL t' := by
  intro p
  induction p with
  | nil =>
    intro t t' hw hmk
    rw [mkdirs] at hmk
    simp only [Option.some.injEq] at hmk
    exact hmk ▸ hw
  | cons n p' ih =>
    intro t t' hw hmk
    cases hfc : findC t n with
    | none =>
      rw [mkdirs_cons_none hfc] at hmk
      rcases Option.map_eq_some'.mp hmk with ⟨ds', hds', ht'⟩
      subst ht'
      exact wf_upd hw (by simpa [wfE] using ih (by rw [wfL]) hds') n
    | some e' =>
      cases e' with
      | file c mm => rw [mkdirs_cons_file hfc] at hmk; exact absurd hmk (by simp)
      | dir ds =>
        rw [mkdirs_cons_dir hfc] at hmk
        rcases Option.map_eq_some'.mp hmk with ⟨ds', hds', ht'⟩
        subst ht'
        have hwds : wfL ds := wf_member hw hfc
        exact wf_upd hw (by simpa [wfE] using ih hwds hds') n

lemma fLook_nil (q : Pth) : fLook [] q = none := rfl

lemma hGetDir_nof {st : Store} {h : Pth} {cs : List (Seg × Entry)}
    (hf : st.faults = []) (hcs : findE st.root h = some (.dir cs)) (n : Seg)
    (c : Bool) :
    hGetDir st h n c =
      (match findC cs n with
       | some (.dir _) => (st, .ok (h ++ [n]))
       | some (.file _ _) => (st, .error (.host "TypeMismatchError"))
       | none =>
           if c then
             ({ st with root := setAt st.root (h ++ [n]) (.dir []) },
               .ok (h ++ [n]))
           else (st, .error (.host "NotFoundError"))) := by
  unfold hGetDir
  rw [hf, fLook_nil, hcs]

lemma hGetFile_nof {st : Store} {h : Pth} {cs : List (Seg × Entry)}
    (hf : st.faults = []) (hcs : findE st.root h = some (.dir cs)) (n : Seg)
    (c : Bool) :
    hGetFile st h n c =
      (match findC cs n with
       | some (.file _ _) => (st, .ok (h ++ [n]))
       | some (.dir _) => (st, .error (.host "TypeMismatchError"))
       | none =>
           if c then
             ({ st with root := setAt st.root (h ++ [n]) (.file [] 0) },
               .ok (h ++ [n]))
           else (st, .error (.host "NotFoundError"))) := by
  unfold hGetFile
  rw [hf, fLook_nil, hcs]

lemma gdWalk_resolve (k : Option EKind) :
    ∀ (q : List Seg) (st : Store) (h : Pth) (cs : List (Seg × Entry)),
      st.faults = [] → q ≠ [] → findE st.root h = some (.dir cs) →
      gdWalk false k st h q =
        (st, .ok (match findE cs q with
                  | some e => if matchK k e then some (h ++ q) else none
                  | none => none)) := by
  intro q
  induction q with
  | nil => intro st h cs _ hq _; exact absurd rfl hq
  | cons n q' ih =>
    intro st h cs hf _ hcs
    by_cases hq' : q' = []
    · subst hq'
      rw [gdWalk_single]
      have hd := hGetDir_nof hf hcs n false
      have hfi := hGetFile_nof hf hcs n false
      cases hfc : findC cs n with
      | none =>
        rw [hfc] at hd hfi
        cases k with
        | none => simp [gdFinal, hd, hfi, findE_single, hfc]
        | some kk =>
          cases kk <;> simp [gdFinal, hd, hfi, findE_single, hfc]
      | some e =>
        cases e with
        | dir ds =>
          rw [hfc] at hd hfi
          cases k with
          | none => simp [gdFinal, hd, hfi, findE_single, hfc, matchK, kindOf]
          | some kk =>
            cases kk <;>
              simp [gdFinal, hd, hfi, findE_single, hfc, matchK, kindOf]
        | file cc mm =>
          rw [hfc] at hd hfi
          cases k with
          | none => simp [gdFinal, hd, hfi, findE_single, hfc, matchK, kindOf]
          | some kk =>
            cases kk <;>
              simp [gdFinal, hd, hfi, findE_single, hfc, matchK, kindOf]
    · rw [gdWalk_cons_ne false k st h n hq', hGetDir_nof hf hcs n false]
      cases hfc : findC cs n with
      | none => simp [findE_cons_none hfc]
      | some e =>
        cases e with
        | file cc mm => simp [findE_cons_file hfc hq']
        | dir ds =>
          have hds : findE st.root (h ++ [n]) = some (.dir ds) := by
            rw [findE_append_dir hcs [n], findE_single, hfc]
          have hih := ih st (h ++ [n]) ds hf hq' hds
          simp only []
          rw [hih, findE_cons_dir hfc hq']
          simp

lemma getDetails_resolve {st : Store} {p : Pth} (k : Option EKind)
    (hf : st.faults = []) (hroot : p ≠ ["root"]) (hnil : p ≠ []) :
    getDetails st p false false k =
      (st, .ok (match findE st.root p with
                | some e => if matchK k e then some p else none
                | none => none)) := by
  unfold getDetails
  rw [if_neg hroot]
  have := gdWalk_resolve k p st [] st.root hf hnil (by rw [findE])
  simpa using this

lemma setAt_snoc :
    ∀ {h : Pth} {t cs : List (Seg × Entry)} (n : Seg) (e : Entry),
      findE t h = some (.dir cs) →
        setAt t (h ++ [n]) e = setSub t h (upd cs n e) := by
  intro h
  induction h with
  | nil =>
    intro t cs n e hf
    rw [findE] at hf
    simp only [Option.some.injEq, Entry.dir.injEq] at hf
    subst hf
    rfl
  | cons a h' ih =>
    intro t cs n e hf
    have hsnoc : h' ++ [n] ≠ [] := by simp
    by_cases hh' : h' = []
    · subst hh'
      rw [findE_single] at hf
      show setAt t (a :: [n]) e = setSub t [a] (upd cs n e)
      rw [setAt_cons_ne_nil t a (List.cons_ne_nil n []), hf]
      rfl
    · cases hfc : findC t a with
      | none => exact absurd hf (by rw [findE_cons_none hfc]; simp)
      | some e' =>
        cases e' with
        | file c m =>
          exact absurd hf (by rw [findE_cons_file hfc hh']; simp)
        | dir ds₀ =>
          rw [findE_cons_dir hfc hh'] at hf
          show setAt t (a :: (h' ++ [n])) e = _
          rw [setAt_cons_dir hfc hsnoc, ih n e hf,
            setSub_ne_nil hh', setSub_ne_nil (List.cons_ne_nil a h'),
            setAt_cons_dir hfc hh']

/-! ## Characterizing the walks that create directories -/

lemma gdWalk_mkdirs :
    ∀ (q : List Seg) (st : Store) (h : Pth) (cs cs' : List (Seg × Entry)),
      st.faults = [] → q ≠ [] → findE st.root h = some (.dir cs) →
      mkdirs cs q = some cs' →
      gdWalk true (some .directory) st h q =
        ({ st with root := setSub st.root h cs' }, .ok (some (h ++ q))) := by
  intro q
  induction q with
  | nil => intro st h cs cs' _ hq _ _; exact absurd rfl hq
  | cons n q' ih =>
    intro st h cs cs' hf _ hcs hmk
    by_cases hq' : q' = []
    · subst hq'
      rw [gdWalk_single]
      have hd := hGetDir_nof hf hcs n true
      cases hfc : findC cs n with
      | none =>
        rw [hfc] at hd
        rw [mkdirs_cons_none hfc, mkdirs] at hmk
        simp only [Option.map_some', Option.some.injEq] at hmk
        subst hmk
        rw [setAt_snoc n (.dir []) hcs] at hd
        simp [gdFinal, hd]
      | some e =>
        cases e with
        | file cc mm => rw [mkdirs_cons_file hfc] at hmk; exact absurd hmk (by simp)
        | dir ds =>
          rw [hfc] at hd
          rw [mkdirs_cons_dir hfc, mkdirs] at hmk
          simp only [Option.map_some', Option.some.injEq] at hmk
          subst hmk
          have hself : setSub st.root h (upd cs n (.dir ds)) = st.root := by
            rw [upd_self hfc]
            exact setSub_self hcs
          simp [gdFinal, hd, hself]
    · rw [gdWalk_cons_ne true (some .directory) st h n hq',
        hGetDir_nof hf hcs n true]
      cases hfc : findC cs n with
      | none =>
        rw [mkdirs_cons_none hfc] at hmk
        rcases Option.map_eq_some'.mp hmk with ⟨ds'', hds'', hcs'⟩
        subst hcs'
        have hset : findE (setAt st.root (h ++ [n]) (.dir [])) (h ++ [n]) =
            some (.dir []) := by
          apply findE_setAt_self (by simp)
          rw [List.dropLast_concat]
          exact hcs
        have hih := ih { st with root := setAt st.root (h ++ [n]) (.dir []) }
          (h ++ [n]) [] ds'' hf hq' hset hds''
        simp only [if_true]
        rw [hih]
        rw [setSub_ne_nil (by simp : h ++ [n] ≠ ([] : Pth)), setAt_setAt,
          setAt_snoc n (.dir ds'') hcs]
        simp
      | some e =>
        cases e with
        | file cc mm => rw [mkdirs_cons_file hfc] at hmk; exact absurd hmk (by simp)
        | dir ds =>
          rw [mkdirs_cons_dir hfc] at hmk
          rcases Option.map_eq_some'.mp hmk with ⟨ds'', hds'', hcs'⟩
          subst hcs'
          have hds : findE st.root (h ++ [n]) = some (.dir ds) := by
            rw [findE_append_dir hcs [n], findE_single, hfc]
          have hih := ih st (h ++ [n]) ds ds'' hf hq' hds hds''
          simp only []
          rw [hih, setSub_ne_nil (by simp : h ++ [n] ≠ ([] : Pth)),
            setAt_snoc n (.dir ds'') hcs]
          simp

lemma cdGo_mkdirs :
    ∀ (q : List Seg) (st : Store) (h : Pth) (cs cs' : List (Seg × Entry)),
      st.faults = [] → findE st.root h = some (.dir cs) →
      mkdirs cs q = some cs' →
      cdGo st h q = ({ st with root := setSub st.root h cs' }, .ok ()) := by
  intro q
  induction q with
  | nil =>
    intro st h cs cs' _ hcs hmk
    rw [mkdirs] at hmk
    simp only [Option.some.injEq] at hmk
    subst hmk
    rw [cdGo, setSub_self hcs]
  | cons n q' ih =>
    intro st h cs cs' hf hcs hmk
    rw [cdGo, hGetDir_nof hf hcs n true]
    cases hfc : findC cs n with
    | none =>
      rw [mkdirs_cons_none hfc] at hmk
      rcases Option.map_eq_some'.mp hmk with ⟨ds'', hds'', hcs'⟩
      subst hcs'
      have hset : findE (setAt st.root (h ++ [n]) (.dir [])) (h ++ [n]) =
          some (.dir []) := by
        apply findE_setAt_self (by simp)
        rw [List.dropLast_concat]
        exact hcs
      have hih := ih { st with root := setAt st.root (h ++ [n]) (.dir []) }
        (h ++ [n]) [] ds'' hf hset hds''
      simp only [if_true]
      rw [hih, setSub_ne_nil (by simp : h ++ [n] ≠ ([] : Pth)), setAt_setAt,
        setAt_snoc n (.dir ds'') hcs]
    | some e =>
      cases e with
      | file cc mm => rw [mkdirs_cons_file hfc] at hmk; exact absurd hmk (by simp)
      | dir ds =>
        rw [mkdirs_cons_dir hfc] at hmk
        rcases Option.map_eq_some'.mp hmk with ⟨ds'', hds'', hcs'⟩
        subst hcs'
        have hds : findE st.root (h ++ [n]) = some (.dir ds) := by
          rw [findE_append_dir hcs [n], findE_single, hfc]
        have hih := ih st (h ++ [n]) ds ds'' hf hds hds''
        simp only []
        rw [hih, setSub_ne_nil (by simp : h ++ [n] ≠ ([] : Pth)),
          setAt_snoc n (.dir ds'') hcs]

lemma gdFinal_file_char {st : Store} {h : Pth} {cs : List (Seg × Entry)}
    (hf : st.faults = []) (hcs : findE st.root h = some (.dir cs)) (n : Seg) :
    gdFinal true (some .file) st h n =
      (match findC cs n with
       | some (.file _ _) => (st, .ok (some (h ++ [n])))
       | some (.dir _) => (st, .ok none)
       | none =>
           ({ st with root := setAt st.root (h ++ [n]) (.file [] 0) },
             .ok (some (h ++ [n])))) := by
  have hfi := hGetFile_nof hf hcs n true
  cases hfc : findC cs n with
  | none => rw [hfc] at hfi; simp [gdFinal, hfi]
  | some e =>
    cases e with
    | file cc mm => rw [hfc] at hfi; simp [gdFinal, hfi]
    | dir ds => rw [hfc] at hfi; simp [gdFinal, hfi]

lemma gdWalk_mid_mkdirs :
    ∀ (q : List Seg) (n : Seg) (st : Store) (h : Pth)
      (cs cs' : List (Seg × Entry)),
      st.faults = [] → findE st.root h = some (.dir cs) →
      mkdirs cs q = some cs' →
      gdWalk true (some .file) st h (q ++ [n]) =
        gdFinal true (some .file) { st with root := setSub st.root h cs' }
          (h ++ q) n := by
  intro q
  induction q with
  | nil =>
    intro n st h cs cs' _ hcs hmk
    rw [mkdirs] at hmk
    simp only [Option.some.injEq] at hmk
    subst hmk
    rw [List.nil_append, gdWalk_single, setSub_self hcs]
    simp
  | cons a q' ih =>
    intro n st h cs cs' hf hcs hmk
    rw [List.cons_append,
      gdWalk_cons_ne true (some .file) st h a (by simp),
      hGetDir_nof hf hcs a true]
    cases hfc : findC cs a with
    | none =>
      rw [mkdirs_cons_none hfc] at hmk
      rcases Option.map_eq_some'.mp hmk with ⟨ds'', hds'', hcs'⟩
      subst hcs'
      have hset : findE (setAt st.root (h ++ [a]) (.dir [])) (h ++ [a]) =
          some (.dir []) := by
        apply findE_setAt_self (by simp)
        rw [List.dropLast_concat]
        exact hcs
      have hih := ih n { st with root := setAt st.root (h ++ [a]) (.dir []) }
        (h ++ [a]) [] ds'' hf hset hds''
      simp only [if_true]
      rw [hih, setSub_ne_nil (by simp : h ++ [a] ≠ ([] : Pth)), setAt_setAt,
        setAt_snoc a (.dir ds'') hcs]
      simp only [List.append_assoc, List.singleton_append]
    | some e =>
      cases e with
      | file cc mm => rw [mkdirs_cons_file hfc] at hmk; exact absurd hmk (by simp)
      | dir ds =>
        rw [mkdirs_cons_dir hfc] at hmk
        rcases Option.map_eq_some'.mp hmk with ⟨ds'', hds'', hcs'⟩
        subst hcs'
        have hds : findE st.root (h ++ [a]) = some (.dir ds) := by
          rw [findE_append_dir hcs [a], findE_single, hfc]
        have hih := ih n st (h ++ [a]) ds ds'' hf hds hds''
        simp only []
        rw [hih, setSub_ne_nil (by simp : h ++ [a] ≠ ([] : Pth)),
          setAt_snoc a (.dir ds'') hcs]
        simp only [List.append_assoc, List.singleton_append]

/-! ## Fault-free characterizations of the remaining primitives -/

lemma hGetFileContent_file {st : Store} {h : Pth} {c : List Nat} {m : Nat}
    (hf : st.faults = []) (he : findE st.root h = some (.file c m)) :
    hGetFileContent st h = .ok (c, m) := by
  unfold hGetFileContent
  rw [hf, fLook_nil, he]

lemma hValues_dir {st : Store} {h : Pth} {cs : List (Seg × Entry)}
    (hf : st.faults = []) (he : findE st.root h = some (.dir cs)) :
    hValues st h = .ok (cs.map fun c => (c.1, kindOf c.2)) := by
  unfold hValues
  rw [hf, fLook_nil, he]

lemma hValues_file {st : Store} {h : Pth} {c : List Nat} {m : Nat}
    (hf : st.faults = []) (he : findE st.root h = some (.file c m)) :
    hValues st h = .error (.host "TypeError") := by
  unfold hValues
  rw [hf, fLook_nil, he]

lemma hWriteFile_file {st : Store} {h : Pth} {c0 : List Nat} {m0 : Nat}
    (hf : st.faults = []) (he : findE st.root h = some (.file c0 m0))
    (c : List Nat) (now : Nat) :
    hWriteFile st h c now =
      ({ st with root := setAt st.root h (.file c now) }, .ok ()) := by
  unfold hWriteFile
  rw [hf, fLook_nil, he]

lemma hWriteFile_dir {st : Store} {h : Pth} {cs : List (Seg × Entry)}
    (hf : st.faults = []) (he : findE st.root h = some (.dir cs))
    (c : List Nat) (now : Nat) :
    hWriteFile st h c now = (st, .error (.host "TypeError")) := by
  unfold hWriteFile
  rw [hf, fLook_nil, he]

lemma kindAt_eq {st : Store} {h : Pth} {e : Entry}
    (he : findE st.root h = some e) : kindAt st h = some (kindOf e) := by
  rw [kindAt, he, Option.map_some']

/-! ## Fault-free characterizations of the single-entry operations -/

lemma isFile_char {st : Store} {p : Pth} (hf : st.faults = [])
    (hroot : p ≠ ["root"]) (hnil : p ≠ []) :
    isFile st p =
      (st, .ok (match findE st.root p with
                | some (.file _ _) => true
                | _ => false)) := by
  unfold isFile
  rw [getDetails_resolve none hf hroot hnil]
  cases he : findE st.root p with
  | none => simp
  | some e => cases e <;> simp [matchK, kindAt_eq he, kindOf]

lemma isDirectory_char {st : Store} {p : Pth} (hf : st.faults = [])
    (hroot : p ≠ ["root"]) (hnil : p ≠ []) :
    isDirectory st p =
      (st, .ok (match findE st.root p with
                | some (.dir _) => true
                | _ => false)) := by
  unfold isDirectory
  rw [getDetails_resolve none hf hroot hnil]
  cases he : findE st.root p with
  | none => simp
  | some e => cases e <;> simp [matchK, kindAt_eq he, kindOf]

lemma bytes_char {st : Store} {p : Pth} (hf : st.faults = [])
    (hroot : p ≠ ["root"]) (hnil : p ≠ []) :
    bytes st p =
      (st, .ok (match findE st.root p with
                | some (.file c _) => some c
                | _ => none)) := by
  unfold bytes readFile
  rw [getDetails_resolve none hf hroot hnil]
  cases he : findE st.root p with
  | none => simp
  | some e =>
    cases e with
    | file c m =>
      simp [matchK, kindAt_eq he, kindOf, hGetFileContent_file hf he]
    | dir cs => simp [matchK, kindAt_eq he, kindOf]

lemma list_char {st : Store} {p : Pth} (hf : st.faults = [])
    (hroot : p ≠ ["root"]) (hnil : p ≠ []) :
    list st p =
      (match findE st.root p with
       | some (.dir cs) => (st, .ok (cs.map fun c => (c.1, kindOf c.2)))
       | some (.file _ _) => (st, .error (.host "TypeError"))
       | none => (st, .ok [])) := by
  unfold list
  rw [getDetails_resolve none hf hroot hnil]
  cases he : findE st.root p with
  | none => simp
  | some e =>
    cases e with
    | file c m => simp [matchK, hValues_file hf he]
    | dir cs => simp [matchK, hValues_dir hf he]

/-! ## Characterizing `write` -/

lemma findE_parent_dir {t : List (Seg × Entry)} {q : Pth} {n : Seg}
    {e : Entry} (h : findE t (q ++ [n]) = some e) :
    ∃ ds, findE t q = some (.dir ds) ∧ findC ds n = some e := by
  cases hq : findE t q with
  | none => rw [findE_append_none hq [n]] at h; exact absurd h (by simp)
  | some e' =>
    cases e' with
    | file c m =>
      rw [findE_append_file hq (by simp : [n] ≠ ([] : Pth))] at h
      exact absurd h (by simp)
    | dir ds =>
      refine ⟨ds, rfl, ?_⟩
      rw [findE_append_dir hq [n], findE_single] at h
      exact h

lemma findE_setSub_self {t cs' : List (Seg × Entry)} {q : Pth}
    {ds : List (Seg × Entry)} (hq : findE t q = some (.dir ds)) :
    findE (setSub t q cs') q = some (.dir cs') := by
  cases hqe : q with
  | nil =>
    rw [setSub, findE]
  | cons a q' =>
    subst hqe
    rw [setSub_ne_nil (List.cons_ne_nil a q')]
    rcases List.eq_nil_or_concat (a :: q') with hc | ⟨r, n, hr⟩
    · simp at hc
    · rw [List.concat_eq_append] at hr
      rw [hr] at hq ⊢
      obtain ⟨ds₀, hds₀, _⟩ := findE_parent_dir hq
      exact findE_setAt_self (by simp) (by rw [List.dropLast_concat]; exact hds₀)

lemma write_file {st : Store} {p : Pth} {c0 : List Nat} {m0 : Nat}
    (hf : st.faults = []) (hroot : p ≠ ["root"]) (hnil : p ≠ [])
    (he : findE st.root p = some (.file c0 m0)) (contents : List Nat)
    (now : Nat) :
    write st p contents now =
      ({ st with root := setAt st.root p (.file contents now) }, .ok ()) := by
  unfold write
  rw [getDetails_resolve none hf hroot hnil, he]
  simp only [matchK, if_true]
  exact hWriteFile_file hf he contents now

lemma write_dir {st : Store} {p : Pth} {cs : List (Seg × Entry)}
    (hf : st.faults = []) (hroot : p ≠ ["root"]) (hnil : p ≠ [])
    (he : findE st.root p = some (.dir cs)) (contents : List Nat)
    (now : Nat) :
    write st p contents now = (st, .error (.host "TypeError")) := by
  unfold write
  rw [getDetails_resolve none hf hroot hnil, he]
  simp only [matchK, if_true]
  exact hWriteFile_dir hf he contents now

lemma write_absent {st : Store} {p : Pth} {t₁ : List (Seg × Entry)}
    (hf : st.faults = []) (hroot : p ≠ ["root"]) (hnil : p ≠ [])
    (hmk : mkdirs st.root p.dropLast = some t₁)
    (habs : findE st.root p = none) (contents : List Nat) (now : Nat) :
    write st p contents now =
      ({ st with root := setAt t₁ p (.file contents now) }, .ok ()) := by
  rcases List.eq_nil_or_concat p with hc | ⟨q, n, hq⟩
  · exact absurd hc hnil
  · rw [List.concat_eq_append] at hq
    subst hq
    have hdl : (q ++ [n]).dropLast = q := List.dropLast_concat
    rw [hdl] at hmk
    unfold write
    rw [getDetails_resolve none hf hroot hnil, habs]
    simp only []
    have hlast : (q ++ [n]).getLast? = some n := by
      rw [List.getLast?_concat]
    rw [hlast]
    simp only []
    -- the parent-chain resolution with returnParent and create
    have hparent : getDetails st (q ++ [n]) true true (some .directory) =
        ({ st with root := t₁ }, .ok (if q = [] then none else some q)) := by
      unfold getDetails
      rw [if_neg hroot]
      simp only [if_true, hdl]
      by_cases hqnil : q = []
      · subst hqnil
        rw [mkdirs] at hmk
        simp only [Option.some.injEq] at hmk
        subst hmk
        simp [gdWalk]
      · rw [gdWalk_mkdirs q st [] st.root t₁ hf hqnil (by rw [findE]) hmk]
        simp [hqnil, setSub]
    rw [hparent]
    simp only []
    have hgd : (if q = [] then (none : Option Pth) else some q).getD [] = q := by
      by_cases hqnil : q = [] <;> simp [hqnil]
    rw [hgd]
    obtain ⟨ds, hds⟩ := mkdirs_found hmk
    have hfaults : ({ st with root := t₁ } : Store).faults = [] := hf
    have habs' : findE t₁ (q ++ [n]) = none := by
      rw [mkdirs_frame hmk (by
        intro hc
        have := List.IsPrefix.length_le hc
        simp at this)]
      exact habs
    have hfc : findC ds n = none := by
      have := findE_append_dir hds [n]
      rw [habs', findE_single] at this
      exact this.symm
    rw [hGetFile_nof hfaults hds n true, hfc]
    simp only [if_true]
    have hset : findE (setAt t₁ (q ++ [n]) (.file [] 0)) (q ++ [n]) =
        some (.file [] 0) :=
      findE_setAt_self (by simp) (by rw [List.dropLast_concat]; exact hds)
    rw [@hWriteFile_file { st with root := setAt t₁ (q ++ [n]) (.file [] 0) }
      (q ++ [n]) [] 0 hf hset contents now]
    simp [setAt_setAt]

/-! ## Characterizing `append` -/

lemma append_absent {st : Store} {p : Pth} (hf : st.faults = [])
    (hroot : p ≠ ["root"]) (hnil : p ≠ [])
    (habs : findE st.root p = none) (b : List Nat) (now : Nat) :
    append st p b now = write st p b now := by
  unfold append
  rw [getDetails_resolve none hf hroot hnil, habs]

lemma append_file {st : Store} {p : Pth} {c0 : List Nat} {m0 : Nat}
    (hf : st.faults = []) (hroot : p ≠ ["root"]) (hnil : p ≠ [])
    (he : findE st.root p = some (.file c0 m0)) (b : List Nat) (now : Nat) :
    append st p b now =
      ({ st with root := setAt st.root p (.file (c0 ++ b) now) }, .ok ()) := by
  unfold append
  rw [getDetails_resolve none hf hroot hnil, he]
  simp only [matchK, if_true]
  rw [kindAt_eq he]
  simp only [kindOf]
  rw [hGetFileContent_file hf he]
  exact write_file hf hroot hnil he (c0 ++ b) now

lemma append_dir {st : Store} {p : Pth} {cs : List (Seg × Entry)}
    (hf : st.faults = []) (hroot : p ≠ ["root"]) (hnil : p ≠ [])
    (he : findE st.root p = some (.dir cs)) (b : List Nat) (now : Nat) :
    append st p b now = (st, .error (.directory "append")) := by
  unfold append
  rw [getDetails_resolve none hf hroot hnil, he]
  simp only [matchK, if_true]
  rw [kindAt_eq he]
  simp [kindOf]

/-- The file landing in a written store is readable back. -/
lemma bytes_after_setAt {st : Store} {t₁ ds : List (Seg × Entry)} {p : Pth}
    {c : List Nat} {m : Nat} (hf : st.faults = []) (hroot : p ≠ ["root"])
    (hnil : p ≠ []) (hds : findE t₁ p.dropLast = some (.dir ds)) :
    bytes { st with root := setAt t₁ p (.file c m) } p =
      ({ st with root := setAt t₁ p (.file c m) }, .ok (some c)) := by
  have hfind : findE (setAt t₁ p (.file c m)) p = some (.file c m) :=
    findE_setAt_self hnil hds
  rw [@bytes_char { st with root := setAt t₁ p (.file c m) } p hf hroot hnil]
  rw [hfind]

/-! ## Claim C3 -/

/-- Claim C3, counterexample to the claim as stated: in a store whose
only entry is the file `a`, `write("a/b", [7])` succeeds — the
parent-chain resolution is blocked by the file `a`, falls back to the
workspace root, and creates the top-level file `b` — after which
`bytes("a/b")` is `undefined` rather than `[7]`, and the written content
sits at `b` instead. -/
theorem c3_counterexample :
    (write ⟨[("a", .file [9] 1)], [], [], [], false⟩ ["a", "b"] [7] 3).2 =
        .ok () ∧
    (bytes (write ⟨[("a", .file [9] 1)], [], [], [], false⟩ ["a", "b"] [7]
        3).1 ["a", "b"]).2 = .ok none ∧
    (bytes (write ⟨[("a", .file [9] 1)], [], [], [], false⟩ ["a", "b"] [7]
        3).1 ["b"]).2 = .ok (some [7]) :=
  ⟨rfl, rfl, rfl⟩

/-- Claim C3 (amended): for every path `p` that is not the root literal,
does not resolve to an existing directory, and whose proper parent chain
is free of files (so `mkdirs` succeeds on it), `write(p, b)` succeeds and
a subsequent `bytes(p)` returns exactly `b` — whether or not the parent
chain existed beforehand, and overwriting any previous content
entirely. -/
theorem c3_write_bytes_roundtrip {st : Store} {p : Pth}
    {t₁ : List (Seg × Entry)} (hf : st.faults = []) (hroot : p ≠ ["root"])
    (hnil : p ≠ []) (hmk : mkdirs st.root p.dropLast = some t₁)
    (hnd : ∀ cs, findE st.root p ≠ some (.dir cs)) (contents : List Nat)
    (now : Nat) :
    (write st p contents now).2 = .ok () ∧
    bytes (write st p contents now).1 p =
      ((write st p contents now).1, .ok (some contents)) := by
  obtain ⟨ds, hds⟩ := mkdirs_found hmk
  cases he : findE st.root p with
  | none =>
    rw [write_absent hf hroot hnil hmk he contents now]
    exact ⟨rfl, bytes_after_setAt hf hroot hnil hds⟩
  | some e =>
    cases e with
    | dir cs => exact absurd he (hnd cs)
    | file c0 m0 =>
      rw [write_file hf hroot hnil he contents now]
      refine ⟨rfl, ?_⟩
      have ht₁ : t₁ = st.root := by
        rcases List.eq_nil_or_concat p with hc | ⟨q, n, hq⟩
        · exact absurd hc hnil
        · rw [List.concat_eq_append] at hq
          subst hq
          obtain ⟨ds₀, hds₀, _⟩ := findE_parent_dir he
          rw [List.dropLast_concat, mkdirs_id hds₀] at hmk
          simpa using hmk.symm
      subst ht₁
      exact bytes_after_setAt hf hroot hnil hds

/-- Claim C3 witness: a concrete run of the amended claim, writing
`d/f` into an empty store. -/
theorem c3_witness :
    (write ⟨[], [], [], [], false⟩ ["d", "f"] [1, 2] 5).2 = .ok () ∧
    bytes (write ⟨[], [], [], [], false⟩ ["d", "f"] [1, 2] 5).1 ["d", "f"] =
      ((write ⟨[], [], [], [], false⟩ ["d", "f"] [1, 2] 5).1,
        .ok (some [1, 2])) :=
  @c3_write_bytes_roundtrip ⟨[], [], [], [], false⟩ ["d", "f"]
    [("d", .dir [])] rfl (by decide) (by decide) rfl
    (by
      intro cs h
      simp only [show findE ([] : List (Seg × Entry)) ["d", "f"] = none from
        rfl] at h
      exact Option.noConfusion h)
    [1, 2] 5

/-! ## Claim C4 -/

/-- Claim C4, counterexample to the claim as stated: with `a` a file,
the path `a/b` is absent, yet `append("a/b", [1])` then `append("a/b",
[2])` followed by `bytes("a/b")` yields `undefined`, not `[1] ++ [2]` —
both appends are misdirected to the top-level file `b` by the
parent-chain fallback, and the second even overwrites the first. -/
theorem c4_counterexample :
    (append (append ⟨[("a", .file [9] 1)], [], [], [], false⟩ ["a", "b"]
        [1] 5).1 ["a", "b"] [2] 6).2 = .ok () ∧
    (bytes (append (append ⟨[("a", .file [9] 1)], [], [], [], false⟩
        ["a", "b"] [1] 5).1 ["a", "b"] [2] 6).1 ["a", "b"]).2 = .ok none ∧
    (bytes (append (append ⟨[("a", .file [9] 1)], [], [], [], false⟩
        ["a", "b"] [1] 5).1 ["a", "b"] [2] 6).1 ["b"]).2 = .ok (some [2]) :=
  ⟨rfl, rfl, rfl⟩

/-- Claim C4 (amended): for every non-root path `p` that is absent and
whose proper parent chain is free of files, `append(p, b1)` then
`append(p, b2)` then `bytes(p)` yields exactly `b1 ++ b2`, order
preserved: the first append delegates to `write`, the second reads the
existing bytes and writes the existing-first concatenation. -/
theorem c4_append_append_bytes {st : Store} {p : Pth}
    {t₁ : List (Seg × Entry)} (hf : st.faults = []) (hroot : p ≠ ["root"])
    (hnil : p ≠ []) (hmk : mkdirs st.root p.dropLast = some t₁)
    (habs : findE st.root p = none) (b1 b2 : List Nat) (t1 t2 : Nat) :
    (append st p b1 t1).2 = .ok () ∧
    (append (append st p b1 t1).1 p b2 t2).2 = .ok () ∧
    bytes (append (append st p b1 t1).1 p b2 t2).1 p =
      ((append (append st p b1 t1).1 p b2 t2).1, .ok (some (b1 ++ b2))) := by
  obtain ⟨ds, hds⟩ := mkdirs_found hmk
  have h1 : append st p b1 t1 =
      ({ st with root := setAt t₁ p (.file b1 t1) }, .ok ()) := by
    rw [append_absent hf hroot hnil habs b1 t1]
    exact write_absent hf hroot hnil hmk habs b1 t1
  rw [h1]
  have hfind : findE (setAt t₁ p (.file b1 t1)) p = some (.file b1 t1) :=
    findE_setAt_self hnil hds
  have h2 : append { st with root := setAt t₁ p (.file b1 t1) } p b2 t2 =
      ({ st with root := setAt t₁ p (.file (b1 ++ b2) t2) }, .ok ()) := by
    rw [@append_file { st with root := setAt t₁ p (.file b1 t1) } p b1 t1
      hf hroot hnil hfind b2 t2]
    rw [setAt_setAt]
  rw [h2]
  exact ⟨rfl, rfl, bytes_after_setAt hf hroot hnil hds⟩

/-- Claim C4 witness: a concrete run of the amended claim on an empty
store. -/
theorem c4_witness :
    (append ⟨[], [], [], [], false⟩ ["p", "q"] [1, 2] 5).2 = .ok () ∧
    (append (append ⟨[], [], [], [], false⟩ ["p", "q"] [1, 2] 5).1
        ["p", "q"] [3] 6).2 = .ok () ∧
    bytes (append (append ⟨[], [], [], [], false⟩ ["p", "q"] [1, 2] 5).1
        ["p", "q"] [3] 6).1 ["p", "q"] =
      ((append (append ⟨[], [], [], [], false⟩ ["p", "q"] [1, 2] 5).1
          ["p", "q"] [3] 6).1, .ok (some ([1, 2] ++ [3]))) :=
  @c4_append_append_bytes ⟨[], [], [], [], false⟩ ["p", "q"]
    [("p", .dir [])] rfl (by decide) (by decide) rfl rfl [1, 2] [3] 5 6

/-! ## Characterizing `delete` -/

/-- Resolving the parent (`returnParent`, no `create`): the final segment
is dropped before the walk, so a top-level target yields an absent
parent. -/
lemma getDetails_parent {st : Store} {p : Pth} {q : Pth} {n : Seg}
    {ds : List (Seg × Entry)} (hf : st.faults = []) (hroot : p ≠ ["root"])
    (hp : p = q ++ [n]) (hq : findE st.root q = some (.dir ds)) :
    getDetails st p true false none =
      (st, .ok (if q = [] then none else some q)) := by
  unfold getDetails
  rw [if_neg hroot]
  subst hp
  simp only [if_true, List.dropLast_concat]
  by_cases hqnil : q = []
  · subst hqnil; rfl
  · rw [gdWalk_resolve none q st [] st.root hf hqnil (by rw [findE]), hq]
    simp [matchK, hqnil]

/-- `delete` on an absent non-root target: `NotFoundError`, store
unchanged. -/
lemma delete_notFound {st : Store} {p : Pth} (hf : st.faults = [])
    (hroot : p ≠ ["root"]) (hnil : p ≠ [])
    (habs : findE st.root p = none) :
    delete st p = (st, .error (.notFound "delete")) := by
  unfold delete
  rw [getDetails_resolve none hf hroot hnil, habs]
  simp only []
  obtain ⟨st', r, hr⟩ := getDetails_never_errs st p true false none
  have hst' : st' = st := by
    rw [← getDetails_nocreate_store st p true none, hr]
  rw [hr, hst']

/-- `delete` on a directory with at least one entry: `NotEmptyError`,
store unchanged. -/
lemma delete_notEmpty {st : Store} {p : Pth} {c : Seg × Entry}
    {cs : List (Seg × Entry)} (hf : st.faults = []) (hroot : p ≠ ["root"])
    (hnil : p ≠ []) (he : findE st.root p = some (.dir (c :: cs))) :
    delete st p = (st, .error (.notEmpty "delete")) := by
  rcases List.eq_nil_or_concat p with hc | ⟨q, n, hq⟩
  · exact absurd hc hnil
  · rw [List.concat_eq_append] at hq
    obtain ⟨ds, hds, _⟩ := by rw [hq] at he; exact findE_parent_dir he
    unfold delete
    rw [getDetails_resolve none hf hroot hnil, he]
    simp only [matchK, if_true]
    rw [getDetails_parent hf hroot hq hds]
    simp only []
    rw [kindAt_eq he]
    simp only [kindOf]
    rw [hValues_dir hf he]
    simp

/-- `delete` on a file or an empty directory (no injected removal
faults): the target entry is removed from its parent, i.e. the store
becomes `removeAt` of it. -/
lemma delete_removes {st : Store} {p : Pth} {e : Entry}
    (hf : st.faults = []) (hrf : st.removeFaults = [])
    (hroot : p ≠ ["root"]) (hnil : p ≠ [])
    (he : findE st.root p = some e)
    (hsmall : e = .dir [] ∨ ∃ c m, e = .file c m) :
    delete st p = ({ st with root := removeAt st.root p }, .ok ()) := by
  rcases List.eq_nil_or_concat p with hc | ⟨q, n, hq⟩
  · exact absurd hc hnil
  · rw [List.concat_eq_append] at hq
    subst hq
    obtain ⟨ds, hds, hfc⟩ := findE_parent_dir he
    have hlast : (q ++ [n]).getLast? = some n := List.getLast?_concat _
    have hremove : hRemoveEntry st ((if q = [] then (none : Option Pth)
        else some q).getD []) (q ++ [n]).getLast? =
        ({ st with root := removeAt st.root (q ++ [n]) }, .ok ()) := by
      have hgd : (if q = [] then (none : Option Pth) else some q).getD [] =
          q := by
        by_cases hqnil : q = [] <;> simp [hqnil]
      rw [hgd, hlast]
      simp only [hRemoveEntry]
      rw [hrf, fLook_nil, hds]
      rcases hsmall with hdir | ⟨c, m, hfile⟩
      · subst hdir
        simp only [hfc]
      · subst hfile
        simp only [hfc]
    unfold delete
    rw [getDetails_resolve none hf hroot hnil, he]
    simp only [matchK, if_true]
    rw [getDetails_parent hf hroot rfl hds]
    simp only []
    rw [kindAt_eq he]
    rcases hsmall with hdir | ⟨c, m, hfile⟩
    · subst hdir
      simp only [kindOf]
      rw [hValues_dir hf he]
      simp only [List.map_nil]
      rw [hremove]
    · subst hfile
      simp only [kindOf]
      rw [hremove]

/-! ## Claim C5 -/

/-- Claim C5, counterexample to the claim as stated: on the empty store,
`delete("root")` resolves the root-literal target (never absent), finds
an empty directory, and fire-and-forgets a `removeEntry` with an
undefined name — the call reports success, the store is unchanged, and
the target is still resolvable, contradicting "delete removes exactly
the target entry from its parent".  On a nonempty workspace root the
same call peeks the real children and fails with `NotEmptyError`
instead, so no `delete("root")` ever removes anything. -/
theorem c5_counterexample :
    delete ⟨[], [], [], [], false⟩ ["root"] =
      (⟨[], [], [], [], false⟩, .ok ()) ∧
    (isDirectory (delete ⟨[], [], [], [], false⟩ ["root"]).1 ["root"]).2 =
      .ok true ∧
    delete ⟨[("d", .dir [])], [], [], [], false⟩ ["root"] =
      (⟨[("d", .dir [])], [], [], [], false⟩,
        .error (.notEmpty "delete")) :=
  ⟨rfl, rfl, rfl⟩

/-- Claim C5 (amended): for every non-empty path `p` other than the root
literal, on a store with no injected faults: `delete(p)` raises
`NotFoundError` exactly when `p` is absent; when `p` is a directory with
at least one child entry it raises `NotEmptyError` and leaves the store
unchanged; otherwise (a file, or a directory with no entries) it removes
exactly the target entry from its parent by name — so the same
directory, once emptied, deletes successfully.  The root-literal path is
excluded: resolution special-cases it to the workspace root with an
empty relative path, so the name handed to `removeEntry` is undefined
and nothing is removed — on an empty workspace root the rejected
`removeEntry` is dropped and the call reports success, while a nonempty
workspace root fails the child peek with `NotEmptyError` (see the
counterexample for both behaviours). -/
theorem c5_delete_spec {st : Store} {p : Pth} (hf : st.faults = [])
    (hrf : st.removeFaults = []) (hroot : p ≠ ["root"]) (hnil : p ≠ []) :
    (findE st.root p = none →
      delete st p = (st, .error (.notFound "delete"))) ∧
    (∀ c cs, findE st.root p = some (.dir (c :: cs)) →
      delete st p = (st, .error (.notEmpty "delete"))) ∧
    (∀ c m, findE st.root p = some (.file c m) →
      delete st p = ({ st with root := removeAt st.root p }, .ok ())) ∧
    (findE st.root p = some (.dir []) →
      delete st p = ({ st with root := removeAt st.root p }, .ok ())) := by
  refine ⟨?_, ?_, ?_, ?_⟩
  · exact fun habs => delete_notFound hf hroot hnil habs
  · exact fun c cs he => delete_notEmpty hf hroot hnil he
  · exact fun c m he =>
      delete_removes hf hrf hroot hnil he (Or.inr ⟨c, m, rfl⟩)
  · exact fun he => delete_removes hf hrf hroot hnil he (Or.inl rfl)

/-- Claim C5 witness: concrete instance on a store holding the directory
`d` with one file `x`. -/
theorem c5_witness :
    (findE [("d", Entry.dir [("x", Entry.file [] 0)])] ["d"] = none →
      delete ⟨[("d", .dir [("x", .file [] 0)])], [], [], [], false⟩ ["d"] =
        (⟨[("d", .dir [("x", .file [] 0)])], [], [], [], false⟩,
          .error (.notFound "delete"))) ∧
    (∀ c cs, findE [("d", Entry.dir [("x", Entry.file [] 0)])] ["d"] =
        some (.dir (c :: cs)) →
      delete ⟨[("d", .dir [("x", .file [] 0)])], [], [], [], false⟩ ["d"] =
        (⟨[("d", .dir [("x", .file [] 0)])], [], [], [], false⟩,
          .error (.notEmpty "delete"))) ∧
    (∀ c m, findE [("d", Entry.dir [("x", Entry.file [] 0)])] ["d"] =
        some (.file c m) →
      delete ⟨[("d", .dir [("x", .file [] 0)])], [], [], [], false⟩ ["d"] =
        (⟨removeAt [("d", Entry.dir [("x", Entry.file [] 0)])] ["d"],
          [], [], [], false⟩, .ok ())) ∧
    (findE [("d", Entry.dir [("x", Entry.file [] 0)])] ["d"] =
        some (.dir []) →
      delete ⟨[("d", .dir [("x", .file [] 0)])], [], [], [], false⟩ ["d"] =
        (⟨removeAt [("d", Entry.dir [("x", Entry.file [] 0)])] ["d"],
          [], [], [], false⟩, .ok ())) :=
  @c5_delete_spec ⟨[("d", .dir [("x", .file [] 0)])], [], [], [], false⟩
    ["d"] rfl rfl (by decide) (by decide)

/-! ## Claim C6 -/

/-- On an existing small target, `delete` reports success no matter what
the removal primitive does (its promise is not awaited). -/
lemma delete_ok_of_small {st : Store} {p : Pth} {e : Entry}
    (hf : st.faults = []) (hroot : p ≠ ["root"]) (hnil : p ≠ [])
    (he : findE st.root p = some e)
    (hsmall : e = .dir [] ∨ ∃ c m, e = .file c m) :
    (delete st p).2 = .ok () := by
  rcases List.eq_nil_or_concat p with hc | ⟨q, n, hq⟩
  · exact absurd hc hnil
  · rw [List.concat_eq_append] at hq
    subst hq
    obtain ⟨ds, hds, hfc⟩ := findE_parent_dir he
    unfold delete
    rw [getDetails_resolve none hf hroot hnil, he]
    simp only [matchK, if_true]
    rw [getDetails_parent hf hroot rfl hds]
    simp only []
    rw [kindAt_eq he]
    rcases hsmall with hdir | ⟨c, m, hfile⟩
    · subst hdir
      simp only [kindOf]
      rw [hValues_dir hf he]
      simp only [List.map_nil]
    · subst hfile
      simp only [kindOf]

/-- `delete` surfaces only its own `NotFoundError`/`NotEmptyError`: host
faults of the fire-and-forget `removeEntry` never reach the caller. -/
lemma delete_cases (st : Store) (p : Pth) (hf : st.faults = []) :
    (delete st p).2 = .ok () ∨
    (delete st p).2 = .error (.notFound "delete") ∨
    (delete st p).2 = .error (.notEmpty "delete") := by
  by_cases hroot : p = ["root"]
  · subst hroot
    have hr : findE st.root ([] : Pth) = some (.dir st.root) := by rw [findE]
    have hg1 : getDetails st ["root"] false false none = (st, .ok (some [])) :=
      rfl
    have hg2 : getDetails st ["root"] true false none = (st, .ok (some [])) :=
      rfl
    simp only [delete, hg1, hg2, Option.getD]
    rw [kindAt_eq hr]
    simp only [kindOf]
    rw [hValues_dir hf hr]
    cases st.root with
    | nil => simp
    | cons c cs => simp
  · by_cases hnil : p = []
    · subst hnil
      right; left
      rfl
    · cases he : findE st.root p with
      | none => rw [delete_notFound hf hroot hnil he]; right; left; rfl
      | some e =>
        cases e with
        | file c m =>
          exact Or.inl
            (delete_ok_of_small hf hroot hnil he (Or.inr ⟨c, m, rfl⟩))
        | dir cs =>
          cases cs with
          | nil =>
            exact Or.inl (delete_ok_of_small hf hroot hnil he (Or.inl rfl))
          | cons c cs' =>
            rw [delete_notEmpty hf hroot hnil he]
            right; right; rfl

/-- Claim C6, counterexample to the claim as stated: an injected
permission fault (`NotAllowedError`) raised by the host while resolving
`a` is swallowed by the resolver's catch-all and surfaces as `undefined`
rather than propagating; likewise a permission fault raised by
`removeEntry` during `delete("f")` is dropped (the call is not awaited),
`delete` reports success, and the file is still there. -/
theorem c6_counterexample :
    getDetails ⟨[("a", .dir [("x", .file [1] 1)])],
        [(["a"], "NotAllowedError")], [], [], false⟩ ["a"] false false none =
      (⟨[("a", .dir [("x", .file [1] 1)])],
        [(["a"], "NotAllowedError")], [], [], false⟩, .ok none) ∧
    delete ⟨[("f", .file [3] 2)], [], [],
        [(["f"], "NotAllowedError")], false⟩ ["f"] =
      (⟨[("f", .file [3] 2)], [], [],
        [(["f"], "NotAllowedError")], false⟩, .ok ()) ∧
    (bytes (delete ⟨[("f", .file [3] 2)], [], [],
        [(["f"], "NotAllowedError")], false⟩ ["f"]).1 ["f"]).2 =
      .ok (some [3]) :=
  ⟨rfl, rfl, rfl⟩

/-- Claim C6 (amended): path resolution returns `undefined` (and never
surfaces an error) whenever ANY step fails for ANY reason — not-found
conditions and host faults alike are swallowed by the per-step catch
blocks; and `delete` propagates no host fault either (its final
`removeEntry` is fire-and-forget), surfacing only its own
`NotFoundError`/`NotEmptyError`.  Host faults raised at genuinely
unguarded points (directory creation, write sinks, child enumeration)
do propagate. -/
theorem c6_error_contract :
    (∀ (st : Store) (p : Pth) (rp c : Bool) (k : Option EKind),
      ∃ st' r, getDetails st p rp c k = (st', .ok r)) ∧
    (∀ (st : Store) (p : Pth), st.faults = [] →
      (delete st p).2 = .ok () ∨
      (delete st p).2 = .error (.notFound "delete") ∨
      (delete st p).2 = .error (.notEmpty "delete")) :=
  ⟨fun st p rp c k => getDetails_never_errs st p rp c k,
   fun st p hf => delete_cases st p hf⟩

/-- Claim C6 witness: the resolution conjunct applied on a store with an
injected fault, and the delete conjunct applied on a store with a
removal fault. -/
theorem c6_witness :
    (∃ st' r, getDetails ⟨[("a", .dir [("x", .file [1] 1)])],
        [(["a"], "NotAllowedError")], [], [], false⟩ ["a"] false false none =
          (st', .ok r)) ∧
    ((delete ⟨[("f", .file [3] 2)], [], [],
        [(["f"], "QuotaExceededError")], false⟩ ["f"]).2 = .ok () ∨
      (delete ⟨[("f", .file [3] 2)], [], [],
        [(["f"], "QuotaExceededError")], false⟩ ["f"]).2 =
          .error (.notFound "delete") ∨
      (delete ⟨[("f", .file [3] 2)], [], [],
        [(["f"], "QuotaExceededError")], false⟩ ["f"]).2 =
          .error (.notEmpty "delete")) :=
  ⟨c6_error_contract.1 _ ["a"] false false none,
   c6_error_contract.2 _ ["f"] rfl⟩

/-! ## Claim C7 -/

lemma move_src_dir {st : Store} {src : Pth} {cs : List (Seg × Entry)}
    (hf : st.faults = []) (hroot : src ≠ ["root"]) (hnil : src ≠ [])
    (he : findE st.root src = some (.dir cs)) (dst : Pth) (now : Nat) :
    move st src dst now = (st, .error (.directory "move")) := by
  unfold move
  rw [getDetails_resolve none hf hroot hnil, he]
  simp only [matchK, if_true]
  rw [kindAt_eq he]
  simp [kindOf]

lemma copy_src_dir {st : Store} {src : Pth} {cs : List (Seg × Entry)}
    (hf : st.faults = []) (hroot : src ≠ ["root"]) (hnil : src ≠ [])
    (he : findE st.root src = some (.dir cs)) (dst : Pth) (now : Nat) :
    copy st src dst now = (st, .error (.directory "copy")) := by
  unfold copy
  rw [getDetails_resolve none hf hroot hnil, he]
  simp only [matchK, if_true]
  rw [kindAt_eq he]
  simp [kindOf]

lemma copy_dst_dir {st : Store} {src dst : Pth} {c : List Nat} {m : Nat}
    {ds : List (Seg × Entry)} (hf : st.faults = []) (hsroot : src ≠ ["root"])
    (hsnil : src ≠ []) (hdroot : dst ≠ ["root"]) (hdnil : dst ≠ [])
    (hes : findE st.root src = some (.file c m))
    (hed : findE st.root dst = some (.dir ds)) (now : Nat) :
    copy st src dst now = (st, .error (.directory "copy")) := by
  unfold copy
  rw [getDetails_resolve none hf hsroot hsnil, hes]
  simp only [matchK, if_true]
  rw [kindAt_eq hes]
  simp only [kindOf]
  rw [isDirectory_char hf hdroot hdnil, hed]

/-- Claim C7 (amended): `append` on a directory, single-file `move` of a
directory, `copy` whose source is a directory, and `copy` whose
destination already exists as a directory each raise `DirectoryError`;
but `write` to a path that exists as a directory raises a host-level
`TypeError` (the directory handle has no write sink), not a
`DirectoryError` — `write` performs no kind check of its own. -/
theorem c7_wrong_kind :
    (∀ (st : Store) (p : Pth) (cs : List (Seg × Entry)) (b : List Nat)
        (now : Nat), st.faults = [] → p ≠ ["root"] → p ≠ [] →
      findE st.root p = some (.dir cs) →
      write st p b now = (st, .error (.host "TypeError"))) ∧
    (∀ (st : Store) (p : Pth) (cs : List (Seg × Entry)) (b : List Nat)
        (now : Nat), st.faults = [] → p ≠ ["root"] → p ≠ [] →
      findE st.root p = some (.dir cs) →
      append st p b now = (st, .error (.directory "append"))) ∧
    (∀ (st : Store) (src dst : Pth) (cs : List (Seg × Entry)) (now : Nat),
      st.faults = [] → src ≠ ["root"] → src ≠ [] →
      findE st.root src = some (.dir cs) →
      move st src dst now = (st, .error (.directory "move"))) ∧
    (∀ (st : Store) (src dst : Pth) (cs : List (Seg × Entry)) (now : Nat),
      st.faults = [] → src ≠ ["root"] → src ≠ [] →
      findE st.root src = some (.dir cs) →
      copy st src dst now = (st, .error (.directory "copy"))) ∧
    (∀ (st : Store) (src dst : Pth) (c : List Nat) (m : Nat)
        (ds : List (Seg × Entry)) (now : Nat), st.faults = [] →
      src ≠ ["root"] → src ≠ [] → dst ≠ ["root"] → dst ≠ [] →
      findE st.root src = some (.file c m) →
      findE st.root dst = some (.dir ds) →
      copy st src dst now = (st, .error (.directory "copy"))) :=
  ⟨fun _ _ _ b now hf hroot hnil he => write_dir hf hroot hnil he b now,
   fun _ _ _ b now hf hroot hnil he => append_dir hf hroot hnil he b now,
   fun _ _ dst _ now hf hroot hnil he => move_src_dir hf hroot hnil he dst now,
   fun _ _ dst _ now hf hroot hnil he => copy_src_dir hf hroot hnil he dst now,
   fun _ _ _ _ _ _ now hf hsroot hsnil hdroot hdnil hes hed =>
     copy_dst_dir hf hsroot hsnil hdroot hdnil hes hed now⟩

/-- Claim C7, counterexample to the claim as stated: `write` against the
existing directory `d` fails with the host `TypeError`, not with a
`DirectoryError`. -/
theorem c7_counterexample :
    write ⟨[("d", .dir [])], [], [], [], false⟩ ["d"] [1] 5 =
      (⟨[("d", .dir [])], [], [], [], false⟩, .error (.host "TypeError")) ∧
    (∀ msg, (write ⟨[("d", .dir [])], [], [], [], false⟩ ["d"] [1] 5).2 ≠
      .error (.directory msg)) := by
  refine ⟨rfl, fun msg h => ?_⟩
  rw [show (write ⟨[("d", .dir [])], [], [], [], false⟩ ["d"] [1] 5).2 =
    .error (.host "TypeError") from rfl] at h
  simp at h

/-- Claim C7 witness: the five conjuncts applied on concrete stores. -/
theorem c7_witness :
    write ⟨[("d", .dir [])], [], [], [], false⟩ ["d"] [1] 5 =
      (⟨[("d", .dir [])], [], [], [], false⟩, .error (.host "TypeError")) ∧
    append ⟨[("d", .dir [])], [], [], [], false⟩ ["d"] [1] 5 =
      (⟨[("d", .dir [])], [], [], [], false⟩,
        .error (.directory "append")) ∧
    move ⟨[("d", .dir [])], [], [], [], false⟩ ["d"] ["e"] 5 =
      (⟨[("d", .dir [])], [], [], [], false⟩, .error (.directory "move")) ∧
    copy ⟨[("d", .dir [])], [], [], [], false⟩ ["d"] ["e"] 5 =
      (⟨[("d", .dir [])], [], [], [], false⟩, .error (.directory "copy")) ∧
    copy ⟨[("f", .file [1] 0), ("d", .dir [])], [], [], [], false⟩ ["f"]
        ["d"] 5 =
      (⟨[("f", .file [1] 0), ("d", .dir [])], [], [], [], false⟩,
        .error (.directory "copy")) :=
  ⟨c7_wrong_kind.1 _ ["d"] [] [1] 5 rfl (by decide) (by decide) rfl,
   c7_wrong_kind.2.1 _ ["d"] [] [1] 5 rfl (by decide) (by decide) rfl,
   c7_wrong_kind.2.2.1 _ ["d"] ["e"] [] 5 rfl (by decide) (by decide) rfl,
   c7_wrong_kind.2.2.2.1 _ ["d"] ["e"] [] 5 rfl (by decide) (by decide) rfl,
   c7_wrong_kind.2.2.2.2 _ ["f"] ["d"] [1] 0 [] 5 rfl (by decide) (by decide)
     (by decide) (by decide) rfl rfl⟩

/-! ## Destination-parent resolution and a success characterization of
`copy`, shared by the `move` fallback and the recursive tree operations -/

lemma getDetails_create_dir {st : Store} {dq : Pth} {t₁ : List (Seg × Entry)}
    (hf : st.faults = []) (hdqroot : dq ≠ ["root"]) (hdqnil : dq ≠ [])
    (hmk : mkdirs st.root dq = some t₁) :
    getDetails st dq false true (some .directory) =
      ({ st with root := t₁ }, .ok (some dq)) := by
  have h0 : findE st.root ([] : Pth) = some (.dir st.root) := by rw [findE]
  have hg := gdWalk_mkdirs dq st [] st.root t₁ hf hdqnil h0 hmk
  unfold getDetails
  rw [if_neg hdqroot]
  show gdWalk true (some EKind.directory) st [] dq = _
  rw [hg]
  rfl

lemma copy_ok {st : Store} {source dq : Pth} {dn : Seg} {c : List Nat}
    {m : Nat} {t₁ : List (Seg × Entry)} (hf : st.faults = [])
    (hsroot : source ≠ ["root"]) (hsnil : source ≠ [])
    (hdroot : dq ++ [dn] ≠ ["root"])
    (hes : findE st.root source = some (.file c m))
    (hmk : mkdirs st.root dq = some t₁)
    (hinc : Incomp source (dq ++ [dn]))
    (hnd : ∀ ds, findE st.root (dq ++ [dn]) ≠ some (.dir ds)) (now : Nat) :
    copy st source (dq ++ [dn]) now =
      ({ st with root := setAt t₁ (dq ++ [dn]) (.file c now) }, .ok ()) := by
  have hdnil : dq ++ [dn] ≠ [] := by simp
  have hnp : ¬ (dq ++ [dn]) <+: dq := by
    intro h
    have := h.length_le
    simp at this
  have hnsp : ¬ source <+: dq :=
    fun h => hinc.1 (h.trans (List.prefix_append dq [dn]))
  have hsrc : findE t₁ source = some (.file c m) := by
    rw [mkdirs_frame hmk hnsp]
    exact hes
  have hdd' : findE t₁ (dq ++ [dn]) = findE st.root (dq ++ [dn]) :=
    mkdirs_frame hmk hnp
  obtain ⟨ds, hds⟩ := mkdirs_found hmk
  have hfc : findC ds dn = findE st.root (dq ++ [dn]) := by
    rw [← hdd', findE_append_dir hds [dn], findE_single]
  have hgw := gdWalk_mid_mkdirs dq dn st [] st.root t₁ hf
    (by rw [findE]) hmk
  have hg : getDetails st (dq ++ [dn]) false true (some EKind.file) =
      gdFinal true (some EKind.file) { st with root := t₁ } dq dn := by
    unfold getDetails
    rw [if_neg hdroot]
    show gdWalk true (some EKind.file) st [] (dq ++ [dn]) = _
    rw [hgw]
    rfl
  have hf1 : ({ st with root := t₁ } : Store).faults = [] := hf
  have hds1 : findE ({ st with root := t₁ } : Store).root dq =
      some (.dir ds) := hds
  have hgf := gdFinal_file_char hf1 hds1 dn
  unfold copy
  rw [getDetails_resolve none hf hsroot hsnil, hes]
  simp only [matchK, if_true]
  rw [kindAt_eq hes]
  simp only [kindOf]
  rw [isDirectory_char hf hdroot hdnil]
  cases hdd : findE st.root (dq ++ [dn]) with
  | none =>
    rw [hdd] at hfc
    rw [hfc] at hgf
    simp only [] at hgf
    simp only []
    rw [hg, hgf]
    simp only []
    have hsrc2 : findE (setAt t₁ (dq ++ [dn]) (.file [] 0)) source =
        some (.file c m) := by
      rw [findE_setAt_frame (incomp_symm hinc)]
      exact hsrc
    have hf2 : ({ st with root := setAt t₁ (dq ++ [dn]) (.file [] 0) } :
        Store).faults = [] := hf
    have hsrc2' : findE ({ st with root := setAt t₁ (dq ++ [dn]) (.file [] 0) } : Store).root source = some (.file c m) := hsrc2
    rw [hGetFileContent_file hf2 hsrc2']
    simp only []
    have hdst2 : findE ({ st with root := setAt t₁ (dq ++ [dn]) (.file [] 0) } : Store).root (dq ++ [dn]) = some (.file [] 0) :=
      findE_setAt_self hdnil (by rw [List.dropLast_concat]; exact hds)
    rw [hWriteFile_file hf2 hdst2 c now]
    show (({ st with root := setAt (setAt t₁ (dq ++ [dn]) (.file [] 0)) (dq ++ [dn]) (.file c now) } : Store), Except.ok ()) = _
    rw [setAt_setAt]
  | some e =>
    cases e with
    | dir ds' => exact absurd hdd (hnd ds')
    | file cf mf =>
      rw [hdd] at hfc
      rw [hfc] at hgf
      simp only [] at hgf
      simp only []
      rw [hg, hgf]
      simp only []
      have hsrc1 : findE ({ st with root := t₁ } : Store).root source =
          some (.file c m) := hsrc
      rw [hGetFileContent_file hf1 hsrc1]
      simp only []
      have hdst1 : findE ({ st with root := t₁ } : Store).root
          (dq ++ [dn]) = some (.file cf mf) := by
        show findE t₁ (dq ++ [dn]) = _
        rw [hdd']
        exact hdd
      rw [hWriteFile_file hf1 hdst1 c now]

/-! ## The native-move fault path of `move` -/

lemma move_fault_other {st : Store} {source dq : Pth} {dn : Seg}
    {c : List Nat} {m : Nat} {t₁ : List (Seg × Entry)} {s : String}
    (hf : st.faults = []) (hsroot : source ≠ ["root"]) (hsnil : source ≠ [])
    (hdqroot : dq ≠ ["root"]) (hdqnil : dq ≠ [])
    (hes : findE st.root source = some (.file c m))
    (hmk : mkdirs st.root dq = some t₁)
    (hmv : fLook st.moveFaults source = some s)
    (hs : s ≠ "NotAllowedError") (now : Nat) :
    move st source (dq ++ [dn]) now =
      ({ st with root := t₁ }, .error (.host s)) := by
  unfold move
  rw [getDetails_resolve none hf hsroot hsnil, hes]
  simp only [matchK, if_true]
  rw [kindAt_eq hes]
  simp only [kindOf]
  rw [show (dq ++ [dn]).dropLast = dq from List.dropLast_concat,
    getDetails_create_dir hf hdqroot hdqnil hmk]
  simp only []
  rw [show (dq ++ [dn]).getLast? = some dn from List.getLast?_concat _]
  simp only [hMoveFile]
  have hmv1 : fLook ({ st with root := t₁ } : Store).moveFaults source =
      some s := hmv
  rw [hmv1]
  simp only []
  rw [if_neg (by simp [hs] : ¬ (Err.host s = Err.host "NotAllowedError"))]

lemma move_fallback {st : Store} {source dq : Pth} {dn : Seg}
    {c : List Nat} {m : Nat} {t₁ : List (Seg × Entry)}
    (hf : st.faults = []) (hrf : st.removeFaults = [])
    (hsroot : source ≠ ["root"]) (hsnil : source ≠ [])
    (hdqroot : dq ≠ ["root"]) (hdqnil : dq ≠ [])
    (hdroot : dq ++ [dn] ≠ ["root"])
    (hes : findE st.root source = some (.file c m))
    (hmk : mkdirs st.root dq = some t₁)
    (hinc : Incomp source (dq ++ [dn]))
    (hnd : ∀ ds, findE st.root (dq ++ [dn]) ≠ some (.dir ds))
    (hmv : fLook st.moveFaults source = some "NotAllowedError")
    (now : Nat) :
    move st source (dq ++ [dn]) now =
      ({ st with root :=
          removeAt (setAt t₁ (dq ++ [dn]) (.file c now)) source },
        .ok ()) := by
  have hnp : ¬ (dq ++ [dn]) <+: dq := by
    intro h
    have := h.length_le
    simp at this
  have hnsp : ¬ source <+: dq :=
    fun h => hinc.1 (h.trans (List.prefix_append dq [dn]))
  have hsrc : findE t₁ source = some (.file c m) := by
    rw [mkdirs_frame hmk hnsp]
    exact hes
  obtain ⟨ds, hds⟩ := mkdirs_found hmk
  unfold move
  rw [getDetails_resolve none hf hsroot hsnil, hes]
  simp only [matchK, if_true]
  rw [kindAt_eq hes]
  simp only [kindOf]
  rw [show (dq ++ [dn]).dropLast = dq from List.dropLast_concat,
    getDetails_create_dir hf hdqroot hdqnil hmk]
  simp only []
  rw [show (dq ++ [dn]).getLast? = some dn from List.getLast?_concat _]
  simp only [hMoveFile]
  have hmv1 : fLook ({ st with root := t₁ } : Store).moveFaults source =
      some "NotAllowedError" := hmv
  rw [hmv1]
  simp only [if_true]
  have hf1 : ({ st with root := t₁ } : Store).faults = [] := hf
  have hes1 : findE ({ st with root := t₁ } : Store).root source =
      some (.file c m) := hsrc
  have hmk1 : mkdirs ({ st with root := t₁ } : Store).root dq = some t₁ :=
    mkdirs_id hds
  have hnd1 : ∀ ds', findE ({ st with root := t₁ } : Store).root
      (dq ++ [dn]) ≠ some (.dir ds') := by
    intro ds' h
    apply hnd ds'
    rw [← mkdirs_frame hmk hnp]
    exact h
  rw [copy_ok hf1 hsroot hsnil hdroot hes1 hmk1 hinc hnd1 now]
  simp only []
  have hf2 : ({ st with root := setAt t₁ (dq ++ [dn]) (.file c now) } :
      Store).faults = [] := hf
  have hrf2 : ({ st with root := setAt t₁ (dq ++ [dn]) (.file c now) } :
      Store).removeFaults = [] := hrf
  have hes2 : findE ({ st with root := setAt t₁ (dq ++ [dn]) (.file c now) } : Store).root source = some (.file c m) := by
    show findE (setAt t₁ (dq ++ [dn]) (.file c now)) source = _
    rw [findE_setAt_frame (incomp_symm hinc)]
    exact hsrc
  rw [delete_removes hf2 hrf2 hsroot hsnil hes2 (Or.inr ⟨c, m, rfl⟩)]

/-! ## Claim C8 -/

/-- Claim C8 (amended): a native-move fault whose signature is anything
other than `NotAllowedError` propagates unmodified to the caller and the
copy-then-delete fallback is not taken; a `NotAllowedError` fault
triggers the fallback, and when the source and destination paths are
incomparable (in particular distinct), the fallback's end state is
equivalent to a successful native move up to the content timestamp: the
destination holds the source's content and the source no longer exists.
When source and destination coincide, the fallback first copies the file
onto itself and then deletes it, destroying the file. -/
theorem c8_move_fallback_contract :
    (∀ (st : Store) (source dq : Pth) (dn : Seg) (c : List Nat) (m : Nat)
        (t₁ : List (Seg × Entry)) (s : String) (now : Nat),
      st.faults = [] → source ≠ ["root"] → source ≠ [] →
      dq ≠ ["root"] → dq ≠ [] →
      findE st.root source = some (.file c m) →
      mkdirs st.root dq = some t₁ →
      fLook st.moveFaults source = some s → s ≠ "NotAllowedError" →
      move st source (dq ++ [dn]) now =
        ({ st with root := t₁ }, .error (.host s))) ∧
    (∀ (st : Store) (source dq : Pth) (dn : Seg) (c : List Nat) (m : Nat)
        (t₁ : List (Seg × Entry)) (now : Nat),
      st.faults = [] → st.removeFaults = [] → wfL st.root = true →
      source ≠ ["root"] → source ≠ [] →
      dq ≠ ["root"] → dq ≠ [] → dq ++ [dn] ≠ ["root"] →
      findE st.root source = some (.file c m) →
      mkdirs st.root dq = some t₁ →
      Incomp source (dq ++ [dn]) →
      (∀ ds, findE st.root (dq ++ [dn]) ≠ some (.dir ds)) →
      fLook st.moveFaults source = some "NotAllowedError" →
      move st source (dq ++ [dn]) now =
        ({ st with root :=
            removeAt (setAt t₁ (dq ++ [dn]) (.file c now)) source },
          .ok ()) ∧
      findE (removeAt (setAt t₁ (dq ++ [dn]) (.file c now)) source)
          (dq ++ [dn]) = some (.file c now) ∧
      findE (removeAt (setAt t₁ (dq ++ [dn]) (.file c now)) source)
          source = none) := by
  constructor
  · intro st source dq dn c m t₁ s now hf hsroot hsnil hdqroot hdqnil hes
      hmk hmv hs
    exact move_fault_other hf hsroot hsnil hdqroot hdqnil hes hmk hmv hs now
  · intro st source dq dn c m t₁ now hf hrf hw hsroot hsnil hdqroot hdqnil
      hdroot hes hmk hinc hnd hmv
    obtain ⟨ds, hds⟩ := mkdirs_found hmk
    have hnsp : ¬ source <+: dq :=
      fun h => hinc.1 (h.trans (List.prefix_append dq [dn]))
    have hsrc : findE t₁ source = some (.file c m) := by
      rw [mkdirs_frame hmk hnsp]
      exact hes
    refine ⟨move_fallback hf hrf hsroot hsnil hdqroot hdqnil hdroot hes hmk
      hinc hnd hmv now, ?_, ?_⟩
    · rw [findE_removeAt_frame hinc]
      exact findE_setAt_self (by simp)
        (by rw [List.dropLast_concat]; exact hds)
    · exact findE_removeAt_self
        (wf_setAt (wf_mkdirs hw hmk) rfl) hsnil

/-- Claim C8, counterexample to the claim as stated: with the source and
destination paths equal and a `NotAllowedError` injected on the native
move, the fallback copies the file onto itself and then deletes it — the
call reports success but the destination does not hold the source's
content (the file is gone), so the fallback is not end-state equivalent
to a native move. -/
theorem c8_counterexample :
    (move ⟨[("d", .dir [("f", .file [7] 3)])], [],
        [(["d", "f"], "NotAllowedError")], [], false⟩
        ["d", "f"] ["d", "f"] 9).2 = .ok () ∧
    findE (move ⟨[("d", .dir [("f", .file [7] 3)])], [],
        [(["d", "f"], "NotAllowedError")], [], false⟩
        ["d", "f"] ["d", "f"] 9).1.root ["d", "f"] = none :=
  ⟨rfl, rfl⟩

/-- Claim C8 witness: a `QuotaExceededError` fault on the native move
propagates unmodified; a `NotAllowedError` fault on an incomparable
source/destination pair triggers the fallback, after which the
destination holds the content and the source is gone. -/
theorem c8_witness :
    move ⟨[("a", .file [1] 2), ("d", .dir [])], [],
        [(["a"], "QuotaExceededError")], [], false⟩ ["a"] (["d"] ++ ["b"])
        5 =
      (⟨[("a", .file [1] 2), ("d", .dir [])], [],
        [(["a"], "QuotaExceededError")], [], false⟩,
        .error (.host "QuotaExceededError")) ∧
    (move ⟨[("a", .file [1] 2), ("d", .dir [])], [],
        [(["a"], "NotAllowedError")], [], false⟩ ["a"] (["d"] ++ ["b"])
        5).2 = .ok () ∧
    findE (move ⟨[("a", .file [1] 2), ("d", .dir [])], [],
        [(["a"], "NotAllowedError")], [], false⟩ ["a"] (["d"] ++ ["b"])
        5).1.root (["d"] ++ ["b"]) = some (.file [1] 5) ∧
    findE (move ⟨[("a", .file [1] 2), ("d", .dir [])], [],
        [(["a"], "NotAllowedError")], [], false⟩ ["a"] (["d"] ++ ["b"])
        5).1.root ["a"] = none := by
  have h1 := c8_move_fallback_contract.1
    ⟨[("a", .file [1] 2), ("d", .dir [])], [],
      [(["a"], "QuotaExceededError")], [], false⟩
    ["a"] ["d"] "b" [1] 2 [("a", .file [1] 2), ("d", .dir [])]
    "QuotaExceededError" 5 rfl (by decide) (by decide) (by decide)
    (by decide) rfl rfl rfl (by decide)
  have h2 := c8_move_fallback_contract.2
    ⟨[("a", .file [1] 2), ("d", .dir [])], [],
      [(["a"], "NotAllowedError")], [], false⟩
    ["a"] ["d"] "b" [1] 2 [("a", .file [1] 2), ("d", .dir [])] 5
    rfl rfl (by decide) (by decide) (by decide) (by decide) (by decide)
    (by decide) rfl rfl ⟨by decide, by decide⟩
    (fun ds h => by
      rw [show findE [("a", Entry.file [1] 2), ("d", Entry.dir [])]
        (["d"] ++ ["b"]) = none from rfl] at h
      exact Option.noConfusion h)
    rfl
  refine ⟨h1, ?_, ?_, ?_⟩
  · rw [h2.1]
  · rw [h2.1]
    exact h2.2.1
  · rw [h2.1]
    exact h2.2.2

/-! ## Last-modified: auxiliary facts and the loop/recursion analysis -/

lemma depthE_findC {cs : List (Seg × Entry)} {n : Seg} {e : Entry}
    (h : findC cs n = some e) : depthE e ≤ depthL cs := by
  induction cs with
  | nil => simp [findC] at h
  | cons hd rest ih =>
    rcases hd with ⟨a, x⟩
    rw [findC] at h
    by_cases han : a = n
    · rw [if_pos han] at h
      cases h
      rw [depthL]
      exact le_max_left _ _
    · rw [if_neg han] at h
      rw [depthL]
      exact le_trans (ih h) (le_max_right _ _)

lemma mem_findC {cs : List (Seg × Entry)} (hw : wfL cs = true) {n : Seg}
    {e : Entry} (h : (n, e) ∈ cs) : findC cs n = some e := by
  induction cs with
  | nil => simp at h
  | cons hd rest ih =>
    rcases hd with ⟨a, x⟩
    rw [wfL_cons] at hw
    simp only [Bool.and_eq_true, Bool.not_eq_true'] at hw
    rcases List.mem_cons.mp h with heq | hmem
    · obtain ⟨hn, he⟩ := Prod.mk.injEq .. ▸ heq
      rw [findC, if_pos hn.symm, he]
    · by_cases han : a = n
      · subst han
        have := ih hw.2 hmem
        rw [this] at hw
        simp at hw
      · rw [findC, if_neg han]
        exact ih hw.2 hmem

lemma wf_findE :
    ∀ {p : Pth} {t : List (Seg × Entry)} {e : Entry}, wfL t = true →
      findE t p = some e → wfE e = true := by
  intro p
  induction p with
  | nil =>
    intro t e hw h
    rw [findE] at h
    simp only [Option.some.injEq] at h
    rw [← h]
    exact hw
  | cons n p' ih =>
    intro t e hw h
    rw [findE] at h
    cases hfc : findC t n with
    | none => rw [hfc] at h; exact Option.noConfusion h
    | some x =>
      have hwx : wfE x = true := wf_member hw hfc
      cases x with
      | dir ds =>
        rw [hfc] at h
        simp only [] at h
        by_cases hp' : p' = []
        · rw [if_pos hp'] at h
          simp only [Option.some.injEq] at h
          rw [← h]
          exact hwx
        · rw [if_neg hp'] at h
          exact ih hwx h
      | file c m =>
        rw [hfc] at h
        simp only [] at h
        by_cases hp' : p' = []
        · rw [if_pos hp'] at h
          simp only [Option.some.injEq] at h
          rw [← h]
          rfl
        · rw [if_neg hp'] at h
          exact Option.noConfusion h

lemma ite_lt_eq_max (a b : Nat) : (if a < b then b else a) = max a b := by
  rw [Nat.max_def]
  split <;> split <;> omega

lemma snoc_ne_root {p : Pth} (hnil : p ≠ []) (n : Seg) :
    p ++ [n] ≠ ["root"] := by
  intro hcon
  have hlen := congrArg List.length hcon
  simp only [List.length_append, List.length_singleton, List.length_cons,
    List.length_nil] at hlen
  have : p.length = 0 := by omega
  exact hnil (List.length_eq_zero.mp this)

lemma lmLoop_lmC (st : Store) (now fuel : Nat) (p : Pth) (hnil : p ≠ [])
    (hrec : ∀ (q : Pth) (e' : Entry), q ≠ ["root"] → q ≠ [] →
      findE st.root q = some e' → depthE e' < fuel →
      lastModified fuel st q now = (st, .ok (some (lmE now e')))) :
    ∀ (cs' : List (Seg × Entry)),
      (∀ n e', (n, e') ∈ cs' →
        findE st.root (p ++ [n]) = some e' ∧ depthE e' < fuel) →
      ∀ best, lmLoop (lastModified fuel) p now
          (cs'.map fun c => (c.1, kindOf c.2)) st best =
        (st, .ok (max best (lmC now cs'))) := by
  intro cs'
  induction cs' with
  | nil =>
    intro _ best
    rw [List.map_nil, lmLoop, lmC]
    simp
  | cons c rest ih =>
    rcases c with ⟨n, e'⟩
    intro hcs best
    obtain ⟨hfe, hde⟩ := hcs n e' (List.mem_cons_self _ _)
    rw [List.map_cons, lmLoop]
    simp only []
    rw [hrec (p ++ [n]) e' (snoc_ne_root hnil n) (by simp) hfe hde]
    simp only []
    rw [ih (fun n' e'' h => hcs n' e'' (List.mem_cons_of_mem _ h))]
    rw [ite_lt_eq_max, lmC, Nat.max_assoc]

lemma lastModified_lmE (st : Store) (now : Nat) (hf : st.faults = [])
    (hw : wfL st.root = true) :
    ∀ (fuel : Nat) (p : Pth) (e : Entry), p ≠ ["root"] → p ≠ [] →
      findE st.root p = some e → depthE e < fuel →
      lastModified fuel st p now = (st, .ok (some (lmE now e))) := by
  intro fuel
  induction fuel with
  | zero => intro p e _ _ _ hd; exact absurd hd (Nat.not_lt_zero _)
  | succ fuel ih =>
    intro p e hroot hnil he hd
    show lastModified fuel.succ st p now = _
    unfold lastModified
    rw [getDetails_resolve none hf hroot hnil, he]
    simp only [matchK, if_true]
    rw [kindAt_eq he]
    cases e with
    | file c m =>
      simp only [kindOf]
      rw [hGetFileContent_file hf he]
      rw [lmE]
    | dir cs =>
      simp only [kindOf]
      have hl := list_char hf hroot hnil
      rw [he] at hl
      rw [hl]
      simp only []
      have hwcs : wfL cs = true := wf_findE hw he
      have hstep : ∀ n e', (n, e') ∈ cs →
          findE st.root (p ++ [n]) = some e' ∧ depthE e' < fuel := by
        intro n e' hmem
        have hfc : findC cs n = some e' := mem_findC hwcs hmem
        constructor
        · rw [findE_append_dir he [n], findE_single]
          exact hfc
        · have h1 : depthE e' ≤ depthL cs := depthE_findC hfc
          have h2 : depthE (.dir cs) < fuel + 1 := hd
          rw [depthE] at h2
          omega
      rw [lmLoop_lmC st now fuel p hnil ih cs hstep 0]
      simp only []
      rw [Nat.zero_max, lmE]

/-! ## Claim C9 -/

/-- Claim C9, counterexample to the claim as stated: the directory `d`
has one descendant, the file `f`, which reports the stored timestamp `0`
(the epoch): the claim's maximum over descendants is `0`, and the
directory is not empty, yet `lastModified` returns the wall clock `100`
because the code compares the accumulated maximum against the epoch
sentinel, not against "no descendant reported". -/
theorem c9_counterexample :
    lastModified 5 ⟨[("d", .dir [("f", .file [] 0)])], [], [], [], false⟩
        ["d"] 100 =
      (⟨[("d", .dir [("f", .file [] 0)])], [], [], [], false⟩,
        .ok (some 100)) := rfl

/-- Claim C9 (amended): on a fault-free well-formed store, for every
non-root path `p`: `lastModified` returns `undefined` when `p` is
absent, the stored timestamp when `p` is a file, and for a directory the
recursively computed value `lmE`: the maximum of the descendants' values
with a zero maximum replaced by the wall clock — so a directory whose
descendants all carry the epoch timestamp `0` (not only an empty one)
yields the wall clock. -/
theorem c9_lastModified_spec {st : Store} {p : Pth} {fuel now : Nat}
    (hf : st.faults = []) (hw : wfL st.root = true) (hroot : p ≠ ["root"])
    (hnil : p ≠ []) :
    (findE st.root p = none →
      lastModified (fuel + 1) st p now = (st, .ok none)) ∧
    (∀ c m, findE st.root p = some (.file c m) →
      lastModified (fuel + 1) st p now = (st, .ok (some m))) ∧
    (∀ cs, findE st.root p = some (.dir cs) → depthL cs < fuel →
      lastModified (fuel + 1) st p now =
        (st, .ok (some (if lmC now cs = 0 then now else lmC now cs)))) := by
  refine ⟨?_, ?_, ?_⟩
  · intro habs
    show lastModified fuel.succ st p now = _
    unfold lastModified
    rw [getDetails_resolve none hf hroot hnil, habs]
  · intro c m he
    have := lastModified_lmE st now hf hw (fuel + 1) p (.file c m) hroot
      hnil he (Nat.succ_pos _)
    rw [this, lmE]
  · intro cs he hdepth
    have := lastModified_lmE st now hf hw (fuel + 1) p (.dir cs) hroot
      hnil he (by rw [depthE]; omega)
    rw [this, lmE]

/-- Claim C9 witness: on a small concrete store, an absent path yields
`undefined`, a file yields its stored timestamp, a directory with a
timestamped descendant yields that maximum, and an empty directory
yields the wall clock. -/
theorem c9_witness :
    lastModified 2 ⟨[("f", .file [3] 7), ("d", .dir [("g", .file [1] 4)]),
        ("e", .dir [])], [], [], [], false⟩ ["z"] 50 =
      (⟨[("f", .file [3] 7), ("d", .dir [("g", .file [1] 4)]),
        ("e", .dir [])], [], [], [], false⟩, .ok none) ∧
    lastModified 2 ⟨[("f", .file [3] 7), ("d", .dir [("g", .file [1] 4)]),
        ("e", .dir [])], [], [], [], false⟩ ["f"] 50 =
      (⟨[("f", .file [3] 7), ("d", .dir [("g", .file [1] 4)]),
        ("e", .dir [])], [], [], [], false⟩, .ok (some 7)) ∧
    lastModified 2 ⟨[("f", .file [3] 7), ("d", .dir [("g", .file [1] 4)]),
        ("e", .dir [])], [], [], [], false⟩ ["d"] 50 =
      (⟨[("f", .file [3] 7), ("d", .dir [("g", .file [1] 4)]),
        ("e", .dir [])], [], [], [], false⟩, .ok (some 4)) ∧
    lastModified 2 ⟨[("f", .file [3] 7), ("d", .dir [("g", .file [1] 4)]),
        ("e", .dir [])], [], [], [], false⟩ ["e"] 50 =
      (⟨[("f", .file [3] 7), ("d", .dir [("g", .file [1] 4)]),
        ("e", .dir [])], [], [], [], false⟩, .ok (some 50)) := by
  refine ⟨?_, ?_, ?_, ?_⟩
  · exact (@c9_lastModified_spec ⟨[("f", .file [3] 7),
      ("d", .dir [("g", .file [1] 4)]), ("e", .dir [])], [], [], [], false⟩
      ["z"] 1 50 rfl (by decide) (by decide) (by decide)).1 rfl
  · exact (@c9_lastModified_spec ⟨[("f", .file [3] 7),
      ("d", .dir [("g", .file [1] 4)]), ("e", .dir [])], [], [], [], false⟩
      ["f"] 1 50 rfl (by decide) (by decide) (by decide)).2.1 [3] 7 rfl
  · exact (@c9_lastModified_spec ⟨[("f", .file [3] 7),
      ("d", .dir [("g", .file [1] 4)]), ("e", .dir [])], [], [], [], false⟩
      ["d"] 1 50 rfl (by decide) (by decide) (by decide)).2.2
      [("g", .file [1] 4)] rfl (by decide)
  · exact (@c9_lastModified_spec ⟨[("f", .file [3] 7),
      ("d", .dir [("g", .file [1] 4)]), ("e", .dir [])], [], [], [], false⟩
      ["e"] 1 50 rfl (by decide) (by decide) (by decide)).2.2 [] rfl
      (by decide)

/-! ## Facts about clones, sizes and directory creation, feeding the
`copyAll` analysis -/

lemma findC_append (l1 l2 : List (Seg × Entry)) (k : Seg) :
    findC (l1 ++ l2) k =
      match findC l1 k with
      | some e => some e
      | none => findC l2 k := by
  induction l1 with
  | nil => rw [List.nil_append, findC]
  | cons hd rest ih =>
    rcases hd with ⟨a, x⟩
    rw [List.cons_append, findC, findC]
    by_cases hak : a = k
    · rw [if_pos hak, if_pos hak]
    · rw [if_neg hak, if_neg hak, ih]

lemma wfL_append_findC {csa csb : List (Seg × Entry)} {n : Seg} {e : Entry}
    (hw : wfL (csa ++ (n, e) :: csb) = true) : findC csa n = none := by
  induction csa with
  | nil => rw [findC]
  | cons hd rest ih =>
    rcases hd with ⟨a, x⟩
    rw [List.cons_append, wfL_cons] at hw
    simp only [Bool.and_eq_true, Bool.not_eq_true'] at hw
    have hrest : findC rest n = none := ih hw.2
    rw [findC]
    by_cases han : a = n
    · subst han
      rw [findC_append, hrest] at hw
      have := hw.1.1
      rw [findC, if_pos rfl] at this
      simp at this
    · rw [if_neg han]
      exact hrest

lemma upd_of_findC_none {t : List (Seg × Entry)} {n : Seg}
    (h : findC t n = none) (e : Entry) : upd t n e = t ++ [(n, e)] := by
  induction t with
  | nil => rfl
  | cons hd rest ih =>
    rcases hd with ⟨a, x⟩
    rw [findC] at h
    by_cases han : a = n
    · rw [if_pos han] at h
      exact Option.noConfusion h
    · rw [if_neg han] at h
      rw [upd, if_neg han, ih h, List.cons_append]

lemma clone_findC (now : Nat) :
    ∀ (t : List (Seg × Entry)) (n : Seg),
      findC (cloneL now t) n = (findC t n).map (cloneE now) := by
  intro t
  induction t with
  | nil => intro n; rfl
  | cons hd rest ih =>
    rcases hd with ⟨a, x⟩
    intro n
    rw [cloneL, findC, findC]
    by_cases han : a = n
    · rw [if_pos han, if_pos han, Option.map_some']
    · rw [if_neg han, if_neg han, ih]

lemma clone_append (now : Nat) :
    ∀ (l1 l2 : List (Seg × Entry)),
      cloneL now (l1 ++ l2) = cloneL now l1 ++ cloneL now l2 := by
  intro l1
  induction l1 with
  | nil => intro l2; rfl
  | cons hd rest ih =>
    rcases hd with ⟨a, x⟩
    intro l2
    rw [List.cons_append, cloneL, cloneL, ih, List.cons_append]

lemma clone_findE_file (now : Nat) :
    ∀ {r : Pth} {t : List (Seg × Entry)} {c : List Nat} {m : Nat},
      findE t r = some (.file c m) →
      findE (cloneL now t) r = some (.file c now) := by
  intro r
  induction r with
  | nil =>
    intro t c m h
    rw [findE] at h
    simp at h
  | cons n r' ih =>
    intro t c m h
    rw [findE] at h
    rw [findE, clone_findC]
    cases hfc : findC t n with
    | none => rw [hfc] at h; exact Option.noConfusion h
    | some x =>
      rw [hfc] at h
      cases x with
      | file c' m' =>
        simp only [] at h
        simp only [Option.map_some', cloneE]
        by_cases hr' : r' = []
        · rw [if_pos hr'] at h ⊢
          simp only [Option.some.injEq] at h
          obtain ⟨hc, -⟩ := Entry.file.injEq .. ▸ h
          rw [hc]
        · rw [if_neg hr'] at h
          exact Option.noConfusion h
      | dir ds =>
        simp only [] at h
        simp only [Option.map_some', cloneE]
        by_cases hr' : r' = []
        · rw [if_pos hr'] at h
          simp at h
        · rw [if_neg hr'] at h ⊢
          exact ih h

lemma sizeE_findC {cs : List (Seg × Entry)} {n : Seg} {e : Entry}
    (h : findC cs n = some e) : sizeE e ≤ sizeL cs := by
  induction cs with
  | nil => simp [findC] at h
  | cons hd rest ih =>
    rcases hd with ⟨a, x⟩
    rw [findC] at h
    rw [sizeL]
    by_cases han : a = n
    · rw [if_pos han] at h
      cases h
      exact Nat.le_add_right _ _
    · rw [if_neg han] at h
      exact le_trans (ih h) (Nat.le_add_left _ _)

lemma mkdirs_absent :
    ∀ {p : Pth} {t t' : List (Seg × Entry)}, mkdirs t p = some t' →
      findE t p = none → findE t' p = some (.dir []) := by
  intro p
  induction p with
  | nil =>
    intro t t' _ habs
    rw [findE] at habs
    exact Option.noConfusion habs
  | cons n rest ih =>
    intro t t' hmk habs
    rw [findE] at habs
    rw [mkdirs] at hmk
    cases hfc : findC t n with
    | some x =>
      cases x with
      | dir ds =>
        rw [hfc] at hmk habs
        simp only [] at hmk habs
        by_cases hr : rest = []
        · rw [if_pos hr] at habs
          exact Option.noConfusion habs
        · rw [if_neg hr] at habs
          cases hds' : mkdirs ds rest with
          | none => rw [hds'] at hmk; exact Option.noConfusion hmk
          | some ds' =>
            rw [hds'] at hmk
            simp only [Option.map_some', Option.some.injEq] at hmk
            rw [← hmk, findE, findC_upd, if_pos rfl]
            simp only []
            rw [if_neg hr]
            exact ih hds' habs
      | file c m =>
        rw [hfc] at hmk
        exact Option.noConfusion hmk
    | none =>
      rw [hfc] at hmk
      cases hds' : mkdirs [] rest with
      | none => rw [hds'] at hmk; exact Option.noConfusion hmk
      | some ds' =>
        rw [hds'] at hmk
        simp only [Option.map_some', Option.some.injEq] at hmk
        rw [← hmk, findE, findC_upd, if_pos rfl]
        simp only []
        by_cases hr : rest = []
        · rw [if_pos hr]
          rw [hr, mkdirs] at hds'
          simp only [Option.some.injEq] at hds'
          rw [← hds']
        · rw [if_neg hr]
          exact ih hds' (findE_nil_of_ne hr)

lemma mkdirs_snoc_create :
    ∀ {q : Pth} {t ds : List (Seg × Entry)} {n : Seg},
      findE t q = some (.dir ds) → findC ds n = none →
      mkdirs t (q ++ [n]) = some (setAt t (q ++ [n]) (.dir [])) := by
  intro q
  induction q with
  | nil =>
    intro t ds n hq hn
    rw [findE] at hq
    simp only [Option.some.injEq, Entry.dir.injEq] at hq
    subst hq
    rw [List.nil_append, mkdirs_cons_none hn]
    simp only [mkdirs, Option.map_some', Option.some.injEq]
    rw [setAt]
  | cons a q' ih =>
    intro t ds n hq hn
    rw [findE] at hq
    cases hfc : findC t a with
    | none => rw [hfc] at hq; exact Option.noConfusion hq
    | some x =>
      cases x with
      | file c m =>
        rw [hfc] at hq
        simp only [] at hq
        by_cases hq' : q' = []
        · rw [if_pos hq'] at hq; simp at hq
        · rw [if_neg hq'] at hq; exact Option.noConfusion hq
      | dir ds₀ =>
        rw [hfc] at hq
        simp only [] at hq
        have hsub : findE ds₀ q' = some (.dir ds) := by
          by_cases hq' : q' = []
          · rw [if_pos hq'] at hq
            simp only [Option.some.injEq, Entry.dir.injEq] at hq
            rw [hq', findE, hq]
          · rw [if_neg hq'] at hq
            exact hq
        rw [List.cons_append, mkdirs, hfc]
        simp only []
        rw [ih hsub hn]
        simp only [Option.map_some', Option.some.injEq]
        rw [setAt_cons_dir hfc (by simp : q' ++ [n] ≠ ([] : Pth))]

/-! ## The `copyAll` recursion: a success characterization as a clone -/

lemma incomp_snoc_left {s d : Pth} (h : Incomp s d) (n : Seg) :
    Incomp d (s ++ [n]) := by
  constructor
  · intro hc
    have := incomp_ext_not_pfx (incomp_symm h) ([] : Pth) [n]
    rw [List.append_nil] at this
    exact this hc
  · intro hc
    have := incomp_ext_not_pfx h [n] ([] : Pth)
    rw [List.append_nil] at this
    exact this hc

lemma copyAllLoop_clone (fuel now : Nat) (st : Store)
    (source destination : Pth) (t₂ cs : List (Seg × Entry))
    {pds : List (Seg × Entry)} (hf : st.faults = [])
    (hsroot : source ≠ ["root"]) (hsnil : source ≠ [])
    (hdroot : destination ≠ ["root"]) (hdnil : destination ≠ [])
    (hinc : Incomp source destination) (hwcs : wfL cs = true)
    (hsrc2 : findE t₂ source = some (.dir cs))
    (hpd : findE t₂ destination.dropLast = some (.dir pds))
    (hfuel : sizeL cs ≤ fuel)
    (hrec : ∀ (st' : Store) (src dst : Pth)
        (cs' t₂' : List (Seg × Entry)) (now' : Nat),
      st'.faults = [] → src ≠ ["root"] → src ≠ [] → dst ≠ ["root"] →
      dst ≠ [] → Incomp src dst → findE st'.root src = some (.dir cs') →
      wfL cs' = true → findE st'.root dst = none →
      mkdirs st'.root dst = some t₂' → sizeL cs' < fuel →
      copyAll fuel st' src dst now' =
        ({ st' with root := setAt t₂' dst (.dir (cloneL now' cs')) },
          .ok ())) :
    ∀ (csb csa : List (Seg × Entry)), cs = csa ++ csb →
      copyAllLoop (copyAll fuel) source destination now
          (csb.map fun c => (c.1, kindOf c.2))
          { st with root := setAt t₂ destination (.dir (cloneL now csa)) } =
        ({ st with root := setAt t₂ destination (.dir (cloneL now cs)) },
          .ok ()) := by
  intro csb
  induction csb with
  | nil =>
    intro csa hcs
    rw [List.map_nil, copyAllLoop, hcs, List.append_nil]
  | cons hd csb' ih =>
    rcases hd with ⟨n, e'⟩
    intro csa hcs
    have hmem : (n, e') ∈ cs := by
      rw [hcs]
      exact List.mem_append_right _ (List.mem_cons_self _ _)
    have hfc : findC cs n = some e' := mem_findC hwcs hmem
    have hcsa_n : findC csa n = none := wfL_append_findC (hcs ▸ hwcs)
    have hwe' : wfE e' = true := wf_member hwcs hfc
    have hsize : sizeE e' ≤ sizeL cs := sizeE_findC hfc
    have hdstq : findE (setAt t₂ destination (.dir (cloneL now csa)))
        destination = some (.dir (cloneL now csa)) :=
      findE_setAt_self hdnil hpd
    have hinc_d_sn : Incomp destination (source ++ [n]) :=
      incomp_snoc_left hinc n
    have hinc_s_dn : Incomp source (destination ++ [n]) :=
      incomp_snoc_left (incomp_symm hinc) n
    have hincq : Incomp (source ++ [n]) (destination ++ [n]) :=
      incomp_ext hinc [n] [n]
    have hsn : findE (setAt t₂ destination (.dir (cloneL now csa)))
        (source ++ [n]) = some e' := by
      rw [findE_setAt_frame hinc_d_sn, findE_append_dir hsrc2 [n],
        findE_single]
      exact hfc
    have hdn_none : findE (setAt t₂ destination (.dir (cloneL now csa)))
        (destination ++ [n]) = none := by
      rw [findE_append_dir hdstq [n], findE_single, clone_findC, hcsa_n,
        Option.map_none']
    have haccum : ∀ e₂ : Entry,
        setAt (setAt t₂ destination (.dir (cloneL now csa)))
            (destination ++ [n]) e₂ =
          setAt t₂ destination (.dir (cloneL now csa ++ [(n, e₂)])) := by
      intro e₂
      rw [setAt_snoc n e₂ hdstq, setSub_ne_nil hdnil, setAt_setAt,
        upd_of_findC_none (by rw [clone_findC, hcsa_n, Option.map_none'])]
    rw [List.map_cons, copyAllLoop]
    simp only []
    cases e' with
    | file c m =>
      simp only [kindOf]
      have hf' : ({ st with root := setAt t₂ destination (.dir (cloneL now csa)) } : Store).faults = [] := hf
      have hes' : findE ({ st with root := setAt t₂ destination (.dir (cloneL now csa)) } : Store).root (source ++ [n]) = some (.file c m) := hsn
      have hmk' : mkdirs ({ st with root := setAt t₂ destination (.dir (cloneL now csa)) } : Store).root destination = some (setAt t₂ destination (.dir (cloneL now csa))) := mkdirs_id hdstq
      have hnd' : ∀ ds, findE ({ st with root := setAt t₂ destination (.dir (cloneL now csa)) } : Store).root (destination ++ [n]) ≠ some (.dir ds) := by
        intro ds hcon
        rw [hdn_none] at hcon
        exact Option.noConfusion hcon
      rw [copy_ok hf' (snoc_ne_root hsnil n) (by simp) (snoc_ne_root hdnil n)
        hes' hmk' hincq hnd' now]
      simp only []
      rw [haccum (.file c now)]
      have hstep := ih (csa ++ [(n, .file c m)])
        (by rw [hcs, List.append_assoc, List.singleton_append])
      rw [clone_append, cloneL, cloneL, cloneE] at hstep
      exact hstep
    | dir ds =>
      simp only [kindOf]
      have hf' : ({ st with root := setAt t₂ destination (.dir (cloneL now csa)) } : Store).faults = [] := hf
      have hes' : findE ({ st with root := setAt t₂ destination (.dir (cloneL now csa)) } : Store).root (source ++ [n]) = some (.dir ds) := hsn
      have habs' : findE ({ st with root := setAt t₂ destination (.dir (cloneL now csa)) } : Store).root (destination ++ [n]) = none := hdn_none
      have hmk' : mkdirs ({ st with root := setAt t₂ destination (.dir (cloneL now csa)) } : Store).root (destination ++ [n]) = some (setAt (setAt t₂ destination (.dir (cloneL now csa))) (destination ++ [n]) (.dir [])) :=
        mkdirs_snoc_create hdstq (by rw [clone_findC, hcsa_n, Option.map_none'])
      have hsz : sizeL ds < fuel := by
        rw [sizeE] at hsize
        omega
      rw [hrec _ (source ++ [n]) (destination ++ [n]) ds _ now hf'
        (snoc_ne_root hsnil n) (by simp) (snoc_ne_root hdnil n) (by simp)
        hincq hes' hwe' habs' hmk' hsz]
      simp only []
      rw [setAt_setAt, haccum (.dir (cloneL now ds))]
      have := ih (csa ++ [(n, .dir ds)])
        (by rw [hcs, List.append_assoc, List.singleton_append])
      rw [clone_append, cloneL, cloneL, cloneE] at this
      exact this

lemma copyAll_clone :
    ∀ (fuel : Nat) (st : Store) (source destination : Pth)
      (cs t₂ : List (Seg × Entry)) (now : Nat),
      st.faults = [] → source ≠ ["root"] → source ≠ [] →
      destination ≠ ["root"] → destination ≠ [] →
      Incomp source destination →
      findE st.root source = some (.dir cs) → wfL cs = true →
      findE st.root destination = none →
      mkdirs st.root destination = some t₂ →
      sizeL cs < fuel →
      copyAll fuel st source destination now =
        ({ st with root := setAt t₂ destination (.dir (cloneL now cs)) },
          .ok ()) := by
  intro fuel
  induction fuel with
  | zero =>
    intro st source destination cs t₂ now _ _ _ _ _ _ _ _ _ _ hfuel
    exact absurd hfuel (Nat.not_lt_zero _)
  | succ fuel ih =>
    intro st source destination cs t₂ now hf hsroot hsnil hdroot hdnil hinc
      he hwcs habs hmkd hfuel
    show copyAll fuel.succ st source destination now = _
    unfold copyAll
    rw [isFile_char hf hsroot hsnil, he]
    simp only []
    rw [isDirectory_char hf hsroot hsnil, he]
    simp only []
    have hcd : createDirectory st destination =
        ({ st with root := t₂ }, .ok ()) := by
      unfold createDirectory
      rw [cdGo_mkdirs destination st [] st.root t₂ hf (by rw [findE]) hmkd]
      rfl
    rw [hcd]
    simp only []
    have hfe2 : findE t₂ source = some (.dir cs) := by
      rw [mkdirs_frame hmkd hinc.1]
      exact he
    have hf2 : ({ st with root := t₂ } : Store).faults = [] := hf
    have hl := list_char hf2 hsroot hsnil
    have hfe2' : findE ({ st with root := t₂ } : Store).root source =
        some (.dir cs) := hfe2
    rw [hfe2'] at hl
    rw [hl]
    simp only []
    have hd2 : findE t₂ destination = some (.dir []) := mkdirs_absent hmkd habs
    have hpds : ∃ pds, findE t₂ destination.dropLast = some (.dir pds) := by
      rcases List.eq_nil_or_concat destination with hcon | ⟨dv, dnn, hdv⟩
      · exact absurd hcon hdnil
      · rw [List.concat_eq_append] at hdv
        subst hdv
        obtain ⟨pds, hp, -⟩ := findE_parent_dir hd2
        exact ⟨pds, by rw [List.dropLast_concat]; exact hp⟩
    obtain ⟨pds, hpd⟩ := hpds
    have hstart : ({ st with root := t₂ } : Store) =
        { st with root := setAt t₂ destination (.dir (cloneL now [])) } := by
      rw [show setAt t₂ destination (.dir (cloneL now [])) = t₂ from
        setAt_of_findE hd2]
    rw [hstart]
    exact copyAllLoop_clone fuel now st source destination t₂ cs hf hsroot
      hsnil hdroot hdnil hinc hwcs hfe2 hpd (by omega) ih cs [] rfl

/-! ## Claim C1 -/

/-- Claim C1, counterexample to the claim as stated: with the
destination `a` an ancestor of the source `a/b`, `copyAll` succeeds but
pollutes the source subtree: the recursion re-reads the store while
copying, and the file copied from `a/b/b/f` lands at `a/b/f`, a path
inside the source subtree that was absent before the call — the source
subtree is not unchanged. -/
theorem c1_counterexample :
    (copyAll 5 ⟨[("a", .dir [("b", .dir [("b", .dir [("f",
        .file [5] 1)])])])], [], [], [], false⟩ ["a", "b"] ["a"] 9).2 =
      .ok () ∧
    findE (copyAll 5 ⟨[("a", .dir [("b", .dir [("b", .dir [("f",
        .file [5] 1)])])])], [], [], [], false⟩ ["a", "b"] ["a"]
        9).1.root ["a", "b", "f"] = some (.file [5] 9) ∧
    findE ([("a", .dir [("b", .dir [("b", .dir [("f", .file [5] 1)])])])] :
        List (Seg × Entry)) ["a", "b", "f"] = none :=
  ⟨rfl, rfl, rfl⟩

/-- Claim C1 (amended): on a fault-free store, for every existing
well-formed source directory and every absent destination path that is
incomparable with the source (neither a prefix of the other) and whose
parent chain is creatable, `copyAll` with enough fuel succeeds and
produces at the destination a full recursive clone of the source subtree
(same shape, same file contents, files restamped with the wall clock),
while every path outside the destination subtree — in particular the
whole source subtree — is unchanged.  When source and destination
overlap this guarantee does not carry over: in the accompanying
counterexample, a destination that is a proper ancestor of the source
leaves the call successful yet writes a new file into the source
subtree, so the source is not unchanged. -/
theorem c1_copyAll_spec {st : Store} {source destination : Pth}
    {cs t₂ : List (Seg × Entry)} {fuel now : Nat} (hf : st.faults = [])
    (hsroot : source ≠ ["root"]) (hsnil : source ≠ [])
    (hdroot : destination ≠ ["root"]) (hdnil : destination ≠ [])
    (hinc : Incomp source destination)
    (he : findE st.root source = some (.dir cs)) (hwcs : wfL cs = true)
    (habs : findE st.root destination = none)
    (hmkd : mkdirs st.root destination = some t₂)
    (hfuel : sizeL cs < fuel) :
    copyAll fuel st source destination now =
      ({ st with root := setAt t₂ destination (.dir (cloneL now cs)) },
        .ok ()) ∧
    (∀ r, findE (setAt t₂ destination (.dir (cloneL now cs)))
        (source ++ r) = findE st.root (source ++ r)) ∧
    (∀ r c m, findE st.root (source ++ r) = some (.file c m) →
      findE (setAt t₂ destination (.dir (cloneL now cs)))
        (destination ++ r) = some (.file c now)) := by
  refine ⟨copyAll_clone fuel st source destination cs t₂ now hf hsroot
    hsnil hdroot hdnil hinc he hwcs habs hmkd hfuel, ?_, ?_⟩
  · intro r
    have h1 : Incomp destination (source ++ r) := by
      constructor
      · intro hc
        have := incomp_ext_not_pfx (incomp_symm hinc) ([] : Pth) r
        rw [List.append_nil] at this
        exact this hc
      · intro hc
        have := incomp_ext_not_pfx hinc r ([] : Pth)
        rw [List.append_nil] at this
        exact this hc
    rw [findE_setAt_frame h1, mkdirs_frame hmkd h1.2]
  · intro r c m hfile
    have hdd : findE (setAt t₂ destination (.dir (cloneL now cs)))
        destination = some (.dir (cloneL now cs)) := by
      rcases List.eq_nil_or_concat destination with hcon | ⟨dv, dnn, hdv⟩
      · exact absurd hcon hdnil
      · rw [List.concat_eq_append] at hdv
        subst hdv
        obtain ⟨pds, hp, -⟩ := findE_parent_dir
          (mkdirs_absent hmkd habs)
        exact findE_setAt_self hdnil
          (by rw [List.dropLast_concat]; exact hp)
    rw [findE_append_dir hdd r]
    rw [findE_append_dir he r] at hfile
    exact clone_findE_file now hfile

/-- Claim C1 witness: copying the directory `s` (a file and a
subdirectory with a file) to the fresh incomparable destination `t`
succeeds, leaves the source untouched and clones both files with the
wall-clock stamp. -/
theorem c1_witness :
    copyAll 5 ⟨[("s", .dir [("f", .file [3] 1), ("d", .dir [("g",
        .file [4] 2)])])], [], [], [], false⟩ ["s"] ["t"] 9 =
      (⟨[("s", .dir [("f", .file [3] 1), ("d", .dir [("g",
        .file [4] 2)])]), ("t", .dir [("f", .file [3] 9), ("d", .dir [("g",
        .file [4] 9)])])], [], [], [], false⟩, .ok ()) ∧
    findE ([("s", .dir [("f", .file [3] 1), ("d", .dir [("g",
        .file [4] 2)])]), ("t", .dir [("f", .file [3] 9), ("d", .dir [("g",
        .file [4] 9)])])] : List (Seg × Entry)) (["s"] ++ ["d", "g"]) =
      findE ([("s", .dir [("f", .file [3] 1), ("d", .dir [("g",
        .file [4] 2)])])] : List (Seg × Entry)) (["s"] ++ ["d", "g"]) ∧
    findE ([("s", .dir [("f", .file [3] 1), ("d", .dir [("g",
        .file [4] 2)])]), ("t", .dir [("f", .file [3] 9), ("d", .dir [("g",
        .file [4] 9)])])] : List (Seg × Entry)) (["t"] ++ ["d", "g"]) =
      some (Entry.file [4] 9) := by
  have h := @c1_copyAll_spec ⟨[("s", .dir [("f", .file [3] 1), ("d",
      .dir [("g", .file [4] 2)])])], [], [], [], false⟩ ["s"] ["t"]
    [("f", .file [3] 1), ("d", .dir [("g", .file [4] 2)])]
    [("s", .dir [("f", .file [3] 1), ("d", .dir [("g", .file [4] 2)])]),
      ("t", .dir [])] 5 9 rfl (by decide) (by decide) (by decide)
    (by decide) ⟨by decide, by decide⟩ rfl (by decide) rfl rfl (by decide)
  refine ⟨?_, ?_, ?_⟩
  · exact h.1
  · exact h.2.1 ["d", "g"]
  · exact h.2.2 ["d", "g"] [4] 2 rfl

/-! ## Commutation and removal algebra for the `moveAll` analysis -/

lemma setAt_single (t : List (Seg × Entry)) (n : Seg) (e : Entry) :
    setAt t [n] e = upd t n e := rfl

lemma upd_comm_present {n m : Seg} (hnm : n ≠ m) :
    ∀ (t : List (Seg × Entry)) {en : Entry}, findC t n = some en →
      ∀ (a b : Entry), upd (upd t n a) m b = upd (upd t m b) n a := by
  intro t
  induction t with
  | nil =>
    intro en hen a b
    simp [findC] at hen
  | cons hd rest ih =>
    rcases hd with ⟨k, x⟩
    intro en hen a b
    by_cases hkn : k = n
    · subst hkn
      simp [upd, hnm, Ne.symm hnm]
    · rw [findC, if_neg hkn] at hen
      by_cases hkm : k = m
      · subst hkm
        simp [upd, hkn, fun h => hkn (h : k = n)]
      · simp [upd, hkn, hkm, ih hen]

lemma del_upd (n : Seg) :
    ∀ (t : List (Seg × Entry)) (e : Entry), del (upd t n e) n = del t n := by
  intro t
  induction t with
  | nil =>
    intro e
    simp [upd, del]
  | cons hd rest ih =>
    rcases hd with ⟨k, x⟩
    intro e
    by_cases hkn : k = n
    · subst hkn
      simp [upd, del]
    · simp [upd, del, hkn, ih]

lemma removeAt_snoc :
    ∀ {h : Pth} {t cs : List (Seg × Entry)} (n : Seg),
      findE t h = some (.dir cs) →
        removeAt t (h ++ [n]) = setSub t h (del cs n) := by
  intro h
  induction h with
  | nil =>
    intro t cs n hf
    rw [findE] at hf
    simp only [Option.some.injEq, Entry.dir.injEq] at hf
    subst hf
    rw [List.nil_append, removeAt, setSub]
  | cons a h' ih =>
    intro t cs n hf
    rw [findE] at hf
    cases hfc : findC t a with
    | none => rw [hfc] at hf; exact Option.noConfusion hf
    | some x =>
      rw [hfc] at hf
      cases x with
      | file c m =>
        simp only [] at hf
        by_cases hh' : h' = []
        · rw [if_pos hh'] at hf; simp at hf
        · rw [if_neg hh'] at hf; exact Option.noConfusion hf
      | dir ds₀ =>
        simp only [] at hf
        have hsub : findE ds₀ h' = some (.dir cs) := by
          by_cases hh' : h' = []
          · rw [if_pos hh'] at hf
            simp only [Option.some.injEq, Entry.dir.injEq] at hf
            rw [hh', findE, hf]
          · rw [if_neg hh'] at hf
            exact hf
        rw [List.cons_append, removeAt_cons_dir hfc
          (by simp : h' ++ [n] ≠ ([] : Pth)), ih n hsub]
        rw [setSub_ne_nil (List.cons_ne_nil a h')]
        by_cases hh' : h' = []
        · subst hh'
          rw [findE] at hsub
          simp only [Option.some.injEq, Entry.dir.injEq] at hsub
          subst hsub
          rw [setSub, setAt_single]
        · rw [setAt_cons_dir hfc hh', setSub_ne_nil hh']

lemma removeAt_single (t : List (Seg × Entry)) (n : Seg) :
    removeAt t [n] = del t n := rfl

lemma removeAt_setAt :
    ∀ {p : Pth} (t : List (Seg × Entry)) (e : Entry),
      removeAt (setAt t p e) p = removeAt t p := by
  intro p
  induction p with
  | nil => intro t e; rfl
  | cons n p' ih =>
    intro t e
    by_cases hp' : p' = []
    · subst hp'
      rw [setAt_single, removeAt_single, removeAt_single, del_upd]
    · cases hfc : findC t n with
      | none => rw [setAt_cons_none hfc hp']
      | some y =>
        cases y with
        | file c m => rw [setAt_cons_file hfc hp']
        | dir ds =>
          rw [setAt_cons_dir hfc hp',
            removeAt_cons_dir (show findC (upd t n (.dir (setAt ds p' e)))
              n = some (.dir (setAt ds p' e)) by rw [findC_upd, if_pos rfl])
              hp',
            removeAt_cons_dir hfc hp', upd_upd, ih]

lemma setAt_comm :
    ∀ {p q : Pth} (t : List (Seg × Entry)) {ep ed : Entry},
      Incomp p q → findE t p = some ep → findE t q = some ed →
      ∀ (e₁ e₂ : Entry),
        setAt (setAt t p e₁) q e₂ = setAt (setAt t q e₂) p e₁ := by
  intro p
  induction p with
  | nil =>
    intro q t ep ed h _ _ _ _
    exact absurd List.nil_prefix h.1
  | cons n p' ih =>
    intro q t ep ed h hp hq e₁ e₂
    cases q with
    | nil => exact absurd List.nil_prefix h.2
    | cons m q' =>
      by_cases hnm : n = m
      · subst hnm
        have hp' : p' ≠ [] := by
          rintro rfl
          exact h.1 (List.cons_prefix_cons.mpr ⟨rfl, List.nil_prefix⟩)
        have hq' : q' ≠ [] := by
          rintro rfl
          exact h.2 (List.cons_prefix_cons.mpr ⟨rfl, List.nil_prefix⟩)
        have hinc' : Incomp p' q' :=
          ⟨fun hc => h.1 (List.cons_prefix_cons.mpr ⟨rfl, hc⟩),
           fun hc => h.2 (List.cons_prefix_cons.mpr ⟨rfl, hc⟩)⟩
        rw [findE] at hp hq
        cases hfc : findC t n with
        | none =>
          rw [hfc] at hp
          exact Option.noConfusion hp
        | some y =>
          rw [hfc] at hp hq
          cases y with
          | file c mm =>
            simp only [] at hp
            rw [if_neg hp'] at hp
            exact Option.noConfusion hp
          | dir ds =>
            simp only [] at hp hq
            rw [if_neg hp'] at hp
            rw [if_neg hq'] at hq
            rw [setAt_cons_dir hfc hp', setAt_cons_dir hfc hq',
              setAt_cons_dir (show findC (upd t n (.dir (setAt ds p' e₁)))
                n = some (.dir (setAt ds p' e₁)) by
                  rw [findC_upd, if_pos rfl]) hq',
              setAt_cons_dir (show findC (upd t n (.dir (setAt ds q' e₂)))
                n = some (.dir (setAt ds q' e₂)) by
                  rw [findC_upd, if_pos rfl]) hp',
              upd_upd, upd_upd, ih ds hinc' hp hq e₁ e₂]
      · rw [findE] at hp hq
        cases hfcn : findC t n with
        | none =>
          rw [hfcn] at hp
          exact Option.noConfusion hp
        | some yn =>
          cases hfcm : findC t m with
          | none =>
            rw [hfcm] at hq
            exact Option.noConfusion hq
          | some ym =>
            rw [hfcn] at hp
            rw [hfcm] at hq
            have hY₁ : ∃ Y₁, ∀ (u : List (Seg × Entry)),
                findC u n = some yn → setAt u (n :: p') e₁ = upd u n Y₁ := by
              by_cases hp' : p' = []
              · exact ⟨e₁, fun u _ => by rw [hp', setAt_single]⟩
              · cases yn with
                | file c mm =>
                  simp only [] at hp
                  rw [if_neg hp'] at hp
                  exact Option.noConfusion hp
                | dir dsn =>
                  exact ⟨.dir (setAt dsn p' e₁),
                    fun u h' => setAt_cons_dir h' hp' e₁⟩
            have hY₂ : ∃ Y₂, ∀ (u : List (Seg × Entry)),
                findC u m = some ym → setAt u (m :: q') e₂ = upd u m Y₂ := by
              by_cases hq' : q' = []
              · exact ⟨e₂, fun u _ => by rw [hq', setAt_single]⟩
              · cases ym with
                | file c mm =>
                  simp only [] at hq
                  rw [if_neg hq'] at hq
                  exact Option.noConfusion hq
                | dir dsm =>
                  exact ⟨.dir (setAt dsm q' e₂),
                    fun u h' => setAt_cons_dir h' hq' e₂⟩
            obtain ⟨Y₁, hY₁⟩ := hY₁
            obtain ⟨Y₂, hY₂⟩ := hY₂
            rw [hY₁ t hfcn,
              hY₂ (upd t n Y₁) (by rw [findC_upd, if_neg hnm]; exact hfcm),
              hY₂ t hfcm,
              hY₁ (upd t m Y₂)
                (by rw [findC_upd, if_neg (Ne.symm hnm)]; exact hfcn)]
            exact upd_comm_present hnm t hfcn Y₁ Y₂

lemma findE_setAt_dir_any :
    ∀ {dp : Pth} {p : Pth} {t ds : List (Seg × Entry)}
      (X : List (Seg × Entry)),
      findE t dp = some (.dir ds) → (p <+: dp → p = dp) →
      ∃ ds', findE (setAt t p (.dir X)) dp = some (.dir ds') := by
  intro dp
  induction dp with
  | nil =>
    intro p t ds X _ _
    exact ⟨setAt t p (.dir X), by rw [findE]⟩
  | cons m dp' ih =>
    intro p t ds X hdp hstr
    cases p with
    | nil => exact ⟨ds, by rw [setAt]; exact hdp⟩
    | cons n p' =>
      by_cases hnm : n = m
      · subst hnm
        rw [findE] at hdp
        by_cases hp' : p' = []
        · have hpfx : n :: p' <+: n :: dp' := by
            rw [hp']
            exact List.cons_prefix_cons.mpr ⟨rfl, List.nil_prefix⟩
          have hpeq : n :: p' = n :: dp' := hstr hpfx
          injection hpeq with h1 h2
          rw [← h2, hp']
          exact ⟨X, by rw [setAt_single, findE_single, findC_upd,
            if_pos rfl]⟩
        · cases hfc : findC t n with
          | none =>
            rw [hfc] at hdp
            exact Option.noConfusion hdp
          | some y =>
            rw [hfc] at hdp
            cases y with
            | file c mm =>
              simp only [] at hdp
              by_cases hdp' : dp' = []
              · rw [if_pos hdp'] at hdp; simp at hdp
              · rw [if_neg hdp'] at hdp; exact Option.noConfusion hdp
            | dir ds₀ =>
              simp only [] at hdp
              rw [setAt_cons_dir hfc hp']
              have hcu : findC (upd t n (.dir (setAt ds₀ p' (.dir X)))) n =
                  some (.dir (setAt ds₀ p' (.dir X))) := by
                rw [findC_upd, if_pos rfl]
              by_cases hdp' : dp' = []
              · refine ⟨setAt ds₀ p' (.dir X), ?_⟩
                rw [hdp', findE_single, hcu]
              · rw [if_neg hdp'] at hdp
                have hstr' : p' <+: dp' → p' = dp' := by
                  intro hc
                  have h2 := hstr (List.cons_prefix_cons.mpr ⟨rfl, hc⟩)
                  simp only [List.cons.injEq, true_and] at h2
                  exact h2
                obtain ⟨ds', hds'⟩ := ih X hdp hstr'
                refine ⟨ds', ?_⟩
                rw [findE_cons_dir hcu hdp']
                exact hds'
      · have hcm : findC (setAt t (n :: p') (.dir X)) m = findC t m := by
          by_cases hp' : p' = []
          · rw [hp', setAt_single, findC_upd, if_neg hnm]
          · rw [setAt_cons_ne_nil t n hp']
            cases hfcn : findC t n with
            | none => rfl
            | some y =>
              cases y with
              | file c mm => rfl
              | dir ds₀ =>
                simp only []
                rw [findC_upd, if_neg hnm]
        refine ⟨ds, ?_⟩
        rw [findE_congr_head hcm dp']
        exact hdp

lemma dropLast_isPfx (l : Pth) : l.dropLast <+: l := by
  rcases List.eq_nil_or_concat l with hc | ⟨q, n, hq⟩
  · rw [hc]
    exact List.nil_prefix
  · rw [List.concat_eq_append] at hq
    rw [hq, List.dropLast_concat]
    exact List.prefix_append q [n]

lemma parent_dir_of_findE {t : List (Seg × Entry)} {q : Pth} {e : Entry}
    (hq : findE t q = some e) (hnil : q ≠ []) :
    ∃ ds, findE t q.dropLast = some (.dir ds) := by
  rcases List.eq_nil_or_concat q with hc | ⟨v, n, hv⟩
  · exact absurd hc hnil
  · rw [List.concat_eq_append] at hv
    subst hv
    obtain ⟨ds, hds, -⟩ := findE_parent_dir hq
    exact ⟨ds, by rw [List.dropLast_concat]; exact hds⟩

lemma move_ok {st : Store} {source dq : Pth} {dn : Seg} {c : List Nat}
    {m : Nat} {t₁ : List (Seg × Entry)}
    (hf : st.faults = []) (hmf : st.moveFaults = [])
    (hsroot : source ≠ ["root"]) (hsnil : source ≠ [])
    (hdqroot : dq ≠ ["root"]) (hdqnil : dq ≠ [])
    (hes : findE st.root source = some (.file c m))
    (hmk : mkdirs st.root dq = some t₁)
    (hsrc1 : findE t₁ source = some (.file c m)) (now : Nat) :
    move st source (dq ++ [dn]) now =
      ({ st with root := setAt (removeAt t₁ source) (dq ++ [dn]) (.file c m) }, .ok ()) := by
  obtain ⟨ds, hds⟩ := mkdirs_found hmk
  unfold move
  rw [getDetails_resolve none hf hsroot hsnil, hes]
  simp only [matchK, if_true]
  rw [kindAt_eq hes]
  simp only [kindOf]
  rw [show (dq ++ [dn]).dropLast = dq from List.dropLast_concat,
    getDetails_create_dir hf hdqroot hdqnil hmk]
  simp only []
  rw [show (dq ++ [dn]).getLast? = some dn from List.getLast?_concat _]
  simp only [hMoveFile]
  have hmv1 : fLook ({ st with root := t₁ } : Store).moveFaults source =
      (none : Option String) := by
    show fLook st.moveFaults source = none
    rw [hmf, fLook_nil]
  rw [hmv1]
  simp only []
  rw [show findE ({ st with root := t₁ } : Store).root source =
    some (Entry.file c m) from hsrc1]
  simp only []
  rw [show findE ({ st with root := t₁ } : Store).root dq =
    some (Entry.dir ds) from hds]

lemma moveAllLoop_relocate (fuel now : Nat) (st : Store)
    (source destination : Pth) (t₂ cs : List (Seg × Entry))
    (hf : st.faults = []) (hrf : st.removeFaults = [])
    (hmf : st.moveFaults = []) (hdm : st.dirMove = false)
    (hsroot : source ≠ ["root"]) (hsnil : source ≠ [])
    (hdroot : destination ≠ ["root"]) (hdnil : destination ≠ [])
    (hinc : Incomp source destination) (hwcs : wfL cs = true)
    (hs2 : findE t₂ source = some (.dir cs))
    (hd2 : findE t₂ destination = some (.dir []))
    (hfuel : sizeL cs ≤ fuel)
    (hrec : ∀ (st' : Store) (src dst : Pth)
        (cs' t₂' : List (Seg × Entry)) (now' : Nat),
      st'.faults = [] → st'.removeFaults = [] → st'.moveFaults = [] →
      st'.dirMove = false →
      src ≠ ["root"] → src ≠ [] → dst ≠ ["root"] → dst ≠ [] →
      Incomp src dst → findE st'.root src = some (.dir cs') →
      wfL cs' = true → findE st'.root dst = none →
      mkdirs st'.root dst = some t₂' → sizeL cs' < fuel →
      moveAll fuel st' src dst now' =
        ({ st' with root := removeAt (setAt t₂' dst (.dir cs')) src },
          .ok ())) :
    ∀ (csb csa : List (Seg × Entry)), cs = csa ++ csb →
      moveAllLoop (moveAll fuel) source destination now
          (csb.map fun c => (c.1, kindOf c.2))
          { st with root := setAt (setAt t₂ source (.dir csb)) destination (.dir csa) } =
        ({ st with root := setAt (setAt t₂ source (.dir [])) destination (.dir cs) },
          .ok ()) := by
  have hcomm : ∀ (B A : Entry),
      setAt (setAt t₂ source B) destination A =
        setAt (setAt t₂ destination A) source B :=
    fun B A => setAt_comm t₂ hinc hs2 hd2 B A
  obtain ⟨sds, hsp⟩ := parent_dir_of_findE hs2 hsnil
  obtain ⟨pds, hpd⟩ := parent_dir_of_findE hd2 hdnil
  have hstrd : source <+: destination.dropLast →
      source = destination.dropLast :=
    fun hp => absurd (hp.trans (dropLast_isPfx destination)) hinc.1
  have hstrs : destination <+: source.dropLast →
      destination = source.dropLast :=
    fun hp => absurd (hp.trans (dropLast_isPfx source)) hinc.2
  have hNdest : ∀ (csb csa : List (Seg × Entry)),
      findE (setAt (setAt t₂ source (.dir csb)) destination (.dir csa))
        destination = some (.dir csa) := by
    intro csb csa
    obtain ⟨pd, hpdd⟩ := findE_setAt_dir_any csb hpd hstrd
    exact findE_setAt_self hdnil hpdd
  have hNsrc : ∀ (csb csa : List (Seg × Entry)),
      findE (setAt (setAt t₂ source (.dir csb)) destination (.dir csa))
        source = some (.dir csb) := by
    intro csb csa
    rw [hcomm (.dir csb) (.dir csa)]
    obtain ⟨sd, hsdd⟩ := findE_setAt_dir_any csa hsp hstrs
    exact findE_setAt_self hsnil hsdd
  have haccum : ∀ (csb csa : List (Seg × Entry)) (n : Seg) (e₂ : Entry),
      findC csa n = none →
      setAt (setAt (setAt t₂ source (.dir csb)) destination (.dir csa))
          (destination ++ [n]) e₂ =
        setAt (setAt t₂ source (.dir csb)) destination
          (.dir (csa ++ [(n, e₂)])) := by
    intro csb csa n e₂ hfree
    rw [setAt_snoc n e₂ (hNdest csb csa), setSub_ne_nil hdnil, setAt_setAt,
      upd_of_findC_none hfree]
  have hremove : ∀ (csb csa : List (Seg × Entry)) (n : Seg),
      removeAt (setAt (setAt t₂ source (.dir csb)) destination (.dir csa))
          (source ++ [n]) =
        setAt (setAt t₂ source (.dir (del csb n))) destination
          (.dir csa) := by
    intro csb csa n
    rw [removeAt_snoc n (hNsrc csb csa), setSub_ne_nil hsnil,
      hcomm (.dir csb) (.dir csa), setAt_setAt,
      ← hcomm (.dir (del csb n)) (.dir csa)]
  intro csb
  induction csb with
  | nil =>
    intro csa hcs
    rw [List.map_nil, moveAllLoop, hcs, List.append_nil]
  | cons hd csb' ih =>
    rcases hd with ⟨n, e'⟩
    intro csa hcs
    have hmem : (n, e') ∈ cs := by
      rw [hcs]
      exact List.mem_append_right _ (List.mem_cons_self _ _)
    have hfc_cs : findC cs n = some e' := mem_findC hwcs hmem
    have hfree : findC csa n = none := wfL_append_findC (hcs ▸ hwcs)
    have hhd : findC ((n, e') :: csb') n = some e' := by
      rw [findC, if_pos rfl]
    have hdel : del ((n, e') :: csb') n = csb' := by
      rw [del, if_pos rfl]
    have hchild : findE (setAt (setAt t₂ source (.dir ((n, e') :: csb')))
        destination (.dir csa)) (source ++ [n]) = some e' := by
      rw [findE_append_dir (hNsrc _ _) [n], findE_single]
      exact hhd
    have hdn : findE (setAt (setAt t₂ source (.dir ((n, e') :: csb')))
        destination (.dir csa)) (destination ++ [n]) = none := by
      rw [findE_append_dir (hNdest _ _) [n], findE_single]
      exact hfree
    rw [List.map_cons, moveAllLoop]
    simp only []
    cases e' with
    | file c m =>
      simp only [kindOf]
      have hf' : ({ st with root := setAt (setAt t₂ source (.dir ((n, .file c m) :: csb'))) destination (.dir csa) } : Store).faults = [] := hf
      have hmf' : ({ st with root := setAt (setAt t₂ source (.dir ((n, .file c m) :: csb'))) destination (.dir csa) } : Store).moveFaults = [] := hmf
      have hes' : findE ({ st with root := setAt (setAt t₂ source (.dir ((n, .file c m) :: csb'))) destination (.dir csa) } : Store).root (source ++ [n]) = some (.file c m) := hchild
      have hmk' : mkdirs ({ st with root := setAt (setAt t₂ source (.dir ((n, .file c m) :: csb'))) destination (.dir csa) } : Store).root destination = some (setAt (setAt t₂ source (.dir ((n, .file c m) :: csb'))) destination (.dir csa)) := mkdirs_id (hNdest _ _)
      rw [move_ok hf' hmf' (snoc_ne_root hsnil n) (by simp) hdroot hdnil
        hes' hmk' hchild now]
      simp only []
      rw [hremove, hdel, haccum csb' csa n (.file c m) hfree]
      have hstep := ih (csa ++ [(n, .file c m)])
        (by rw [hcs, List.append_assoc, List.singleton_append])
      exact hstep
    | dir ds =>
      simp only [kindOf]
      have hwds : wfL ds = true := wf_member hwcs hfc_cs
      have hszds : sizeL ds < fuel := by
        have h1 : sizeE (.dir ds) ≤ sizeL cs := sizeE_findC hfc_cs
        rw [sizeE] at h1
        omega
      have hf' : ({ st with root := setAt (setAt t₂ source (.dir ((n, .dir ds) :: csb'))) destination (.dir csa) } : Store).faults = [] := hf
      have hrf' : ({ st with root := setAt (setAt t₂ source (.dir ((n, .dir ds) :: csb'))) destination (.dir csa) } : Store).removeFaults = [] := hrf
      have hmf' : ({ st with root := setAt (setAt t₂ source (.dir ((n, .dir ds) :: csb'))) destination (.dir csa) } : Store).moveFaults = [] := hmf
      have hdm' : ({ st with root := setAt (setAt t₂ source (.dir ((n, .dir ds) :: csb'))) destination (.dir csa) } : Store).dirMove = false := hdm
      have hes' : findE ({ st with root := setAt (setAt t₂ source (.dir ((n, .dir ds) :: csb'))) destination (.dir csa) } : Store).root (source ++ [n]) = some (.dir ds) := hchild
      have habs' : findE ({ st with root := setAt (setAt t₂ source (.dir ((n, .dir ds) :: csb'))) destination (.dir csa) } : Store).root (destination ++ [n]) = none := hdn
      have hmk' : mkdirs ({ st with root := setAt (setAt t₂ source (.dir ((n, .dir ds) :: csb'))) destination (.dir csa) } : Store).root (destination ++ [n]) = some (setAt (setAt (setAt t₂ source (.dir ((n, .dir ds) :: csb'))) destination (.dir csa)) (destination ++ [n]) (.dir [])) := mkdirs_snoc_create (hNdest _ _) hfree
      rw [hrec _ (source ++ [n]) (destination ++ [n]) ds _ now hf' hrf'
        hmf' hdm' (snoc_ne_root hsnil n) (by simp) (snoc_ne_root hdnil n)
        (by simp) (incomp_ext hinc [n] [n]) hes' hwds habs' hmk' hszds]
      simp only []
      rw [setAt_setAt]
      rw [haccum ((n, Entry.dir ds) :: csb') csa n (Entry.dir ds) hfree]
      rw [hremove ((n, Entry.dir ds) :: csb') (csa ++ [(n, Entry.dir ds)]) n]
      rw [hdel]
      have hstep := ih (csa ++ [(n, .dir ds)])
        (by rw [hcs, List.append_assoc, List.singleton_append])
      exact hstep

lemma moveAll_fallback :
    ∀ (fuel : Nat) (st : Store) (source destination : Pth)
      (cs t₂ : List (Seg × Entry)) (now : Nat),
      st.faults = [] → st.removeFaults = [] → st.moveFaults = [] →
      st.dirMove = false →
      source ≠ ["root"] → source ≠ [] →
      destination ≠ ["root"] → destination ≠ [] →
      Incomp source destination →
      findE st.root source = some (.dir cs) → wfL cs = true →
      findE st.root destination = none →
      mkdirs st.root destination = some t₂ →
      sizeL cs < fuel →
      moveAll fuel st source destination now =
        ({ st with root := removeAt (setAt t₂ destination (.dir cs)) source }, .ok ()) := by
  intro fuel
  induction fuel with
  | zero =>
    intro st source destination cs t₂ now _ _ _ _ _ _ _ _ _ _ _ _ _ hfuel
    exact absurd hfuel (Nat.not_lt_zero _)
  | succ fuel ih =>
    intro st source destination cs t₂ now hf hrf hmf hdm hsroot hsnil
      hdroot hdnil hinc he hwcs habs hmkd hfuel
    show moveAll fuel.succ st source destination now = _
    unfold moveAll
    rw [getDetails_resolve none hf hsroot hsnil, he]
    simp only [matchK, if_true]
    rw [kindAt_eq he]
    simp only [kindOf]
    rw [hdm]
    simp only [Bool.false_eq_true, if_false]
    have hcd : createDirectory st destination =
        ({ st with root := t₂ }, .ok ()) := by
      unfold createDirectory
      rw [cdGo_mkdirs destination st [] st.root t₂ hf (by rw [findE]) hmkd]
      rfl
    rw [hcd]
    simp only []
    have hfe2 : findE t₂ source = some (.dir cs) := by
      rw [mkdirs_frame hmkd hinc.1]
      exact he
    have hf2 : ({ st with root := t₂ } : Store).faults = [] := hf
    have hl := list_char hf2 hsroot hsnil
    have hfe2' : findE ({ st with root := t₂ } : Store).root source =
        some (.dir cs) := hfe2
    rw [hfe2'] at hl
    rw [hl]
    simp only []
    have hd2 : findE t₂ destination = some (.dir []) := mkdirs_absent hmkd habs
    have hstart : ({ st with root := t₂ } : Store) =
        { st with root := setAt (setAt t₂ source (.dir cs)) destination (.dir []) } := by
      rw [setAt_of_findE hfe2, setAt_of_findE hd2]
    rw [hstart]
    rw [moveAllLoop_relocate fuel now st source destination t₂ cs hf hrf
      hmf hdm hsroot hsnil hdroot hdnil hinc hwcs hfe2 hd2 (by omega) ih
      cs [] rfl]
    simp only []
    have hcomm : ∀ (B A : Entry),
        setAt (setAt t₂ source B) destination A =
          setAt (setAt t₂ destination A) source B :=
      fun B A => setAt_comm t₂ hinc hfe2 hd2 B A
    obtain ⟨sds, hsp⟩ := parent_dir_of_findE hfe2 hsnil
    have hstrs : destination <+: source.dropLast →
        destination = source.dropLast :=
      fun hp => absurd (hp.trans (dropLast_isPfx source)) hinc.2
    have hfin_src : findE (setAt (setAt t₂ source (.dir [])) destination
        (.dir cs)) source = some (.dir ([] : List (Seg × Entry))) := by
      rw [hcomm (.dir []) (.dir cs)]
      obtain ⟨sd, hsdd⟩ := findE_setAt_dir_any cs hsp hstrs
      exact findE_setAt_self hsnil hsdd
    have hfD : ({ st with root := setAt (setAt t₂ source (.dir [])) destination (.dir cs) } : Store).faults = [] := hf
    have hrfD : ({ st with root := setAt (setAt t₂ source (.dir [])) destination (.dir cs) } : Store).removeFaults = [] := hrf
    have heD : findE ({ st with root := setAt (setAt t₂ source (.dir [])) destination (.dir cs) } : Store).root source = some (.dir ([] : List (Seg × Entry))) := hfin_src
    rw [delete_removes hfD hrfD hsroot hsnil heD (Or.inl rfl)]
    simp only []
    rw [show removeAt (setAt (setAt t₂ source (.dir [])) destination
        (.dir cs)) source = removeAt (setAt t₂ destination (.dir cs))
        source by rw [hcomm (.dir []) (.dir cs), removeAt_setAt]]
    rw [hdm]

lemma moveAll_notFound {st : Store} {p : Pth} (q : Pth) (hf : st.faults = [])
    (hroot : p ≠ ["root"]) (hnil : p ≠ [])
    (habs : findE st.root p = none) (fuel now : Nat) :
    moveAll (fuel + 1) st p q now = (st, .error (.notFound "moveAll")) := by
  show moveAll fuel.succ st p q now = _
  unfold moveAll
  rw [getDetails_resolve none hf hroot hnil, habs]

/-! ## Claim C2 -/

/-- Claim C2, counterexample to the claim as stated: with source and
destination both the existing (empty) directory `a`, the non-native
`moveAll` reports success, but afterwards nothing is rooted at the
destination: the final `delete` of the "emptied source" removes the very
directory the call was supposed to produce, so the subtree formerly at
the source is not rooted at the destination — it is gone.  When the
self-moved source instead contains a file, the children self-relocate in
place and remain, so the final `delete` fails with `NotEmptyError`:
either way the claimed relocation contract fails for a coinciding
destination. -/
theorem c2_counterexample :
    (moveAll 5 ⟨[("a", .dir [])], [], [], [], false⟩ ["a"] ["a"] 9).2 =
      .ok () ∧
    findE (moveAll 5 ⟨[("a", .dir [])], [], [], [], false⟩ ["a"] ["a"]
      9).1.root ["a"] = none ∧
    (moveAll 5 ⟨[("s", .dir [("f", .file [1] 2)])], [], [], [], false⟩
      ["s"] ["s"] 9).2 = .error (.notEmpty "delete") :=
  ⟨rfl, rfl, rfl⟩

/-- Claim C2 (amended): on a fault-free well-formed store without the
native directory-move capability, for an existing source directory and
an absent destination incomparable with it (neither a prefix of the
other) whose parent chain is creatable: `moveAll` with enough fuel
succeeds, afterwards the source no longer resolves (so
`isDirectory(source)` is false) and the full subtree formerly rooted at
the source — identical structure, contents and timestamps — is rooted
at the destination; the emptied source directory is removed by the
final `delete`.  An absent source fails with `NotFoundError`.  When
source and destination coincide the relocation is vacuous and the final
`delete` acts on the original directory: an empty source directory is
destroyed outright while the call reports success, and a source still
containing a file makes the final `delete` fail with `NotEmptyError`
(see the counterexample for both behaviours). -/
theorem c2_moveAll_spec {st : Store} {source destination : Pth}
    {cs t₂ : List (Seg × Entry)} {fuel now : Nat}
    (hf : st.faults = []) (hrf : st.removeFaults = [])
    (hmf : st.moveFaults = []) (hdm : st.dirMove = false)
    (hw : wfL st.root = true)
    (hsroot : source ≠ ["root"]) (hsnil : source ≠ [])
    (hdroot : destination ≠ ["root"]) (hdnil : destination ≠ [])
    (hinc : Incomp source destination)
    (he : findE st.root source = some (.dir cs))
    (habs : findE st.root destination = none)
    (hmkd : mkdirs st.root destination = some t₂)
    (hfuel : sizeL cs < fuel) :
    (∀ (p q : Pth) (f n : Nat), p ≠ ["root"] → p ≠ [] →
      findE st.root p = none →
      moveAll (f + 1) st p q n = (st, .error (.notFound "moveAll"))) ∧
    moveAll fuel st source destination now =
      ({ st with root := removeAt (setAt t₂ destination (.dir cs)) source }, .ok ()) ∧
    findE (removeAt (setAt t₂ destination (.dir cs)) source) destination =
      some (.dir cs) ∧
    findE (removeAt (setAt t₂ destination (.dir cs)) source) source =
      none := by
  have hwcs : wfL cs = true := wf_findE hw he
  have hd2 : findE t₂ destination = some (.dir []) := mkdirs_absent hmkd habs
  obtain ⟨pds, hpd⟩ := parent_dir_of_findE hd2 hdnil
  refine ⟨?_, ?_, ?_, ?_⟩
  · intro p q f n hroot hnil habs'
    exact moveAll_notFound q hf hroot hnil habs' f n
  · exact moveAll_fallback fuel st source destination cs t₂ now hf hrf hmf
      hdm hsroot hsnil hdroot hdnil hinc he hwcs habs hmkd hfuel
  · rw [findE_removeAt_frame hinc]
    exact findE_setAt_self hdnil hpd
  · exact findE_removeAt_self
      (wf_setAt (wf_mkdirs hw hmkd) hwcs) hsnil

/-- Claim C2 witness: moving the directory `s` (a file and a
subdirectory) to the fresh destination `t` on a store without the
native capability relocates the whole subtree with timestamps intact
and removes `s`; an absent source fails with `NotFoundError`. -/
theorem c2_witness :
    moveAll 5 ⟨[("s", .dir [("f", .file [3] 1), ("d", .dir [("g",
        .file [4] 2)])])], [], [], [], false⟩ ["z"] ["t"] 9 =
      (⟨[("s", .dir [("f", .file [3] 1), ("d", .dir [("g",
        .file [4] 2)])])], [], [], [], false⟩,
        .error (.notFound "moveAll")) ∧
    moveAll 5 ⟨[("s", .dir [("f", .file [3] 1), ("d", .dir [("g",
        .file [4] 2)])])], [], [], [], false⟩ ["s"] ["t"] 9 =
      (⟨[("t", .dir [("f", .file [3] 1), ("d", .dir [("g",
        .file [4] 2)])])], [], [], [], false⟩, .ok ()) ∧
    findE ([("t", .dir [("f", .file [3] 1), ("d", .dir [("g",
        .file [4] 2)])])] : List (Seg × Entry)) ["t"] =
      some (.dir [("f", .file [3] 1), ("d", .dir [("g",
        .file [4] 2)])]) ∧
    findE ([("t", .dir [("f", .file [3] 1), ("d", .dir [("g",
        .file [4] 2)])])] : List (Seg × Entry)) ["s"] = none := by
  have h := @c2_moveAll_spec ⟨[("s", .dir [("f", .file [3] 1), ("d",
      .dir [("g", .file [4] 2)])])], [], [], [], false⟩ ["s"] ["t"]
    [("f", .file [3] 1), ("d", .dir [("g", .file [4] 2)])]
    [("s", .dir [("f", .file [3] 1), ("d", .dir [("g", .file [4] 2)])]),
      ("t", .dir [])] 5 9 rfl rfl rfl rfl (by decide) (by decide)
    (by decide) (by decide) (by decide) ⟨by decide, by decide⟩ rfl rfl rfl
    (by decide)
  exact ⟨h.1 ["z"] ["t"] 4 9 (by decide) (by decide) rfl, h.2.1,
    h.2.2.1, h.2.2.2⟩

/-! ## Claim C10: termination and the self-feeding divergence -/

/-- With the destination a fresh child of an empty source directory, the
recursion feeds on itself: each level creates the destination directory,
re-enumerates the source — now containing exactly that fresh directory —
and recurses on it in the same shape, one level deeper, for every fuel
bound. -/
lemma copyAll_self_feed :
    ∀ (fuel : Nat) (st : Store) (source : Pth) (n : Seg) (now : Nat),
      st.faults = [] → source ≠ ["root"] → source ≠ [] →
      findE st.root source = some (.dir []) →
      (copyAll fuel st source (source ++ [n]) now).2 =
        .error .outOfFuel := by
  intro fuel
  induction fuel with
  | zero => intro st source n now _ _ _ _; rfl
  | succ fuel ih =>
    intro st source n now hf hsroot hsnil he
    show (copyAll fuel.succ st source (source ++ [n]) now).2 = _
    unfold copyAll
    rw [isFile_char hf hsroot hsnil, he]
    simp only []
    rw [isDirectory_char hf hsroot hsnil, he]
    simp only []
    have hmkd : mkdirs st.root (source ++ [n]) =
        some (setAt st.root (source ++ [n]) (.dir [])) :=
      mkdirs_snoc_create he (by rw [findC])
    have hcd : createDirectory st (source ++ [n]) =
        ({ st with root := setAt st.root (source ++ [n]) (.dir []) }, .ok ()) := by
      unfold createDirectory
      rw [cdGo_mkdirs (source ++ [n]) st [] st.root _ hf (by rw [findE])
        hmkd]
      rfl
    rw [hcd]
    simp only []
    obtain ⟨pds, hpd⟩ := parent_dir_of_findE he hsnil
    have hsrc2 : findE (setAt st.root (source ++ [n]) (.dir []))
        source = some (.dir [(n, Entry.dir [])]) := by
      rw [setAt_snoc n _ he, setSub_ne_nil hsnil]
      exact findE_setAt_self hsnil hpd
    have hf2 : ({ st with root := setAt st.root (source ++ [n]) (.dir []) } : Store).faults = [] := hf
    have hl := list_char hf2 hsroot hsnil
    have hsrc2' : findE ({ st with root := setAt st.root (source ++ [n]) (.dir []) } : Store).root source = some (.dir [(n, Entry.dir [])]) := hsrc2
    rw [hsrc2'] at hl
    rw [hl]
    simp only [List.map_cons, List.map_nil, kindOf]
    rw [copyAllLoop]
    simp only []
    have hchild : findE ({ st with root := setAt st.root (source ++ [n]) (.dir []) } : Store).root (source ++ [n]) = some (.dir ([] : List (Seg × Entry))) :=
      findE_setAt_self (by simp)
        (by rw [List.dropLast_concat]; exact he)
    have hnext := ih ({ st with root := setAt st.root (source ++ [n]) (.dir []) }) (source ++ [n]) n now hf (snoc_ne_root hsnil n) (by simp)
      hchild
    cases hres : copyAll fuel ({ st with root := setAt st.root (source ++ [n]) (.dir []) }) (source ++ [n]) ((source ++ [n]) ++ [n]) now with
    | mk st' r =>
      rw [hres] at hnext
      simp only [] at hnext
      subst hnext
      rfl

/-- Claim C10 (amended): `copyAll`'s recursion is not well-founded on
the source subtree — no guard constrains the destination, and the child
enumeration re-queries the store on every call.  When the source and
destination paths are incomparable, the call terminates: fuel exceeding
the source-subtree size suffices and the call returns successfully.
When the destination lies inside the source's subtree the enumeration
picks up the freshly created destination directory and the recursion
descends through directories it has just created: for every fuel bound
it runs out of fuel. -/
theorem c10_termination :
    (∀ (st : Store) (source destination : Pth)
        (cs t₂ : List (Seg × Entry)) (fuel now : Nat),
      st.faults = [] → source ≠ ["root"] → source ≠ [] →
      destination ≠ ["root"] → destination ≠ [] →
      Incomp source destination →
      findE st.root source = some (.dir cs) → wfL cs = true →
      findE st.root destination = none →
      mkdirs st.root destination = some t₂ →
      sizeL cs < fuel →
      (copyAll fuel st source destination now).2 = .ok ()) ∧
    (∀ (fuel : Nat) (st : Store) (source : Pth) (n : Seg) (now : Nat),
      st.faults = [] → source ≠ ["root"] → source ≠ [] →
      findE st.root source = some (.dir []) →
      (copyAll fuel st source (source ++ [n]) now).2 =
        .error .outOfFuel) := by
  constructor
  · intro st source destination cs t₂ fuel now hf hsroot hsnil hdroot
      hdnil hinc he hwcs habs hmkd hfuel
    rw [copyAll_clone fuel st source destination cs t₂ now hf hsroot hsnil
      hdroot hdnil hinc he hwcs habs hmkd hfuel]
  · intro fuel st source n now hf hsroot hsnil he
    exact copyAll_self_feed fuel st source n now hf hsroot hsnil he

/-- Claim C10, counterexample to the unconditional well-foundedness of
the recursion: on the store holding the single empty directory `a` — a
source subtree of size 1 — the call `copyAll(a, a/b)` still runs out of
fuel at depth 10 (the accompanying theorem extends this to every
depth): a recursion that descended a strictly smaller child subtree on
each call would have terminated long before. -/
theorem c10_counterexample :
    (copyAll 10 ⟨[("a", .dir [])], [], [], [], false⟩ ["a"] ["a", "b"]
      9).2 = .error .outOfFuel ∧
    sizeE (.dir ([] : List (Seg × Entry))) = 1 :=
  ⟨rfl, rfl⟩

/-- Claim C10 witness: with incomparable paths the copy of directory `s`
to `t` succeeds at fuel 5, while the self-feeding call under `a`
exhausts fuel 4 (and, per the theorem, any other bound). -/
theorem c10_witness :
    (copyAll 5 ⟨[("s", .dir [("f", .file [3] 1)])], [], [], [], false⟩
      ["s"] ["t"] 9).2 = .ok () ∧
    (copyAll 4 ⟨[("a", .dir [])], [], [], [], false⟩ ["a"]
      (["a"] ++ ["b"]) 7).2 = .error .outOfFuel :=
  ⟨c10_termination.1 ⟨[("s", .dir [("f", .file [3] 1)])], [], [], [],
      false⟩ ["s"] ["t"] [("f", .file [3] 1)]
      [("s", .dir [("f", .file [3] 1)]), ("t", .dir [])] 5 9 rfl
      (by decide) (by decide) (by decide) (by decide)
      ⟨by decide, by decide⟩ rfl (by decide) rfl rfl (by decide),
   c10_termination.2 4 ⟨[("a", .dir [])], [], [], [], false⟩ ["a"] "b" 7
      rfl (by decide) (by decide) rfl⟩

end FastHfs
